import Mathlib

/-!
Wavelet tree (`bpot/wt`): shallow embedding of `wt.go`.

The Go package builds a static wavelet tree over a byte sequence.  The tree is
stored as one flat bit array plus, per node in breadth-first order, the bit
offset at which the node's run starts and the number of one-bits before it.

Conventions of the embedding:

* a byte is a `Fin 256`; a Go slice is a `List`;
* a Go `uint64` is a `Nat`, with `add64`/`sub64` wrapping at `2^64`; a Go
  `int` is a `Nat` or an `Int` without wrap-around, which is exact for the
  sequences of fewer than `2^59` bytes that the theorems are about (the bit
  capacity is at most `9 * len(s)`);
* a Go runtime panic (index out of range) is `Except.error Err.panic`;
* unbounded `for` loops take an iteration budget; running out of it is the
  distinct outcome `Err.fuel`, so a theorem that states `.ok v` also states
  that the loop terminated within the budget;
* the two bitvector packages (`bv`, `rrr`) are not part of the repository;
  they are modelled as a list of bits with the operations the package uses.
-/

set_option autoImplicit false

namespace Wt

/-- A symbol: one byte. -/
abbrev Byte := Fin 256

/-- Outcomes other than a normal return. -/
inductive Err where
  /-- a Go runtime panic (index or slice bound out of range) -/
  | panic
  /-- the iteration budget of a modelled loop ran out -/
  | fuel
  /-- an `error` value handed back by the `rrr` collaborator -/
  | rrr (code : Nat)
deriving DecidableEq, Repr

/-- Go `xs[i]`: panics when `i` is out of range. -/
def idx {α : Type} (xs : List α) (i : Nat) : Except Err α :=
  match xs.get? i with
  | some x => .ok x
  | none => .error .panic

/-- Addition of two `uint64`. -/
def add64 (a b : Nat) : Nat := (a + b) % 2 ^ 64

/-- Subtraction of two `uint64` (wraps around). -/
def sub64 (a b : Nat) : Nat := (a + (2 ^ 64 - b % 2 ^ 64)) % 2 ^ 64

/-! ## The bitvector collaborators -/

/-- Modelled from the spec: `bv.New(size)`, the mutable bitvector builder of
package `bv` (not in the repository): `size` bits, all cleared. -/
def bvNew (size : Nat) : List Bool := List.replicate size false

/-- Modelled from the spec: `bv.Set(pos, true)` of package `bv` (not in the
repository): sets one bit; a position outside the allocated capacity is a
panic. -/
def bvSet (bits : List Bool) (pos : Nat) : Except Err (List Bool) :=
  if pos < bits.length then .ok (bits.set pos true) else .error .panic

/-- Modelled from the spec: the succinct bitvector of package `rrr` (not in
the repository), as the plain bit array it represents. -/
structure RRR where
  bits : List Bool
deriving DecidableEq, Repr

/-- Modelled from the spec: `rrr.Access(p)`, the bit at position `p`; a
position outside the bit array is a panic. -/
def RRR.Access (b : RRR) (p : Nat) : Except Err Bool := idx b.bits p

/-- Modelled from the spec: `rrr.Rank1(p)`, the number of one-bits in
`[0, p)`. -/
def RRR.Rank1 (b : RRR) (p : Nat) : Nat := (b.bits.take p).count true

/-- Modelled from the spec: `rrr.Rank0(p)`, the number of zero-bits in
`[0, p)`. -/
def RRR.Rank0 (b : RRR) (p : Nat) : Nat := (b.bits.take p).count false

/-! ## `bitLen` and `log2` -/

/-- The loop `for ; x >= 0x8000; x >>= 16 { n += 16 }` of `bitLen`; a 64-bit
value is shifted at most four times. -/
def bitLenLoop : Nat → Nat → Nat → Nat × Nat
  | 0, x, k => (x, k)
  | fuel + 1, x, k => if x ≥ 0x8000 then bitLenLoop fuel (x >>> 16) (k + 16) else (x, k)

/-- Go `bitLen`: length of `x` in bits. -/
def bitLen (x : Nat) : Nat :=
  let (x, k) := bitLenLoop 4 x 0
  let (x, k) := if x ≥ 0x80 then (x >>> 8, k + 8) else (x, k)
  let (x, k) := if x ≥ 0x8 then (x >>> 4, k + 4) else (x, k)
  let (x, k) := if x ≥ 0x2 then (x >>> 2, k + 2) else (x, k)
  if x ≥ 0x1 then k + 1 else k

/-- Go `log2`: `bitLen(x) - 1`, an `int`. -/
def log2 (x : Nat) : Int := (bitLen x : Int) - 1

/-! ## The tree and its construction -/

/-- Go `type WT struct`. -/
structure WT where
  bits : RRR
  alphabet : List Byte
  nodeOffsets : List Nat
  nodeRank1s : List Nat
deriving DecidableEq, Repr

/-- Go `type n struct`: a queued node, its sub-sequence and its alphabet. -/
structure n where
  s : List Byte
  alphabet : List Byte
deriving DecidableEq, Repr

/-- The inner loop of `buildTree`, `for _, ch := range node.s`: routes each
symbol left or right of `midCh`, writing one bit per symbol at `offset`. -/
def routeLoop (midCh : Byte) :
    List Byte → List Bool → Nat → List Byte → List Byte →
      Except Err (List Bool × Nat × List Byte × List Byte)
  | [], bits, offset, left, right => .ok (bits, offset, left, right)
  | ch :: rest, bits, offset, left, right =>
    if ch < midCh then
      routeLoop midCh rest bits (offset + 1) (left ++ [ch]) right
    else
      match bvSet bits offset with
      | .error e => .error e
      | .ok bits' => routeLoop midCh rest bits' (offset + 1) left (right ++ [ch])

/-- The local variables of `buildTree` that live across iterations of its
outer loop. -/
structure BuildState where
  bits : List Bool
  nodeOffsets : List Nat
  queued : List n
  offset : Nat
  nodeID : Nat
  internalNodes : Int
deriving DecidableEq, Repr

/-- The loop condition `len(queued) > 0 && internalNodes > 0`. -/
def buildCond (st : BuildState) : Bool :=
  decide (st.queued.length > 0) && decide (st.internalNodes > 0)

/-- One iteration of the outer loop of `buildTree` (the condition holds, so the
queue has a head). -/
def buildStep (st : BuildState) : Except Err BuildState :=
  match st.queued with
  | [] => .error .panic
  | node :: queued =>
    let nodeOffsets := st.nodeOffsets ++ [st.offset]
    if node.alphabet.length = 1 then
      .ok { st with nodeOffsets := nodeOffsets, queued := queued }
    else
      let internalNodes := st.internalNodes - 1
      let midIdx := (node.alphabet.length + 1) / 2
      match idx node.alphabet midIdx with
      | .error e => .error e
      | .ok midCh =>
        match routeLoop midCh node.s st.bits st.offset [] [] with
        | .error e => .error e
        | .ok (bits, offset, left, right) =>
          let queued := queued ++ [{ s := left, alphabet := node.alphabet.take midIdx }]
          let internalNodes :=
            if (node.alphabet.take midIdx).length > 1 then internalNodes + 1 else internalNodes
          let queued := queued ++ [{ s := right, alphabet := node.alphabet.drop midIdx }]
          let internalNodes :=
            if (node.alphabet.drop midIdx).length > 1 then internalNodes + 1 else internalNodes
          .ok { bits := bits, nodeOffsets := nodeOffsets, queued := queued, offset := offset,
                nodeID := st.nodeID + 1, internalNodes := internalNodes }

/-- The outer loop of `buildTree`, with an iteration budget. -/
def buildLoop : Nat → BuildState → Except Err BuildState
  | 0, st => if buildCond st then .error .fuel else .ok st
  | fuel + 1, st =>
    if buildCond st then
      match buildStep st with
      | .error e => .error e
      | .ok st' => buildLoop fuel st'
    else .ok st

/-- Go `buildTree`: the flat bit array and the node offsets.  Every iteration
dequeues one node and a tree over `len(alphabet)` symbols has fewer than
`2 * len(alphabet)` nodes, which bounds the number of iterations. -/
def buildTree (s : List Byte) (alphabet : List Byte) : Except Err (List Bool × List Nat) :=
  let bits := bvNew ((log2 alphabet.length + 1) * (s.length : Int)).toNat
  let st : BuildState :=
    { bits := bits, nodeOffsets := [], queued := [{ s := s, alphabet := alphabet }],
      offset := 0, nodeID := 1, internalNodes := 1 }
  match buildLoop (2 * alphabet.length + 1) st with
  | .error e => .error e
  | .ok st' => .ok (st'.bits, st'.nodeOffsets)

/-- The first loop of `New`: the table of used symbols (the running `min` and
`max` of the source are never read and are left out). -/
def usedSymbols (s : List Byte) : List Bool :=
  s.foldl (fun used ch => used.set ch.val true) (List.replicate 256 false)

/-- The second loop of `New`, `for ch, used := range usedSymbols`, from index
`ch` on: appends `byte(ch)` for every used entry. -/
def collectUsed : List Bool → Nat → List Byte → List Byte
  | [], _, alphabet => alphabet
  | used :: rest, ch, alphabet =>
    collectUsed rest (ch + 1) (if used then alphabet ++ [Fin.ofNat ch] else alphabet)

/-- The alphabet that `New` extracts from `s`. -/
def alphabetOf (s : List Byte) : List Byte := collectUsed (usedSymbols s) 0 []

/-- Go `populateNodeRanks`. -/
def populateNodeRanks (bits : RRR) (nodeOffsets : List Nat) : List Nat :=
  nodeOffsets.map (fun off => bits.Rank1 off)

/-- Go `New`.  `newFromBitVector` stands for `rrr.NewFromBitVector`. -/
def New (newFromBitVector : List Bool → Except Err RRR) (s : List Byte) : Except Err WT :=
  let alphabet := alphabetOf s
  match buildTree s alphabet with
  | .error e => .error e
  | .ok (bits, nodeOffsets) =>
    match newFromBitVector bits with
    | .error e => .error e
    | .ok bitsRRR =>
      .ok { alphabet := alphabet, bits := bitsRRR, nodeOffsets := nodeOffsets,
            nodeRank1s := populateNodeRanks bitsRRR nodeOffsets }

/-- Modelled from the spec: `rrr.NewFromBitVector` when it succeeds: the
succinct bitvector holds exactly the bits it was built from. -/
def rrrOfBits (bits : List Bool) : Except Err RRR := .ok { bits := bits }

/-! ## Queries -/

/-- The loop of `WT.Access`. -/
def accessLoop (w : WT) : Nat → Nat → List Byte → Nat → Except Err Byte
  | 0, _, _, _ => .error .fuel
  | fuel + 1, node, alphabet, rank =>
    match idx w.nodeOffsets (node - 1) with
    | .error e => .error e
    | .ok offset =>
      let midIdx := (alphabet.length + 1) / 2
      match w.bits.Access (add64 offset rank) with
      | .error e => .error e
      | .ok true =>
        match idx w.nodeRank1s (node - 1) with
        | .error e => .error e
        | .ok rankBase =>
          let rank := sub64 (w.bits.Rank1 (add64 offset rank)) rankBase
          let node := node * 2 + 1
          if node - 1 ≥ w.nodeOffsets.length then idx alphabet (alphabet.length - 1)
          else accessLoop w fuel node (alphabet.drop midIdx) rank
      | .ok false =>
        match idx w.nodeRank1s (node - 1) with
        | .error e => .error e
        | .ok r1 =>
          let rankBase := sub64 offset r1
          let rank := sub64 (w.bits.Rank0 (add64 offset rank)) rankBase
          let node := node * 2
          if node - 1 ≥ w.nodeOffsets.length then idx alphabet 0
          else accessLoop w fuel node (alphabet.take midIdx) rank

/-- Go `WT.Access`.  Every iteration reads `nodeOffsets[node-1]` and at least
doubles `node`, so `len(nodeOffsets) + 1` iterations are never exceeded. -/
def WT.Access (w : WT) (i : Nat) : Except Err Byte :=
  accessLoop w (w.nodeOffsets.length + 1) 1 w.alphabet i

/-- The loop of `WT.Rank`. -/
def rankLoop (w : WT) (c : Byte) : Nat → Nat → List Byte → Nat → Except Err Nat
  | 0, _, _, _ => .error .fuel
  | fuel + 1, node, alphabet, rank =>
    match idx w.nodeOffsets (node - 1) with
    | .error e => .error e
    | .ok offset =>
      let midIdx := (alphabet.length + 1) / 2
      if alphabet.length = 1 then .ok rank
      else
        match idx alphabet midIdx with
        | .error e => .error e
        | .ok midCh =>
          if c < midCh then
            match idx w.nodeRank1s (node - 1) with
            | .error e => .error e
            | .ok r1 =>
              let rankBase := sub64 offset r1
              let rank := sub64 (w.bits.Rank0 (add64 offset rank)) rankBase
              let node := node * 2
              if (alphabet.take midIdx).length = 1 then .ok rank
              else rankLoop w c fuel node (alphabet.take midIdx) rank
          else
            match idx w.nodeRank1s (node - 1) with
            | .error e => .error e
            | .ok rankBase =>
              let rank := sub64 (w.bits.Rank1 (add64 offset rank)) rankBase
              let node := node * 2 + 1
              if (alphabet.drop midIdx).length = 1 then .ok rank
              else rankLoop w c fuel node (alphabet.drop midIdx) rank

/-- The membership scan at the head of `WT.Rank`. -/
def foundIn (alphabet : List Byte) (c : Byte) : Bool :=
  alphabet.foldl (fun found ch => if ch = c then true else found) false

/-- Go `WT.Rank`. -/
def WT.Rank (w : WT) (c : Byte) (i : Nat) : Except Err Nat :=
  if !foundIn w.alphabet c then .ok 0
  else rankLoop w c (w.nodeOffsets.length + 1) 1 w.alphabet i

/-- The loop of `WT.InverseSelect`. -/
def inverseSelectLoop (w : WT) : Nat → Nat → List Byte → Nat → Except Err (Byte × Nat)
  | 0, _, _, _ => .error .fuel
  | fuel + 1, node, alphabet, rank =>
    match idx w.nodeOffsets (node - 1) with
    | .error e => .error e
    | .ok offset =>
      let midIdx := (alphabet.length + 1) / 2
      match w.bits.Access (add64 offset rank) with
      | .error e => .error e
      | .ok true =>
        let rankFull := w.bits.Rank1 (add64 offset rank)
        match idx w.nodeRank1s (node - 1) with
        | .error e => .error e
        | .ok rankBase =>
          let rank := sub64 rankFull rankBase
          let node := node * 2 + 1
          let alphabet := alphabet.drop midIdx
          if alphabet.length = 1 then
            match idx alphabet 0 with
            | .error e => .error e
            | .ok c => .ok (c, rank)
          else inverseSelectLoop w fuel node alphabet rank
      | .ok false =>
        let rankFull := w.bits.Rank0 (add64 offset rank)
        match idx w.nodeRank1s (node - 1) with
        | .error e => .error e
        | .ok r1 =>
          let rankBase := sub64 offset r1
          let rank := sub64 rankFull rankBase
          let node := node * 2
          let alphabet := alphabet.take midIdx
          if alphabet.length = 1 then
            match idx alphabet 0 with
            | .error e => .error e
            | .ok c => .ok (c, rank)
          else inverseSelectLoop w fuel node alphabet rank

/-- Go `WT.InverseSelect`. -/
def WT.InverseSelect (w : WT) (i : Nat) : Except Err (Byte × Nat) :=
  inverseSelectLoop w (w.nodeOffsets.length + 1) 1 w.alphabet i


/-! ## Serialization -/

/-- Modelled from the spec: `binary.LittleEndian.PutUint64` of the Go standard
library: the eight bytes of a `uint64`, least significant first. -/
def putUint64 (v : Nat) : List Byte :=
  [Fin.ofNat v, Fin.ofNat (v >>> 8), Fin.ofNat (v >>> 16), Fin.ofNat (v >>> 24),
   Fin.ofNat (v >>> 32), Fin.ofNat (v >>> 40), Fin.ofNat (v >>> 48), Fin.ofNat (v >>> 56)]

/-- The little-endian value of eight bytes. -/
def le64 (b0 b1 b2 b3 b4 b5 b6 b7 : Byte) : Nat :=
  b0.val + 2 ^ 8 * b1.val + 2 ^ 16 * b2.val + 2 ^ 24 * b3.val + 2 ^ 32 * b4.val +
    2 ^ 40 * b5.val + 2 ^ 48 * b6.val + 2 ^ 56 * b7.val

/-- Modelled from the spec: `binary.LittleEndian.Uint64` of the Go standard
library: the little-endian value of the first eight bytes; a shorter buffer is
a panic. -/
def getUint64 : List Byte → Except Err Nat
  | b0 :: b1 :: b2 :: b3 :: b4 :: b5 :: b6 :: b7 :: _ => .ok (le64 b0 b1 b2 b3 b4 b5 b6 b7)
  | _ => .error .panic

/-- Go `uint64SliceAsByteSlice`: the memory of the slice seen as bytes, which on
a little-endian platform is every element as eight little-endian bytes. -/
def uint64SliceAsByteSlice (slice : List Nat) : List Byte := slice.flatMap putUint64

/-- Go `byteSliceAsUint64Slice`: the memory of the slice seen as `len/8`
little-endian `uint64` values. -/
def byteSliceAsUint64Slice : List Byte → List Nat
  | b0 :: b1 :: b2 :: b3 :: b4 :: b5 :: b6 :: b7 :: rest =>
    le64 b0 b1 b2 b3 b4 b5 b6 b7 :: byteSliceAsUint64Slice rest
  | _ => []

/-- Go `int(x)` for a `uint64` `x`: the two's complement reading. -/
def toInt (v : Nat) : Int :=
  if v % 2 ^ 64 < 2 ^ 63 then ((v % 2 ^ 64 : Nat) : Int) else ((v % 2 ^ 64 : Nat) : Int) - 2 ^ 64

/-- Go `8 * k` on `int`: wraps around in 64 bits. -/
def mul8 (k : Int) : Int := (8 * k + 2 ^ 63) % 2 ^ 64 - 2 ^ 63

/-- Go `buf[:k]`: panics unless `0 ≤ k ≤ cap(buf)`; the capacity of a buffer is
taken to be its length. -/
def sliceTo (buf : List Byte) (k : Int) : Except Err (List Byte) :=
  if 0 ≤ k ∧ k ≤ (buf.length : Int) then .ok (buf.take k.toNat) else .error .panic

/-- Go `buf[k:]`: panics unless `0 ≤ k ≤ len(buf)`. -/
def sliceFrom (buf : List Byte) (k : Int) : Except Err (List Byte) :=
  if 0 ≤ k ∧ k ≤ (buf.length : Int) then .ok (buf.drop k.toNat) else .error .panic

/-- An `io.Writer` that is an in-memory buffer (`bytes.Buffer`): `Write`
appends and never fails. -/
def bufferWrite (writer : List Byte) (data : List Byte) : Except Err (List Byte) :=
  .ok (writer ++ data)

/-- Go `WT.WriteTo`.  The state of the `io.Writer` is the list of bytes it has
received; `write` is its `Write` method and `rrrWriteTo` stands for
`rrr.WriteTo`, which writes to the same writer. -/
def WT.WriteTo (write : List Byte → List Byte → Except Err (List Byte))
    (rrrWriteTo : RRR → List Byte → Except Err (List Byte)) (w : WT) (writer : List Byte) :
    Except Err (List Byte) :=
  match write writer (putUint64 w.alphabet.length) with
  | .error e => .error e
  | .ok writer =>
    match write writer w.alphabet with
    | .error e => .error e
    | .ok writer =>
      match write writer (putUint64 w.nodeOffsets.length) with
      | .error e => .error e
      | .ok writer =>
        match write writer (uint64SliceAsByteSlice w.nodeOffsets) with
        | .error e => .error e
        | .ok writer =>
          match write writer (putUint64 w.nodeRank1s.length) with
          | .error e => .error e
          | .ok writer =>
            match write writer (uint64SliceAsByteSlice w.nodeRank1s) with
            | .error e => .error e
            | .ok writer =>
              match rrrWriteTo w.bits writer with
              | .error e => .error e
              | .ok writer => .ok writer

/-- The three results of Go `NewFromSerialized`. -/
structure Decoded where
  wt : Option WT
  wtBytes : Int
  err : Option Err
deriving DecidableEq, Repr

/-- Go `NewFromSerialized`.  `rrrNewFromSerialized` stands for
`rrr.NewFromSerialized`: it returns the bitvector and the number of bytes it
consumed, or an error.  The outer `Except` is a runtime panic of a slice
expression. -/
def NewFromSerialized (rrrNewFromSerialized : List Byte → Except Err (RRR × Int))
    (buf : List Byte) : Except Err Decoded :=
  match getUint64 buf with
  | .error e => .error e
  | .ok v =>
    let alphabetSize := toInt v
    let buf := buf.drop 8
    let wtBytes : Int := 0 + 8
    match sliceTo buf alphabetSize with
    | .error e => .error e
    | .ok alphabet =>
    match sliceFrom buf alphabetSize with
    | .error e => .error e
    | .ok buf =>
    let wtBytes := wtBytes + alphabetSize
    match getUint64 buf with
    | .error e => .error e
    | .ok v =>
    let rankSize := toInt v
    let buf := buf.drop 8
    let wtBytes := wtBytes + 8
    match sliceTo buf (mul8 rankSize) with
    | .error e => .error e
    | .ok offsetBytes =>
    let nodeOffsets := byteSliceAsUint64Slice offsetBytes
    match sliceFrom buf (mul8 rankSize) with
    | .error e => .error e
    | .ok buf =>
    let wtBytes := wtBytes + mul8 rankSize
    match getUint64 buf with
    | .error e => .error e
    | .ok v =>
    let nodeRank1sSize := toInt v
    let buf := buf.drop 8
    let wtBytes := wtBytes + 8
    match sliceTo buf (mul8 nodeRank1sSize) with
    | .error e => .error e
    | .ok rankBytes =>
    let nodeRank1s := byteSliceAsUint64Slice rankBytes
    match sliceFrom buf (mul8 nodeRank1sSize) with
    | .error e => .error e
    | .ok buf =>
    let wtBytes := wtBytes + mul8 nodeRank1sSize
    match rrrNewFromSerialized buf with
    | .error e => .ok { wt := none, wtBytes := 0, err := some e }
    | .ok (bits, rrrBytes) =>
      .ok { wt := some { bits := bits, alphabet := alphabet,
                         nodeOffsets := nodeOffsets, nodeRank1s := nodeRank1s },
            wtBytes := wtBytes + rrrBytes, err := none }

/-- A toy serializer for bit arrays, used to instantiate the collaborator in
examples: one byte per bit, closed by the byte `2`. -/
def toyBytes (b : RRR) : List Byte := b.bits.map (fun x => if x then 1 else 0) ++ [2]

/-- The writer side of the toy serializer. -/
def toyWriteTo (b : RRR) (writer : List Byte) : Except Err (List Byte) :=
  .ok (writer ++ toyBytes b)

/-- The parser of the toy serializer: the bits up to the closing byte and the
number of bytes read. -/
def toyParse : List Byte → Option (List Bool × Int)
  | [] => none
  | x :: rest =>
    if x = 2 then some ([], 1)
    else
      match toyParse rest with
      | none => none
      | some (bits, k) => some (decide (x = 1) :: bits, k + 1)

/-- The reader side of the toy serializer. -/
def toyNewFromSerialized (buf : List Byte) : Except Err (RRR × Int) :=
  match toyParse buf with
  | none => .error (.rrr 1)
  | some (bits, k) => .ok ({ bits := bits }, k)

/-! ## The implicit tree, level by level

These definitions describe the tree that `buildTree` walks: they are the
vocabulary of the invariants below, and are not part of the Go code. -/

/-- The split symbol `alphabet[midIdx]` of a node with alphabet `a`. -/
def midCh (a : List Byte) : Byte := a.getD ((a.length + 1) / 2) 0

/-- The left child that `buildTree` enqueues for an internal node. -/
def leftChild (x : n) : n :=
  { s := x.s.filter (fun ch => decide (ch < midCh x.alphabet)),
    alphabet := x.alphabet.take ((x.alphabet.length + 1) / 2) }

/-- The right child that `buildTree` enqueues for an internal node. -/
def rightChild (x : n) : n :=
  { s := x.s.filter (fun ch => !decide (ch < midCh x.alphabet)),
    alphabet := x.alphabet.drop ((x.alphabet.length + 1) / 2) }

/-- Both children, in queue order. -/
def children (x : n) : List n := [leftChild x, rightChild x]

/-- The nodes of depth `d`, left to right (heap indices `2^d .. 2^(d+1)-1`). -/
def level (root : n) : Nat → List n
  | 0 => [root]
  | d + 1 => (level root d).flatMap children

/-- The bits a dequeued node writes: none for a leaf, else one per symbol. -/
def region (x : n) : List Bool :=
  if x.alphabet.length = 1 then [] else x.s.map (fun ch => !decide (ch < midCh x.alphabet))

/-- The bits written by a list of dequeued nodes. -/
def written (T : List n) : List Bool := T.flatMap region

/-- All nodes of depth less than `d`, in heap order. -/
def levelsBelow (root : n) : Nat → List n
  | 0 => []
  | d + 1 => levelsBelow root d ++ level root d

/-- The first `2^d - 1 + p` nodes in heap order. -/
def tableAt (root : n) (d p : Nat) : List n := levelsBelow root d ++ (level root d).take p

/-- The offset table of a list of dequeued nodes. -/
def offs (T : List n) : List Nat :=
  (List.range T.length).map (fun j => (written (T.take j)).length)

/-- A node is well formed: its alphabet is strictly ascending and holds every
symbol of its sub-sequence. -/
def NodeOK (x : n) : Prop := x.alphabet.Pairwise (· < ·) ∧ ∀ ch ∈ x.s, ch ∈ x.alphabet

/-- The number of queued nodes that still count as internal. -/
def countInternal (q : List n) : Nat := q.countP (fun x => decide (1 < x.alphabet.length))

/-- The loop invariant of `buildTree` after the first `p` nodes of depth `d`
(and every node above them) have been dequeued. -/
structure Inv (root : n) (cap d p : Nat) (st : BuildState) : Prop where
  hp : p ≤ 2 ^ d
  hd : 2 ^ d ≤ root.alphabet.length
  queued : st.queued = (level root d).drop p ++
    (((level root d).take p).filter (fun x => decide (1 < x.alphabet.length))).flatMap children
  nodeOffsets : st.nodeOffsets = offs (tableAt root d p)
  offset : st.offset = (written (tableAt root d p)).length
  bits : st.bits = written (tableAt root d p) ++
    List.replicate (cap - (written (tableAt root d p)).length) false
  internal : st.internalNodes = (countInternal st.queued : Int)

/-- What `buildTree` returns: the first `2^d - 1 + p` nodes of the tree in
heap order have been dequeued, their runs fill the front of the bit array, and
no node with more than one symbol is left in the queue. -/
structure Built (root : n) (bits : List Bool) (nodeOffsets : List Nat) (d p : Nat) : Prop where
  hp : p ≤ 2 ^ d
  hd : 2 ^ d ≤ root.alphabet.length
  hroot : 1 ≤ 2 ^ d - 1 + p
  hoffs : nodeOffsets = offs (tableAt root d p)
  hbits : ∃ k, bits = written (tableAt root d p) ++ List.replicate k false
  hcap : (d + 1) * root.s.length ≤ bits.length
  rest : ∀ y ∈ (level root d).drop p, y.alphabet.length ≤ 1
  kids : ∀ x ∈ (level root d).take p, 1 < x.alphabet.length →
    (leftChild x).alphabet.length ≤ 1 ∧ (rightChild x).alphabet.length ≤ 1


/-- The bit offset at which node `q` of depth `e` starts. -/
def offAt (root : n) (e q : Nat) : Nat := (written (tableAt root e q)).length

/-- The number of one-bits before node `q` of depth `e`. -/
def onesAt (root : n) (e q : Nat) : Nat := (written (tableAt root e q)).count true

/-- The tree assembled by `New` from the output of `buildTree`. -/
def mkWT (alphabet : List Byte) (bits : List Bool) (nodeOffsets : List Nat) : WT :=
  { bits := { bits := bits }, alphabet := alphabet, nodeOffsets := nodeOffsets,
    nodeRank1s := populateNodeRanks { bits := bits } nodeOffsets }

/-- Everything the query proofs assume about a built tree. -/
structure Ctx (root : n) (bits : List Bool) (nodeOffsets : List Nat) (d p : Nat) : Prop where
  built : Built root bits nodeOffsets d p
  ok : NodeOK root
  fit : bits.length < 2 ^ 64

/-- The number of positions `j < i` with `s[j] = c`, in the words of the
specification of `Rank`. -/
def occurrencesBefore (s : List Byte) (c : Byte) (i : Nat) : Nat :=
  ((List.range i).filter (fun j => decide (s[j]? = some c))).length

/-- The sizes and entries of a tree fit the 64-bit fields of the wire format. -/
def Encodable (w : WT) : Prop :=
  w.alphabet.length < 2 ^ 60 ∧ w.nodeOffsets.length < 2 ^ 60 ∧ w.nodeRank1s.length < 2 ^ 60 ∧
    (∀ v ∈ w.nodeOffsets, v < 2 ^ 64) ∧ (∀ v ∈ w.nodeRank1s, v < 2 ^ 64)

/-- The bytes `WriteTo` sends to the writer before the collaborator's blob. -/
def headerBytes (w : WT) : List Byte :=
  putUint64 w.alphabet.length ++ w.alphabet ++ putUint64 w.nodeOffsets.length ++
    uint64SliceAsByteSlice w.nodeOffsets ++ putUint64 w.nodeRank1s.length ++
    uint64SliceAsByteSlice w.nodeRank1s

/-- The text `"bananaz"` of the package's tests. -/
def bananaz : List Byte := [98, 97, 110, 97, 110, 97, 122]

/-- The text `"ipssm\x00pissii"` of the package's tests. -/
def ipssm : List Byte := [105, 112, 115, 115, 109, 0, 112, 105, 115, 115, 105, 105]

/-! ## Ghost instrumentation of the loops

The definitions below follow the loops of the source step by step and record
what the claims speak about: the states at the top of the construction loop,
the nodes it dequeues, and the bit positions a query reads. -/

/-- The state of `buildTree` when its outer loop is first reached. -/
def buildInit (s : List Byte) (alphabet : List Byte) : BuildState :=
  { bits := bvNew ((log2 alphabet.length + 1) * (s.length : Int)).toNat,
    nodeOffsets := [], queued := [{ s := s, alphabet := alphabet }],
    offset := 0, nodeID := 1, internalNodes := 1 }

/-- The state of `buildTree` when its outer loop is left: `buildTree` returns
the `bits` and `nodeOffsets` of that state, and `offset` is the final write
cursor. -/
def buildRun (s : List Byte) (alphabet : List Byte) : Except Err BuildState :=
  buildLoop (2 * alphabet.length + 1) (buildInit s alphabet)

/-- The states at the top of the outer loop of `buildTree`, one per evaluation
of the loop condition, in order. -/
def buildStates : Nat → BuildState → List BuildState
  | 0, st => [st]
  | fuel + 1, st =>
    if buildCond st then
      match buildStep st with
      | .error _ => [st]
      | .ok st' => st :: buildStates fuel st'
    else [st]

/-- The nodes dequeued along a list of loop-top states: the head of the queue of
every state but the last. -/
def dequeuedOf : List BuildState → List n
  | [] => []
  | [_] => []
  | st :: st' :: rest => st.queued.head?.toList ++ dequeuedOf (st' :: rest)

/-- The node with a given heap index of the implicit tree, in the words of the
specification: the root is `1`, node `2k` owns the first `(len+1)/2` symbols of
node `k` and node `2k+1` the rest.  The first argument bounds the recursion. -/
def heapNode (root : n) : Nat → Nat → n
  | 0, _ => root
  | fuel + 1, k =>
    if k ≤ 1 then root
    else if k % 2 = 0 then leftChild (heapNode root fuel (k / 2))
    else rightChild (heapNode root fuel (k / 2))

/-- The node with heap index `k`. -/
def nodeAt (root : n) (k : Nat) : n := heapNode root k k

/-- The part of `NewFromSerialized` before the call of the collaborator: the
buffer that is left when the three length-prefixed sections have been read, or
a panic when one of them does not fit. -/
def payloadOf (buf : List Byte) : Except Err (List Byte) :=
  match getUint64 buf with
  | .error e => .error e
  | .ok v =>
    let alphabetSize := toInt v
    let buf := buf.drop 8
    match sliceTo buf alphabetSize with
    | .error e => .error e
    | .ok _ =>
    match sliceFrom buf alphabetSize with
    | .error e => .error e
    | .ok buf =>
    match getUint64 buf with
    | .error e => .error e
    | .ok v =>
    let rankSize := toInt v
    let buf := buf.drop 8
    match sliceTo buf (mul8 rankSize) with
    | .error e => .error e
    | .ok _ =>
    match sliceFrom buf (mul8 rankSize) with
    | .error e => .error e
    | .ok buf =>
    match getUint64 buf with
    | .error e => .error e
    | .ok v =>
    let nodeRank1sSize := toInt v
    let buf := buf.drop 8
    match sliceTo buf (mul8 nodeRank1sSize) with
    | .error e => .error e
    | .ok _ =>
    match sliceFrom buf (mul8 nodeRank1sSize) with
    | .error e => .error e
    | .ok buf => .ok buf

/-- The positions that the loop of `WT.Access` passes to `bits.Access`, in
order; the control flow is that of `accessLoop`. -/
def accessReads (w : WT) : Nat → Nat → List Byte → Nat → List Nat
  | 0, _, _, _ => []
  | fuel + 1, node, alphabet, rank =>
    match idx w.nodeOffsets (node - 1) with
    | .error _ => []
    | .ok offset =>
      let midIdx := (alphabet.length + 1) / 2
      add64 offset rank ::
        match w.bits.Access (add64 offset rank) with
        | .error _ => []
        | .ok true =>
          match idx w.nodeRank1s (node - 1) with
          | .error _ => []
          | .ok rankBase =>
            let rank := sub64 (w.bits.Rank1 (add64 offset rank)) rankBase
            let node := node * 2 + 1
            if node - 1 ≥ w.nodeOffsets.length then []
            else accessReads w fuel node (alphabet.drop midIdx) rank
        | .ok false =>
          match idx w.nodeRank1s (node - 1) with
          | .error _ => []
          | .ok r1 =>
            let rankBase := sub64 offset r1
            let rank := sub64 (w.bits.Rank0 (add64 offset rank)) rankBase
            let node := node * 2
            if node - 1 ≥ w.nodeOffsets.length then []
            else accessReads w fuel node (alphabet.take midIdx) rank

/-- The positions that the loop of `WT.InverseSelect` passes to `bits.Access`,
in order; the control flow is that of `inverseSelectLoop`. -/
def inverseSelectReads (w : WT) : Nat → Nat → List Byte → Nat → List Nat
  | 0, _, _, _ => []
  | fuel + 1, node, alphabet, rank =>
    match idx w.nodeOffsets (node - 1) with
    | .error _ => []
    | .ok offset =>
      let midIdx := (alphabet.length + 1) / 2
      add64 offset rank ::
        match w.bits.Access (add64 offset rank) with
        | .error _ => []
        | .ok true =>
          match idx w.nodeRank1s (node - 1) with
          | .error _ => []
          | .ok rankBase =>
            let rank := sub64 (w.bits.Rank1 (add64 offset rank)) rankBase
            let node := node * 2 + 1
            let alphabet := alphabet.drop midIdx
            if alphabet.length = 1 then []
            else inverseSelectReads w fuel node alphabet rank
        | .ok false =>
          match idx w.nodeRank1s (node - 1) with
          | .error _ => []
          | .ok r1 =>
            let rankBase := sub64 offset r1
            let rank := sub64 (w.bits.Rank0 (add64 offset rank)) rankBase
            let node := node * 2
            let alphabet := alphabet.take midIdx
            if alphabet.length = 1 then []
            else inverseSelectReads w fuel node alphabet rank

/-- The least `k` with `x ≤ 2^k`, written `⌈log₂ x⌉` in the specification. -/
def ceilLog2 (x : Nat) : Nat := Nat.clog 2 x

/-- The sequence `"abcdefcc"` as bytes `0..5`: six symbols, the third of them
three times. -/
def sixSymbols : List Byte := [0, 1, 2, 3, 4, 5, 2, 2]

/-- What is known about a completed run of the construction loop: `st` is the
state in which the loop is left, `states` the loop-top states, and the first
`2^d - 1 + p` nodes in heap order are the nodes that were dequeued. -/
structure FullRun (root : n) (st : BuildState) (states : List BuildState) (d p : Nat) :
    Prop where
  built : Built root st.bits st.nodeOffsets d p
  cursor : st.offset = (written (tableAt root d p)).length
  caplen : st.bits.length = ((log2 root.alphabet.length + 1) * (root.s.length : Int)).toNat
  last : states.getLast? = some st
  done : buildCond st = false
  deq : dequeuedOf states = tableAt root d p
  lastInternal : 2 ≤ root.alphabet.length →
    ∃ x, (tableAt root d p).getLast? = some x ∧ 1 < x.alphabet.length
  tops : 2 ≤ root.alphabet.length → ∀ t ∈ states, ∃ e q,
    Inv root ((log2 root.alphabet.length + 1) * (root.s.length : Int)).toNat e q t
  single : root.alphabet.length = 1 → d = 0 ∧ p = 1 ∧
    ∀ t ∈ states, t.internalNodes = 1 ∧ (t.queued = [root] ∨ t.queued = [])

/-- Every symbol of the node's alphabet occurs in its sub-sequence. -/
def NodeFull (x : n) : Prop := ∀ a ∈ x.alphabet, a ∈ x.s

/-! ## Alphabet extraction -/

theorem usedSymbols_fold_length (s : List Byte) (t : List Bool) :
    (s.foldl (fun used ch => used.set ch.val true) t).length = t.length := by
  induction s generalizing t with
  | nil => rfl
  | cons a s ih => simp [ih]

theorem usedSymbols_fold_get (s : List Byte) (t : List Bool) (ht : t.length = 256) (i : Nat) :
    (s.foldl (fun used ch => used.set ch.val true) t)[i]? = some true ↔
      t[i]? = some true ∨ ∃ b ∈ s, b.val = i := by
  induction s generalizing t with
  | nil => simp
  | cons a s ih =>
    simp only [List.foldl_cons]
    rw [ih _ (by simpa using ht)]
    by_cases h : a.val = i
    · subst h
      have : a.val < t.length := by rw [ht]; exact a.isLt
      simp [List.getElem?_set_self this]
    · rw [List.getElem?_set_ne h]
      constructor
      · rintro (h1 | ⟨b, hb, hbi⟩)
        · exact Or.inl h1
        · exact Or.inr ⟨b, List.mem_cons_of_mem _ hb, hbi⟩
      · rintro (h1 | ⟨b, hb, hbi⟩)
        · exact Or.inl h1
        · rcases List.mem_cons.1 hb with rfl | hb
          · exact absurd hbi h
          · exact Or.inr ⟨b, hb, hbi⟩

theorem usedSymbols_length (s : List Byte) : (usedSymbols s).length = 256 := by
  unfold usedSymbols
  rw [usedSymbols_fold_length]; exact List.length_replicate _ _

theorem usedSymbols_get (s : List Byte) (b : Byte) :
    (usedSymbols s)[b.val]? = some true ↔ b ∈ s := by
  unfold usedSymbols
  rw [usedSymbols_fold_get _ _ (List.length_replicate _ _)]
  have hb := b.isLt
  constructor
  · rintro (h | ⟨c, hc, hcb⟩)
    · rw [List.getElem?_replicate] at h
      split at h <;> cases h
    · have : c = b := Fin.ext hcb
      exact this ▸ hc
  · intro h; exact Or.inr ⟨b, h, rfl⟩

theorem collectUsed_spec (l : List Bool) (ch : Nat) (acc : List Byte) (h : ch + l.length ≤ 256) :
    ∃ tl : List Byte, collectUsed l ch acc = acc ++ tl ∧ tl.Pairwise (· < ·) ∧
      ∀ b : Byte, b ∈ tl ↔ ch ≤ b.val ∧ l[b.val - ch]? = some true := by
  induction l generalizing ch acc with
  | nil => exact ⟨[], by simp [collectUsed], List.Pairwise.nil, by simp⟩
  | cons u rest ih =>
    have hlen : ch + 1 + rest.length ≤ 256 := by simp at h; omega
    have hch : ch < 256 := by simp at h; omega
    have hval : (Fin.ofNat ch : Byte).val = ch := by
      show ch % 256 = ch
      exact Nat.mod_eq_of_lt hch
    obtain ⟨tl, heq, hpw, hmem⟩ := ih (ch + 1) (if u then acc ++ [Fin.ofNat ch] else acc) hlen
    have hstep : ∀ b : Byte, ch + 1 ≤ b.val →
        ((u :: rest)[b.val - ch]? = rest[b.val - (ch + 1)]?) := by
      intro b hb
      have : b.val - ch = (b.val - (ch + 1)) + 1 := by omega
      rw [this, List.getElem?_cons_succ]
    cases u with
    | false =>
      refine ⟨tl, by simpa [collectUsed] using heq, hpw, ?_⟩
      intro b
      rw [hmem b]
      constructor
      · rintro ⟨h1, h2⟩
        exact ⟨by omega, by rw [hstep b h1]; exact h2⟩
      · rintro ⟨h1, h2⟩
        by_cases hb : b.val = ch
        · simp [hb] at h2
        · have h3 : ch + 1 ≤ b.val := by omega
          exact ⟨h3, by rw [← hstep b h3]; exact h2⟩
    | true =>
      refine ⟨Fin.ofNat ch :: tl, by simpa [collectUsed] using heq, ?_, ?_⟩
      · refine List.Pairwise.cons ?_ hpw
        intro b hb
        have := ((hmem b).1 hb).1
        show (Fin.ofNat ch : Byte).val < b.val
        rw [hval]; omega
      · intro b
        rw [List.mem_cons, hmem b]
        constructor
        · rintro (rfl | ⟨h1, h2⟩)
          · rw [hval]; simp
          · exact ⟨by omega, by rw [hstep b h1]; exact h2⟩
        · rintro ⟨h1, h2⟩
          by_cases hb : b.val = ch
          · left; exact Fin.ext (by rw [hval]; exact hb)
          · have h3 : ch + 1 ≤ b.val := by omega
            exact Or.inr ⟨h3, by rw [← hstep b h3]; exact h2⟩

theorem alphabetOf_sorted (s : List Byte) : (alphabetOf s).Pairwise (· < ·) := by
  obtain ⟨tl, heq, hpw, -⟩ := collectUsed_spec (usedSymbols s) 0 [] (by simp [usedSymbols_length])
  unfold alphabetOf
  rw [heq]; simpa using hpw

theorem mem_alphabetOf (s : List Byte) (b : Byte) : b ∈ alphabetOf s ↔ b ∈ s := by
  obtain ⟨tl, heq, -, hmem⟩ := collectUsed_spec (usedSymbols s) 0 [] (by simp [usedSymbols_length])
  unfold alphabetOf
  rw [heq, List.nil_append, hmem b]
  simp [usedSymbols_get]

theorem alphabetOf_ne_nil (s : List Byte) (hs : s ≠ []) : alphabetOf s ≠ [] := by
  obtain ⟨a, rest, rfl⟩ := List.exists_cons_of_ne_nil hs
  intro h
  have : a ∈ alphabetOf (a :: rest) := (mem_alphabetOf _ a).2 (List.mem_cons_self _ _)
  rw [h] at this
  simp at this

/-! ## `bitLen` and `log2` -/

theorem size_shiftRight_add (x k : Nat) (hk : 1 ≤ k) (h : 2 ^ (k - 1) ≤ x) :
    Nat.size (x >>> k) + k = Nat.size x := by
  have h1 : k ≤ Nat.size x := by
    have := Nat.lt_size.2 h
    omega
  have h2 : Nat.size (x >>> k) = Nat.size x - k := by
    apply le_antisymm
    · rw [Nat.size_le, Nat.shiftRight_eq_div_pow, Nat.div_lt_iff_lt_mul (Nat.two_pow_pos k),
        ← pow_add, Nat.sub_add_cancel h1]
      exact Nat.lt_size_self x
    · by_cases h0 : Nat.size x - k = 0
      · omega
      · have : Nat.size x - k - 1 < Nat.size (x >>> k) := by
          rw [Nat.lt_size, Nat.shiftRight_eq_div_pow, Nat.le_div_iff_mul_le (Nat.two_pow_pos k),
            ← pow_add]
          have e : Nat.size x - k - 1 + k = Nat.size x - 1 := by omega
          rw [e]
          have : Nat.size x - 1 < Nat.size x := by omega
          exact Nat.lt_size.1 this
        omega
  omega

theorem shiftRight_lt (x k m : Nat) (h : x < 2 ^ (m + k)) : x >>> k < 2 ^ m := by
  rw [Nat.shiftRight_eq_div_pow, Nat.div_lt_iff_lt_mul (Nat.two_pow_pos k), ← pow_add]
  exact h

theorem bitLenLoop_spec (fuel x k : Nat) (hx : x < 2 ^ (16 * fuel)) :
    (bitLenLoop fuel x k).1 < 2 ^ 15 ∧
      Nat.size (bitLenLoop fuel x k).1 + (bitLenLoop fuel x k).2 = Nat.size x + k := by
  induction fuel generalizing x k with
  | zero =>
    have : x = 0 := by simpa using hx
    subst this
    simp [bitLenLoop]
  | succ fuel ih =>
    unfold bitLenLoop
    by_cases h : x ≥ 0x8000
    · simp only [h, if_true]
      have hlt : x >>> 16 < 2 ^ (16 * fuel) := by
        apply shiftRight_lt
        have e : 16 * fuel + 16 = 16 * (fuel + 1) := by ring
        rw [e]; exact hx
      obtain ⟨h1, h2⟩ := ih (x >>> 16) (k + 16) hlt
      refine ⟨h1, ?_⟩
      rw [h2]
      have := size_shiftRight_add x 16 (by norm_num) (by norm_num; exact h)
      omega
    · simp only [h, if_false]
      exact ⟨by norm_num; omega, trivial⟩

/-- On 64-bit values `bitLen` is the number of significant bits. -/
theorem bitLen_eq_size (x : Nat) (hx : x < 2 ^ 64) : bitLen x = Nat.size x := by
  obtain ⟨h1, h2⟩ := bitLenLoop_spec 4 x 0 (by norm_num; exact hx)
  unfold bitLen
  generalize bitLenLoop 4 x 0 = r at h1 h2
  obtain ⟨y, k⟩ := r
  simp only at h1 h2 ⊢
  have hsz : ∀ z : Nat, z < 2 → Nat.size z = if z ≥ 1 then 1 else 0 := by
    intro z hz
    interval_cases z <;> simp [Nat.size]
  by_cases c8 : y ≥ 0x80
  · have s8 := size_shiftRight_add (y) 8 (by norm_num) (by norm_num; exact c8)
    have l8 := shiftRight_lt (y) 8 7 (by norm_num at *; omega)
    by_cases c4 : y >>> 8 ≥ 0x8
    · have s4 := size_shiftRight_add (y >>> 8) 4 (by norm_num) (by norm_num; exact c4)
      have l4 := shiftRight_lt (y >>> 8) 4 3 (by norm_num at *; omega)
      by_cases c2 : y >>> 8 >>> 4 ≥ 0x2
      · have s2 := size_shiftRight_add (y >>> 8 >>> 4) 2 (by norm_num) (by norm_num; exact c2)
        have l2 := shiftRight_lt (y >>> 8 >>> 4) 2 1 (by norm_num at *; omega)
        have hfin := hsz (y >>> 8 >>> 4 >>> 2) (by norm_num at *; omega)
        simp only [c8, c4, c2, if_true, if_false]
        split <;> rename_i c1 <;> simp only [c1, if_true, if_false] at hfin <;> omega
      · have hfin := hsz (y >>> 8 >>> 4) (by norm_num at *; omega)
        simp only [c8, c4, c2, if_true, if_false]
        split <;> rename_i c1 <;> simp only [c1, if_true, if_false] at hfin <;> omega
    · by_cases c2 : y >>> 8 ≥ 0x2
      · have s2 := size_shiftRight_add (y >>> 8) 2 (by norm_num) (by norm_num; exact c2)
        have l2 := shiftRight_lt (y >>> 8) 2 1 (by norm_num at *; omega)
        have hfin := hsz (y >>> 8 >>> 2) (by norm_num at *; omega)
        simp only [c8, c4, c2, if_true, if_false]
        split <;> rename_i c1 <;> simp only [c1, if_true, if_false] at hfin <;> omega
      · have hfin := hsz (y >>> 8) (by norm_num at *; omega)
        simp only [c8, c4, c2, if_true, if_false]
        split <;> rename_i c1 <;> simp only [c1, if_true, if_false] at hfin <;> omega
  · by_cases c4 : y ≥ 0x8
    · have s4 := size_shiftRight_add (y) 4 (by norm_num) (by norm_num; exact c4)
      have l4 := shiftRight_lt (y) 4 3 (by norm_num at *; omega)
      by_cases c2 : y >>> 4 ≥ 0x2
      · have s2 := size_shiftRight_add (y >>> 4) 2 (by norm_num) (by norm_num; exact c2)
        have l2 := shiftRight_lt (y >>> 4) 2 1 (by norm_num at *; omega)
        have hfin := hsz (y >>> 4 >>> 2) (by norm_num at *; omega)
        simp only [c8, c4, c2, if_true, if_false]
        split <;> rename_i c1 <;> simp only [c1, if_true, if_false] at hfin <;> omega
      · have hfin := hsz (y >>> 4) (by norm_num at *; omega)
        simp only [c8, c4, c2, if_true, if_false]
        split <;> rename_i c1 <;> simp only [c1, if_true, if_false] at hfin <;> omega
    · by_cases c2 : y ≥ 0x2
      · have s2 := size_shiftRight_add (y) 2 (by norm_num) (by norm_num; exact c2)
        have l2 := shiftRight_lt (y) 2 1 (by norm_num at *; omega)
        have hfin := hsz (y >>> 2) (by norm_num at *; omega)
        simp only [c8, c4, c2, if_true, if_false]
        split <;> rename_i c1 <;> simp only [c1, if_true, if_false] at hfin <;> omega
      · have hfin := hsz (y) (by norm_num at *; omega)
        simp only [c8, c4, c2, if_true, if_false]
        split <;> rename_i c1 <;> simp only [c1, if_true, if_false] at hfin <;> omega

/-- The value of `log2` dominates every exponent `d` with `2^d ≤ x`. -/
theorem le_log2 (x d : Nat) (hx : x < 2 ^ 64) (h : 2 ^ d ≤ x) : (d : Int) ≤ log2 x := by
  have := Nat.lt_size.2 h
  unfold log2
  rw [bitLen_eq_size x hx]
  omega

/-- The capacity allocated by `buildTree` covers `d + 1` full levels whenever
`2^d ≤ σ`. -/
theorem capacity_ge (sigma len d : Nat) (hx : sigma < 2 ^ 64) (h : 2 ^ d ≤ sigma) :
    (d + 1) * len ≤ ((log2 sigma + 1) * (len : Int)).toNat := by
  have h1 := le_log2 sigma d hx h
  have h2 : ((d + 1 : Nat) : Int) * (len : Int) ≤ (log2 sigma + 1) * (len : Int) := by
    apply mul_le_mul_of_nonneg_right _ (Int.ofNat_nonneg len)
    push_cast; omega
  have h3 : (((d + 1) * len : Nat) : Int) ≤ (log2 sigma + 1) * (len : Int) := by
    push_cast at h2 ⊢; exact h2
  generalize (log2 sigma + 1) * (len : Int) = z at h3 ⊢
  generalize (d + 1) * len = m at h3 ⊢
  omega

/-! ## Shape of the implicit tree -/

theorem flatMap_pair_get {α β : Type} (g h : α → β) (l : List α) (q : Nat) :
    (l.flatMap (fun x => [g x, h x]))[2 * q]? = l[q]?.map g ∧
    (l.flatMap (fun x => [g x, h x]))[2 * q + 1]? = l[q]?.map h := by
  induction l generalizing q with
  | nil => simp
  | cons a l ih =>
    cases q with
    | zero => simp
    | succ q =>
      have e1 : 2 * (q + 1) = 2 * q + 1 + 1 := by ring
      rw [e1]
      simp only [List.flatMap_cons, List.cons_append, List.nil_append, List.getElem?_cons_succ]
      exact ih q

theorem level_length (root : n) (d : Nat) : (level root d).length = 2 ^ d := by
  induction d with
  | zero => rfl
  | succ d ih =>
    have : ∀ l : List n, (l.flatMap children).length = 2 * l.length := by
      intro l
      induction l with
      | nil => rfl
      | cons a l ih2 => simp only [List.flatMap_cons, List.length_append, ih2, children,
          List.length_cons, List.length_nil]; ring
    simp only [level, this, ih]; ring

theorem level_succ_left (root : n) (d q : Nat) (x : n) (hx : (level root d)[q]? = some x) :
    (level root (d + 1))[2 * q]? = some (leftChild x) := by
  have := (flatMap_pair_get leftChild rightChild (level root d) q).1
  show ((level root d).flatMap fun x => [leftChild x, rightChild x])[2 * q]? = _
  rw [this, hx]; rfl

theorem level_succ_right (root : n) (d q : Nat) (x : n) (hx : (level root d)[q]? = some x) :
    (level root (d + 1))[2 * q + 1]? = some (rightChild x) := by
  have := (flatMap_pair_get leftChild rightChild (level root d) q).2
  show ((level root d).flatMap fun x => [leftChild x, rightChild x])[2 * q + 1]? = _
  rw [this, hx]; rfl

theorem mem_level_succ (root : n) (d : Nat) (y : n) :
    y ∈ level root (d + 1) ↔ ∃ x ∈ level root d, y = leftChild x ∨ y = rightChild x := by
  simp [level, children, List.mem_flatMap]

theorem leftChild_alphabet_length (x : n) :
    (leftChild x).alphabet.length = (x.alphabet.length + 1) / 2 := by
  simp only [leftChild, List.length_take]; omega

theorem rightChild_alphabet_length (x : n) :
    (rightChild x).alphabet.length = x.alphabet.length / 2 := by
  simp only [rightChild, List.length_drop]; omega

/-- The tree is balanced: at depth `d` every alphabet has `⌊σ/2^d⌋` or
`⌈σ/2^d⌉` symbols. -/
theorem level_alphabet_bounds (root : n) (d : Nat) (x : n) (hx : x ∈ level root d) :
    root.alphabet.length / 2 ^ d ≤ x.alphabet.length ∧
    x.alphabet.length ≤ (root.alphabet.length + 2 ^ d - 1) / 2 ^ d := by
  induction d generalizing x with
  | zero =>
    simp only [level, List.mem_singleton] at hx
    subst hx; simp
  | succ d ih =>
    obtain ⟨y, hy, hxy⟩ := (mem_level_succ root d x).1 hx
    obtain ⟨h1, h2⟩ := ih y hy
    have hpos : 0 < 2 ^ d := Nat.two_pow_pos d
    have lo : root.alphabet.length / 2 ^ (d + 1) ≤ y.alphabet.length / 2 := by
      rw [pow_succ, ← Nat.div_div_eq_div_mul]
      exact Nat.div_le_div_right h1
    have hi : (y.alphabet.length + 1) / 2 ≤
        (root.alphabet.length + 2 ^ (d + 1) - 1) / 2 ^ (d + 1) := by
      have e : (root.alphabet.length + 2 ^ (d + 1) - 1) / 2 ^ (d + 1) =
          ((root.alphabet.length + 2 ^ d - 1) / 2 ^ d + 1) / 2 := by
        rw [pow_succ, ← Nat.div_div_eq_div_mul]
        congr 1
        rw [← Nat.add_div_right _ hpos]
        congr 1
        omega
      rw [e]
      exact Nat.div_le_div_right (by omega)
    rcases hxy with rfl | rfl
    · rw [leftChild_alphabet_length]
      exact ⟨le_trans lo (Nat.div_le_div_right (by omega)), hi⟩
    · rw [rightChild_alphabet_length]
      exact ⟨lo, le_trans (Nat.div_le_div_right (by omega)) hi⟩

/-- While `2^d ≤ σ` no alphabet at depth `d` is empty. -/
theorem level_alphabet_pos (root : n) (d : Nat) (h : 2 ^ d ≤ root.alphabet.length) (x : n)
    (hx : x ∈ level root d) : 1 ≤ x.alphabet.length := by
  have := (level_alphabet_bounds root d x hx).1
  have hpos : 0 < 2 ^ d := Nat.two_pow_pos d
  exact le_trans ((Nat.one_le_div_iff hpos).2 h) this

/-- While `2^(d+1) ≤ σ` every node of depth `d` is internal. -/
theorem level_internal (root : n) (d : Nat) (h : 2 ^ (d + 1) ≤ root.alphabet.length) (x : n)
    (hx : x ∈ level root d) : 2 ≤ x.alphabet.length := by
  have := (level_alphabet_bounds root d x hx).1
  have hpos : 0 < 2 ^ d := Nat.two_pow_pos d
  refine le_trans ?_ this
  rw [Nat.le_div_iff_mul_le hpos]
  rw [pow_succ] at h; omega

/-- An internal node at depth `d` forces `2^d < σ`. -/
theorem lt_of_internal (root : n) (d : Nat) (x : n) (hx : x ∈ level root d)
    (h : 2 ≤ x.alphabet.length) : 2 ^ d < root.alphabet.length := by
  have h2 := (level_alphabet_bounds root d x hx).2
  have hpos : 0 < 2 ^ d := Nat.two_pow_pos d
  have := le_trans h h2
  rw [Nat.le_div_iff_mul_le hpos] at this
  omega

theorem level_sum (root : n) (d : Nat) :
    ((level root d).map (fun x => x.s.length)).sum = root.s.length := by
  induction d with
  | zero => simp [level]
  | succ d ih =>
    have key : ∀ l : List n, ((l.flatMap children).map (fun x => x.s.length)).sum =
        (l.map (fun x => x.s.length)).sum := by
      intro l
      induction l with
      | nil => rfl
      | cons a l ih2 =>
        simp only [List.flatMap_cons, List.map_append, List.sum_append, ih2, List.map_cons,
          List.sum_cons]
        have : (a.s.filter (fun ch => decide (ch < midCh a.alphabet))).length +
            (a.s.filter (fun ch => !decide (ch < midCh a.alphabet))).length = a.s.length := by
          induction a.s with
          | nil => rfl
          | cons c cs ih3 =>
            by_cases hc : c < midCh a.alphabet <;> simp [List.filter_cons, hc] <;> omega
        simp only [children, leftChild, rightChild, List.map_cons, List.map_nil, List.sum_cons,
          List.sum_nil]
        omega
    simp only [level, key, ih]

theorem sum_take_le (l : List Nat) (p : Nat) : (l.take p).sum ≤ l.sum := by
  conv_rhs => rw [← List.take_append_drop p l]
  rw [List.sum_append]; omega

theorem region_length_le (x : n) : (region x).length ≤ x.s.length := by
  unfold region; split <;> simp

theorem written_length_le (T : List n) :
    (written T).length ≤ (T.map (fun x => x.s.length)).sum := by
  induction T with
  | nil => simp [written]
  | cons a T ih =>
    simp only [written, List.flatMap_cons, List.length_append, List.map_cons, List.sum_cons] at *
    have := region_length_le a
    omega

theorem written_append (T U : List n) : written (T ++ U) = written T ++ written U := by
  simp [written]

theorem levelsBelow_length (root : n) (d : Nat) : (levelsBelow root d).length = 2 ^ d - 1 := by
  induction d with
  | zero => rfl
  | succ d ih =>
    have hpos : 0 < 2 ^ d := Nat.two_pow_pos d
    simp only [levelsBelow, List.length_append, ih, level_length, pow_succ]; omega

theorem levelsBelow_sum (root : n) (d : Nat) :
    ((levelsBelow root d).map (fun x => x.s.length)).sum = d * root.s.length := by
  induction d with
  | zero => simp [levelsBelow]
  | succ d ih => simp only [levelsBelow, List.map_append, List.sum_append, ih, level_sum]; ring

theorem tableAt_length (root : n) (d p : Nat) (hp : p ≤ 2 ^ d) :
    (tableAt root d p).length = 2 ^ d - 1 + p := by
  simp only [tableAt, List.length_append, levelsBelow_length, List.length_take, level_length]
  omega

/-- The bits written by the first nodes of the tree stay below `(d+1) * n`. -/
theorem written_tableAt_le (root : n) (d p : Nat) :
    (written (tableAt root d p)).length ≤ (d + 1) * root.s.length := by
  refine le_trans (written_length_le _) ?_
  simp only [tableAt, List.map_append, List.sum_append, levelsBelow_sum, List.map_take]
  have := sum_take_le ((level root d).map (fun x => x.s.length)) p
  rw [level_sum] at this
  have e : (d + 1) * root.s.length = d * root.s.length + root.s.length := by ring
  omega

theorem tableAt_full (root : n) (d : Nat) : tableAt root d (2 ^ d) = tableAt root (d + 1) 0 := by
  simp only [tableAt, levelsBelow, List.take_zero, List.append_nil]
  rw [List.take_of_length_le (by rw [level_length])]

theorem tableAt_succ (root : n) (d p : Nat) (x : n) (hx : (level root d)[p]? = some x) :
    tableAt root d (p + 1) = tableAt root d p ++ [x] := by
  simp only [tableAt, List.take_succ, hx, Option.toList_some, List.append_assoc]

theorem offs_append (T : List n) (x : n) : offs (T ++ [x]) = offs T ++ [(written T).length] := by
  simp only [offs, List.length_append, List.length_singleton, List.range_succ, List.map_append,
    List.map_cons, List.map_nil, List.take_left']
  congr 1
  apply List.map_congr_left
  intro j hj
  rw [List.mem_range] at hj
  rw [List.take_append_of_le_length (by omega)]

theorem offs_length (T : List n) : (offs T).length = T.length := by simp [offs]

/-! ## Well-formed nodes -/

theorem midCh_eq (a : List Byte) (h : 2 ≤ a.length) :
    a[(a.length + 1) / 2]? = some (midCh a) := by
  have hlt : (a.length + 1) / 2 < a.length := by omega
  unfold midCh
  rw [List.getD_eq_getElem?_getD, List.getElem?_eq_getElem hlt]; rfl

theorem midCh_mem_drop (a : List Byte) (h : 2 ≤ a.length) :
    midCh a ∈ a.drop ((a.length + 1) / 2) := by
  have e := midCh_eq a h
  have hlt : (a.length + 1) / 2 < a.length := by omega
  rw [List.drop_eq_getElem_cons hlt]
  rw [List.getElem?_eq_getElem hlt] at e
  rw [Option.some.inj e]
  exact List.mem_cons_self _ _

theorem NodeOK.left {x : n} (hx : NodeOK x) (h : 2 ≤ x.alphabet.length) : NodeOK (leftChild x) := by
  obtain ⟨hs, hm⟩ := hx
  have hsplit := List.take_append_drop ((x.alphabet.length + 1) / 2) x.alphabet
  rw [← hsplit] at hs
  obtain ⟨h1, h2, h3⟩ := List.pairwise_append.1 hs
  refine ⟨h1, ?_⟩
  intro ch hch
  simp only [leftChild, List.mem_filter, decide_eq_true_eq] at hch
  have hmem := hm ch hch.1
  rw [← hsplit, List.mem_append] at hmem
  rcases hmem with hl | hr
  · exact hl
  · exfalso
    have hmid := midCh_mem_drop x.alphabet h
    obtain ⟨k, hk⟩ : ∃ k, x.alphabet.drop ((x.alphabet.length + 1) / 2) = midCh x.alphabet :: k := by
      have e := midCh_eq x.alphabet h
      have hlt : (x.alphabet.length + 1) / 2 < x.alphabet.length := by omega
      refine ⟨x.alphabet.drop ((x.alphabet.length + 1) / 2 + 1), ?_⟩
      rw [List.drop_eq_getElem_cons hlt]
      rw [List.getElem?_eq_getElem hlt] at e
      rw [Option.some.inj e]
    rw [hk] at hr h2
    rcases List.mem_cons.1 hr with rfl | hr'
    · exact lt_irrefl _ hch.2
    · have := List.rel_of_pairwise_cons h2 hr'
      exact lt_asymm this hch.2

theorem NodeOK.right {x : n} (hx : NodeOK x) (h : 2 ≤ x.alphabet.length) :
    NodeOK (rightChild x) := by
  obtain ⟨hs, hm⟩ := hx
  have hsplit := List.take_append_drop ((x.alphabet.length + 1) / 2) x.alphabet
  rw [← hsplit] at hs
  obtain ⟨h1, h2, h3⟩ := List.pairwise_append.1 hs
  refine ⟨h2, ?_⟩
  intro ch hch
  simp only [rightChild, List.mem_filter, Bool.not_eq_true', decide_eq_false_iff_not] at hch
  have hmem := hm ch hch.1
  rw [← hsplit, List.mem_append] at hmem
  rcases hmem with hl | hr
  · exact absurd (h3 ch hl _ (midCh_mem_drop x.alphabet h)) hch.2
  · exact hr

theorem NodeOK.leaf {x : n} (hx : NodeOK x) (h : x.alphabet.length = 1) :
    ∃ a, x.alphabet = [a] ∧ ∀ ch ∈ x.s, ch = a := by
  obtain ⟨a, ha⟩ := List.length_eq_one.1 h
  refine ⟨a, ha, fun ch hch => ?_⟩
  have := hx.2 ch hch
  rw [ha] at this
  simpa using this

/-- While `2^d ≤ σ` every node of depth `d` is well formed. -/
theorem level_nodeOK (root : n) (hroot : NodeOK root) (d : Nat)
    (h : 2 ^ d ≤ root.alphabet.length) (x : n) (hx : x ∈ level root d) : NodeOK x := by
  induction d generalizing x with
  | zero =>
    simp only [level, List.mem_singleton] at hx
    subst hx; exact hroot
  | succ d ih =>
    obtain ⟨y, hy, hxy⟩ := (mem_level_succ root d x).1 hx
    have h' : 2 ^ d ≤ root.alphabet.length := by rw [pow_succ] at h; omega
    have hy2 := level_internal root d h y hy
    rcases hxy with rfl | rfl
    · exact (ih h' y hy).left hy2
    · exact (ih h' y hy).right hy2

/-! ## The construction loop -/

theorem routeLoop_spec (m : Byte) (S : List Byte) (W : List Bool) (r : Nat) (L R : List Byte)
    (h : S.length ≤ r) :
    routeLoop m S (W ++ List.replicate r false) W.length L R =
      .ok (W ++ S.map (fun ch => !decide (ch < m)) ++ List.replicate (r - S.length) false,
           W.length + S.length,
           L ++ S.filter (fun ch => decide (ch < m)),
           R ++ S.filter (fun ch => !decide (ch < m))) := by
  induction S generalizing W r L R with
  | nil => simp [routeLoop]
  | cons ch rest ih =>
    obtain ⟨r', rfl⟩ : ∃ r', r = r' + 1 := ⟨r - 1, by simp at h; omega⟩
    have hr : rest.length ≤ r' := by simp at h; omega
    by_cases hc : ch < m
    · have e : W ++ List.replicate (r' + 1) false = (W ++ [false]) ++ List.replicate r' false := by
        simp [List.replicate_succ]
      have := ih (W ++ [false]) r' (L ++ [ch]) R hr
      simp only [List.length_append, List.length_singleton] at this
      simp only [routeLoop, hc, if_true, e, this]
      simp [hc, List.filter_cons]
      omega
    · have e : (W ++ List.replicate (r' + 1) false).set W.length true =
          (W ++ [true]) ++ List.replicate r' false := by
        rw [List.set_append_right _ _ (le_refl _)]
        simp [List.replicate_succ]
      have hlt : W.length < (W ++ List.replicate (r' + 1) false).length := by simp
      have := ih (W ++ [true]) r' L (R ++ [ch]) hr
      simp only [List.length_append, List.length_singleton] at this
      simp only [routeLoop, hc, if_false, bvSet, hlt, if_true, e, this]
      simp [hc, List.filter_cons]
      omega

theorem idx_eq_ok {α : Type} (xs : List α) (i : Nat) (x : α) (h : xs[i]? = some x) :
    idx xs i = .ok x := by
  simp [idx, h]

theorem region_leaf (x : n) (h : x.alphabet.length = 1) : region x = [] := by
  simp [region, h]

theorem region_internal (x : n) (h : x.alphabet.length ≠ 1) :
    region x = x.s.map (fun ch => !decide (ch < midCh x.alphabet)) := by
  simp [region, h]

theorem countInternal_cons (x : n) (q : List n) :
    countInternal (x :: q) = countInternal q + (if 1 < x.alphabet.length then 1 else 0) := by
  simp [countInternal, List.countP_cons]

theorem countInternal_append (q r : List n) :
    countInternal (q ++ r) = countInternal q + countInternal r := by
  simp [countInternal, List.countP_append]

/-- One iteration of the construction loop keeps the invariant. -/
theorem buildStep_inv (root : n) (cap d p : Nat) (st : BuildState)
    (hcap : (d + 1) * root.s.length ≤ cap) (h : Inv root cap d p st) (hlt : p < 2 ^ d) :
    ∃ st', buildStep st = .ok st' ∧ Inv root cap d (p + 1) st' := by
  have hpl : p < (level root d).length := by rw [level_length]; exact hlt
  obtain ⟨x, hx⟩ : ∃ x, (level root d)[p]? = some x := ⟨_, List.getElem?_eq_getElem hpl⟩
  have hxmem : x ∈ level root d := List.getElem?_mem hx
  have hdrop : (level root d).drop p = x :: (level root d).drop (p + 1) := by
    rw [List.drop_eq_getElem_cons hpl]
    rw [List.getElem?_eq_getElem hpl] at hx
    rw [Option.some.inj hx]
  have htake : (level root d).take (p + 1) = (level root d).take p ++ [x] := by
    rw [List.take_succ, hx]; rfl
  have hT := tableAt_succ root d p x hx
  have hxpos : 1 ≤ x.alphabet.length := level_alphabet_pos root d h.hd x hxmem
  have hq := h.queued
  rw [hdrop, List.cons_append] at hq
  have hwr : written (tableAt root d (p + 1)) = written (tableAt root d p) ++ region x := by
    rw [hT, written_append]; simp [written]
  have hint := h.internal
  rw [hq, countInternal_cons] at hint
  by_cases hleaf : x.alphabet.length = 1
  · refine ⟨{ st with nodeOffsets := st.nodeOffsets ++ [st.offset],
                      queued := ((level root d).drop (p + 1) ++ (((level root d).take p).filter (fun x => decide (1 < x.alphabet.length))).flatMap children) }, ?_, ?_⟩
    · unfold buildStep
      rw [hq]
      simp [hleaf]
    · have hw : written (tableAt root d (p + 1)) = written (tableAt root d p) := by
        rw [hwr, region_leaf x hleaf, List.append_nil]
      refine ⟨hlt, h.hd, ?_, ?_, ?_, ?_, ?_⟩
      · simp [htake, List.filter_append, hleaf]
      · simp only [hT, offs_append, h.nodeOffsets, h.offset]
      · simp only [hw, h.offset]
      · simp only [hw, h.bits]
      · simp only [hint, hleaf]; simp
  · have h2 : 2 ≤ x.alphabet.length := by omega
    have hlen : (written (tableAt root d p)).length + x.s.length ≤ cap := by
      have := written_tableAt_le root d (p + 1)
      rw [hwr, region_internal x hleaf, List.length_append, List.length_map] at this
      omega
    have hroute := routeLoop_spec (midCh x.alphabet) x.s (written (tableAt root d p))
      (cap - (written (tableAt root d p)).length) [] [] (by omega)
    rw [← h.bits, ← h.offset] at hroute
    have hstep : buildStep st = .ok
        { bits := written (tableAt root d p) ++
            List.map (fun ch => !decide (ch < midCh x.alphabet)) x.s ++
            List.replicate (cap - st.offset - x.s.length) false,
          nodeOffsets := st.nodeOffsets ++ [st.offset],
          queued := (((level root d).drop (p + 1) ++
            (((level root d).take p).filter (fun x => decide (1 < x.alphabet.length))).flatMap
              children) ++ [leftChild x]) ++ [rightChild x],
          offset := st.offset + x.s.length,
          nodeID := st.nodeID + 1,
          internalNodes :=
            if (x.alphabet.drop ((x.alphabet.length + 1) / 2)).length > 1 then
              (if (x.alphabet.take ((x.alphabet.length + 1) / 2)).length > 1
                then st.internalNodes - 1 + 1 else st.internalNodes - 1) + 1
            else
              (if (x.alphabet.take ((x.alphabet.length + 1) / 2)).length > 1
                then st.internalNodes - 1 + 1 else st.internalNodes - 1) } := by
      unfold buildStep
      rw [hq]
      simp only [hleaf, if_false, idx_eq_ok _ _ _ (midCh_eq x.alphabet h2), hroute]
      rfl
    refine ⟨_, hstep, ?_⟩
    refine ⟨hlt, h.hd, ?_, ?_, ?_, ?_, ?_⟩
    · have hi : decide (1 < x.alphabet.length) = true := by simp; omega
      simp [htake, List.filter_append, hi, children]
    · simp only [hT, offs_append, h.nodeOffsets, h.offset]
    · simp only [hwr, region_internal x hleaf, List.length_append, List.length_map, h.offset]
    · simp only [hwr, region_internal x hleaf, List.length_append, List.length_map, h.offset]
      congr 2
      omega
    · have hi : (1 < x.alphabet.length) := by omega
      simp only [hint, hi, if_true]
      simp only [List.append_assoc, countInternal_append, countInternal_cons]
      simp only [countInternal, List.countP_nil, leftChild, rightChild]
      split <;> split <;> push_cast <;> ring

theorem countInternal_pos {q : List n} (h : 0 < countInternal q) :
    ∃ y ∈ q, 1 < y.alphabet.length := by
  unfold countInternal at h
  obtain ⟨y, hy, hy2⟩ := List.countP_pos_iff.1 h
  exact ⟨y, hy, by simpa using hy2⟩

theorem countInternal_zero {q : List n} (h : countInternal q = 0) :
    ∀ y ∈ q, y.alphabet.length ≤ 1 := by
  intro y hy
  by_contra hc
  have : 0 < countInternal q := by
    unfold countInternal
    exact List.countP_pos_iff.2 ⟨y, hy, by simpa using hc⟩
  omega

/-- When a whole level has been dequeued and the loop goes on, the queue is
exactly the next level. -/
theorem inv_normalize (root : n) (cap d : Nat) (st : BuildState)
    (h : Inv root cap d (2 ^ d) st) (hc : buildCond st = true) : Inv root cap (d + 1) 0 st := by
  have hint := h.internal
  have hq := h.queued
  rw [List.drop_of_length_le (by rw [level_length]), List.take_of_length_le (by rw [level_length]),
    List.nil_append] at hq
  have hpos : 0 < countInternal st.queued := by
    simp only [buildCond, Bool.and_eq_true, decide_eq_true_eq] at hc
    have := hc.2
    rw [hint] at this
    exact_mod_cast this
  obtain ⟨y, hy, hy2⟩ := countInternal_pos hpos
  rw [hq, List.mem_flatMap] at hy
  obtain ⟨x, hx, hyx⟩ := hy
  have hxl : x ∈ level root d := (List.mem_filter.1 hx).1
  have hyl : y ∈ level root (d + 1) := by
    rw [level]; exact List.mem_flatMap.2 ⟨x, hxl, hyx⟩
  have hσ := lt_of_internal root (d + 1) y hyl hy2
  have hall : (level root d).filter (fun x => decide (1 < x.alphabet.length)) = level root d := by
    rw [List.filter_eq_self]
    intro z hz
    have := level_internal root d (le_of_lt hσ) z hz
    simp; omega
  rw [hall] at hq
  refine ⟨Nat.zero_le _, le_of_lt hσ, ?_, ?_, ?_, ?_, hint⟩
  · simp [hq, level]
  · rw [← tableAt_full]; exact h.nodeOffsets
  · rw [← tableAt_full]; exact h.offset
  · rw [← tableAt_full]; exact h.bits

/-- While the loop condition holds, the invariant can be put in the form
where the head of the queue is node `p` of depth `d`. -/
theorem inv_head (root : n) (cap d p : Nat) (st : BuildState)
    (h : Inv root cap d p st) (hc : buildCond st = true) :
    ∃ d' p', Inv root cap d' p' st ∧ p' < 2 ^ d' ∧ 2 ^ d' - 1 + p' = 2 ^ d - 1 + p := by
  rcases Nat.lt_or_ge p (2 ^ d) with hlt | hge
  · exact ⟨d, p, h, hlt, rfl⟩
  · have hp : p = 2 ^ d := le_antisymm h.hp hge
    subst hp
    refine ⟨d + 1, 0, inv_normalize root cap d st h hc, Nat.two_pow_pos _, ?_⟩
    have := Nat.two_pow_pos d
    rw [pow_succ]; omega

/-- The construction loop runs to completion within its budget and ends in a
state that satisfies the invariant and in which the loop condition is false. -/
theorem buildLoop_inv (root : n) (cap : Nat)
    (hcap : ∀ d, 2 ^ d ≤ root.alphabet.length → (d + 1) * root.s.length ≤ cap) :
    ∀ (fuel d p : Nat) (st : BuildState), Inv root cap d p st →
      2 * root.alphabet.length + 1 ≤ fuel + (2 ^ d - 1 + p) →
      ∃ d' p' st', buildLoop fuel st = .ok st' ∧ Inv root cap d' p' st' ∧
        buildCond st' = false ∧ 2 ^ d - 1 + p ≤ 2 ^ d' - 1 + p' := by
  intro fuel
  induction fuel with
  | zero =>
    intro d p st h hf
    have hc : buildCond st = false := by
      by_contra hc
      rw [Bool.not_eq_false] at hc
      obtain ⟨d', p', h', hlt, he⟩ := inv_head root cap d p st h hc
      have := h'.hd
      omega
    exact ⟨d, p, st, by simp [buildLoop, hc], h, hc, le_refl _⟩
  | succ fuel ih =>
    intro d p st h hf
    by_cases hc : buildCond st = true
    · obtain ⟨d', p', h', hlt, he⟩ := inv_head root cap d p st h hc
      obtain ⟨st1, hs1, hi1⟩ := buildStep_inv root cap d' p' st (hcap d' h'.hd) h' hlt
      obtain ⟨d2, p2, st2, hl, hi2, hc2, hle⟩ := ih d' (p' + 1) st1 hi1 (by omega)
      refine ⟨d2, p2, st2, ?_, hi2, hc2, by omega⟩
      simp only [buildLoop, hc, if_true, hs1, hl]
    · rw [Bool.not_eq_true] at hc
      exact ⟨d, p, st, by simp [buildLoop, hc], h, hc, le_refl _⟩

theorem built_of_inv (root : n) (cap d p : Nat) (st : BuildState)
    (hcap : ∀ d, 2 ^ d ≤ root.alphabet.length → (d + 1) * root.s.length ≤ cap)
    (h2 : 2 ≤ root.alphabet.length)
    (h : Inv root cap d p st) (hc : buildCond st = false) :
    Built root st.bits st.nodeOffsets d p ∧ st.bits.length = cap := by
  have hzero : countInternal st.queued = 0 := by
    have hint := h.internal
    simp only [buildCond, Bool.and_eq_false_iff, decide_eq_false_iff_not, not_lt] at hc
    rcases hc with hc | hc
    · have : st.queued = [] := List.length_eq_zero.1 (by omega)
      rw [this]; rfl
    · rw [hint] at hc
      omega
  have hall := countInternal_zero hzero
  have hlen : (written (tableAt root d p)).length ≤ cap :=
    le_trans (written_tableAt_le root d p) (hcap d h.hd)
  have hbl : st.bits.length = cap := by
    rw [h.bits, List.length_append, List.length_replicate]; omega
  refine ⟨⟨h.hp, h.hd, ?_, h.nodeOffsets, ⟨_, h.bits⟩, ?_, ?_, ?_⟩, hbl⟩
  · by_contra hne
    have hpos := Nat.two_pow_pos d
    have hp0 : p = 0 := by omega
    have hd0 : d = 0 := by
      rcases Nat.eq_zero_or_pos d with h0 | h0
      · exact h0
      · have : 2 ^ 1 ≤ 2 ^ d := Nat.pow_le_pow_right (by norm_num) h0
        omega
    subst hp0; subst hd0
    have hq := h.queued
    simp only [level, List.drop_zero, List.take_zero, List.filter_nil, List.flatMap_nil,
      List.append_nil] at hq
    have := hall root (by rw [hq]; exact List.mem_singleton_self _)
    omega
  · rw [hbl]; exact hcap d h.hd
  · intro y hy
    exact hall y (by rw [h.queued]; exact List.mem_append_left _ hy)
  · intro x hx hx1
    have hmem : ∀ y ∈ children x, y ∈ st.queued := by
      intro y hy
      rw [h.queued]
      apply List.mem_append_right
      exact List.mem_flatMap.2 ⟨x, List.mem_filter.2 ⟨hx, by simpa using hx1⟩, hy⟩
    exact ⟨hall _ (hmem _ (by simp [children])), hall _ (hmem _ (by simp [children]))⟩

/-- The call of `buildTree` returns, and what it returns is described by `Built`. -/
theorem buildTree_built (s alphabet : List Byte) (hne : 1 ≤ alphabet.length)
    (hσ : alphabet.length < 2 ^ 64) :
    ∃ bits nodeOffsets d p, buildTree s alphabet = .ok (bits, nodeOffsets) ∧
      Built { s := s, alphabet := alphabet } bits nodeOffsets d p ∧
      bits.length = ((log2 alphabet.length + 1) * (s.length : Int)).toNat := by
  have hcap : ∀ d, 2 ^ d ≤ alphabet.length →
      (d + 1) * s.length ≤ ((log2 alphabet.length + 1) * (s.length : Int)).toNat :=
    fun d hd => capacity_ge alphabet.length s.length d hσ hd
  rcases Nat.lt_or_ge 1 alphabet.length with h2 | h1
  · have hinv : Inv { s := s, alphabet := alphabet }
        ((log2 alphabet.length + 1) * (s.length : Int)).toNat 0 0
        { bits := bvNew ((log2 alphabet.length + 1) * (s.length : Int)).toNat,
          nodeOffsets := [], queued := [{ s := s, alphabet := alphabet }],
          offset := 0, nodeID := 1, internalNodes := 1 } := by
      refine ⟨Nat.zero_le _, by simpa using hne, ?_, ?_, ?_, ?_, ?_⟩
      · simp [level]
      · simp [tableAt, levelsBelow, offs]
      · simp [tableAt, levelsBelow, written]
      · simp [tableAt, levelsBelow, written, bvNew]
      · simp [countInternal, h2]
    obtain ⟨d, p, st', hl, hi, hc, -⟩ := buildLoop_inv { s := s, alphabet := alphabet } _ hcap
      (2 * alphabet.length + 1) 0 0 _ hinv (by simp)
    obtain ⟨hb, hlen⟩ := built_of_inv { s := s, alphabet := alphabet } _ d p st' hcap h2 hi hc
    refine ⟨st'.bits, st'.nodeOffsets, d, p, ?_, hb, hlen⟩
    simp only [buildTree, hl]
  · obtain ⟨a, ha⟩ := List.length_eq_one.1 (le_antisymm h1 hne)
    subst ha
    refine ⟨bvNew ((log2 [a].length + 1) * (s.length : Int)).toNat, [0], 0, 1, ?_, ?_, ?_⟩
    · simp [buildTree, buildLoop, buildCond, buildStep]
    · refine ⟨le_refl _, le_refl _, le_refl _, ?_,
        ⟨((log2 [a].length + 1) * (s.length : Int)).toNat, ?_⟩, ?_, ?_, ?_⟩
      · rfl
      · simp [tableAt, levelsBelow, level, written, region, bvNew]
      · have := hcap 0 (by simp)
        simpa [bvNew] using this
      · simp [level]
      · intro x hx hx1
        simp [level] at hx
        subst hx
        simp at hx1
    · simp [bvNew]

/-! ## The run of the construction loop -/

theorem buildStates_not_cond (fuel : Nat) (st : BuildState) (h : buildCond st = false) :
    buildStates fuel st = [st] := by
  cases fuel with
  | zero => rfl
  | succ fuel => simp [buildStates, h]

theorem buildStates_step (fuel : Nat) (st st1 : BuildState) (h : buildCond st = true)
    (hs : buildStep st = .ok st1) :
    buildStates (fuel + 1) st = st :: buildStates fuel st1 := by
  simp [buildStates, h, hs]

theorem buildStates_ne_nil (fuel : Nat) (st : BuildState) : buildStates fuel st ≠ [] := by
  cases fuel with
  | zero => simp [buildStates]
  | succ fuel =>
    unfold buildStates
    split
    · split <;> simp
    · simp

theorem dequeuedOf_cons (st : BuildState) (L : List BuildState) (hL : L ≠ []) :
    dequeuedOf (st :: L) = st.queued.head?.toList ++ dequeuedOf L := by
  cases L with
  | nil => exact absurd rfl hL
  | cons a L => rfl

theorem getLast?_cons_of_ne_nil {α : Type} (a : α) (L : List α) (hL : L ≠ []) :
    (a :: L).getLast? = L.getLast? := by
  cases L with
  | nil => exact absurd rfl hL
  | cons b L => exact List.getLast?_cons_cons

/-- While the loop condition holds, the invariant can be put in the form where
the head of the queue is node `p` of depth `d`, without changing the table. -/
theorem inv_head_table (root : n) (cap d p : Nat) (st : BuildState)
    (h : Inv root cap d p st) (hc : buildCond st = true) :
    ∃ d' p', Inv root cap d' p' st ∧ p' < 2 ^ d' ∧ 2 ^ d' - 1 + p' = 2 ^ d - 1 + p ∧
      tableAt root d' p' = tableAt root d p := by
  rcases Nat.lt_or_ge p (2 ^ d) with hlt | hge
  · exact ⟨d, p, h, hlt, rfl, rfl⟩
  · have hp : p = 2 ^ d := le_antisymm h.hp hge
    subst hp
    refine ⟨d + 1, 0, inv_normalize root cap d st h hc, Nat.two_pow_pos _, ?_,
      (tableAt_full root d).symm⟩
    have := Nat.two_pow_pos d
    rw [pow_succ]; omega

/-- The queue of a state that satisfies the invariant starts with node `p` of
depth `d`; dequeuing a leaf leaves the loop condition true. -/
theorem inv_queue_head (root : n) (cap d p : Nat) (st st1 : BuildState)
    (h : Inv root cap d p st) (hlt : p < 2 ^ d) (h1 : Inv root cap d (p + 1) st1)
    (hc : buildCond st = true) :
    ∃ x, (level root d)[p]? = some x ∧ st.queued.head? = some x ∧
      tableAt root d (p + 1) = tableAt root d p ++ [x] ∧
      (buildCond st1 = false → 1 < x.alphabet.length) := by
  have hpl : p < (level root d).length := by rw [level_length]; exact hlt
  obtain ⟨x, hx⟩ : ∃ x, (level root d)[p]? = some x := ⟨_, List.getElem?_eq_getElem hpl⟩
  have hdrop : (level root d).drop p = x :: (level root d).drop (p + 1) := by
    rw [List.drop_eq_getElem_cons hpl]
    rw [List.getElem?_eq_getElem hpl] at hx
    rw [Option.some.inj hx]
  have htake : (level root d).take (p + 1) = (level root d).take p ++ [x] := by
    rw [List.take_succ, hx]; rfl
  have hq := h.queued
  rw [hdrop, List.cons_append] at hq
  refine ⟨x, hx, by rw [hq]; rfl, tableAt_succ root d p x hx, ?_⟩
  intro hc1
  by_contra hleaf
  have hq1 := h1.queued
  have hnot : decide (1 < x.alphabet.length) = false := by simpa using hleaf
  rw [htake, List.filter_append] at hq1
  simp only [List.filter_cons, hnot, List.filter_nil, List.append_nil] at hq1
  have hsame : st.queued = x :: st1.queued := by rw [hq, hq1]; simp
  have hint := h.internal
  have hint1 := h1.internal
  rw [hsame, countInternal_cons] at hint
  simp only [hleaf, if_false, Nat.add_zero] at hint
  simp only [buildCond, Bool.and_eq_true, decide_eq_true_eq] at hc
  have hpos : 0 < countInternal st1.queued := by
    have := hc.2
    rw [hint] at this
    exact_mod_cast this
  obtain ⟨y, hy, -⟩ := countInternal_pos hpos
  have hne : 0 < st1.queued.length := List.length_pos.2 (List.ne_nil_of_mem hy)
  have : buildCond st1 = true := by
    simp only [buildCond, Bool.and_eq_true, decide_eq_true_eq]
    refine ⟨hne, ?_⟩
    rw [hint1]
    exact_mod_cast hpos
  rw [this] at hc1
  cases hc1

/-- The construction loop, with its trace: it runs to completion, every
loop-top state satisfies the invariant, the dequeued nodes extend the table in
heap order, and the last dequeued node is internal. -/
theorem buildLoop_trace (root : n) (cap : Nat)
    (hcap : ∀ d, 2 ^ d ≤ root.alphabet.length → (d + 1) * root.s.length ≤ cap) :
    ∀ (fuel d p : Nat) (st : BuildState), Inv root cap d p st →
      2 * root.alphabet.length + 1 ≤ fuel + (2 ^ d - 1 + p) →
      ∃ d' p' st', buildLoop fuel st = .ok st' ∧ Inv root cap d' p' st' ∧
        buildCond st' = false ∧
        (buildStates fuel st).getLast? = some st' ∧
        (∀ t ∈ buildStates fuel st, ∃ e q, Inv root cap e q t) ∧
        tableAt root d p ++ dequeuedOf (buildStates fuel st) = tableAt root d' p' ∧
        (buildCond st = true →
          ∃ x, (tableAt root d' p').getLast? = some x ∧ 1 < x.alphabet.length) := by
  intro fuel
  induction fuel with
  | zero =>
    intro d p st h hf
    have hc : buildCond st = false := by
      by_contra hc
      rw [Bool.not_eq_false] at hc
      obtain ⟨d', p', h', hlt, he⟩ := inv_head root cap d p st h hc
      have := h'.hd
      omega
    refine ⟨d, p, st, by simp [buildLoop, hc], h, hc, rfl, ?_, by simp [buildStates, dequeuedOf],
      fun hc' => by rw [hc] at hc'; cases hc'⟩
    intro t ht
    simp only [buildStates, List.mem_singleton] at ht
    subst ht
    exact ⟨d, p, h⟩
  | succ fuel ih =>
    intro d p st h hf
    by_cases hc : buildCond st = true
    · obtain ⟨d1, p1, h1, hlt, he, htab⟩ := inv_head_table root cap d p st h hc
      obtain ⟨st1, hs1, hi1⟩ := buildStep_inv root cap d1 p1 st (hcap d1 h1.hd) h1 hlt
      obtain ⟨x, hx, hhead, hT, hlast⟩ := inv_queue_head root cap d1 p1 st st1 h1 hlt hi1 hc
      obtain ⟨d2, p2, st2, hl, hi2, hc2, hgl, hall, hdeq, hint⟩ :=
        ih d1 (p1 + 1) st1 hi1 (by omega)
      have hstates := buildStates_step fuel st st1 hc hs1
      have hne := buildStates_ne_nil fuel st1
      refine ⟨d2, p2, st2, ?_, hi2, hc2, ?_, ?_, ?_, ?_⟩
      · simp only [buildLoop, hc, if_true, hs1, hl]
      · rw [hstates, getLast?_cons_of_ne_nil _ _ hne]
        exact hgl
      · intro t ht
        rw [hstates, List.mem_cons] at ht
        rcases ht with rfl | ht
        · exact ⟨d, p, h⟩
        · exact hall t ht
      · rw [hstates, dequeuedOf_cons st _ hne, hhead, ← htab, ← hdeq, hT]
        simp
      · intro _
        by_cases hc1 : buildCond st1 = true
        · exact hint hc1
        · rw [Bool.not_eq_true] at hc1
          have hx1 := hlast hc1
          rw [buildStates_not_cond fuel st1 hc1] at hdeq
          simp only [dequeuedOf, List.append_nil] at hdeq
          refine ⟨x, ?_, hx1⟩
          rw [← hdeq, hT]
          simp
    · rw [Bool.not_eq_true] at hc
      refine ⟨d, p, st, by simp [buildLoop, hc], h, hc, ?_, ?_, ?_,
        fun hc' => by rw [hc] at hc'; cases hc'⟩
      · rw [buildStates_not_cond _ st hc]; rfl
      · intro t ht
        rw [buildStates_not_cond _ st hc, List.mem_singleton] at ht
        subst ht
        exact ⟨d, p, h⟩
      · rw [buildStates_not_cond _ st hc]
        simp [dequeuedOf]

theorem buildTree_eq_run (s alphabet : List Byte) :
    buildTree s alphabet =
      match buildRun s alphabet with
      | .error e => .error e
      | .ok st => .ok (st.bits, st.nodeOffsets) := rfl

/-- The run of `buildTree` on a non-empty alphabet. -/
theorem build_full (s alphabet : List Byte) (hne : 1 ≤ alphabet.length)
    (hσ : alphabet.length < 2 ^ 64) :
    ∃ st d p, buildRun s alphabet = .ok st ∧
      FullRun { s := s, alphabet := alphabet } st
        (buildStates (2 * alphabet.length + 1) (buildInit s alphabet)) d p := by
  have hcap : ∀ d, 2 ^ d ≤ alphabet.length →
      (d + 1) * s.length ≤ ((log2 alphabet.length + 1) * (s.length : Int)).toNat :=
    fun d hd => capacity_ge alphabet.length s.length d hσ hd
  rcases Nat.lt_or_ge 1 alphabet.length with h2 | h1
  · have hinv : Inv { s := s, alphabet := alphabet }
        ((log2 alphabet.length + 1) * (s.length : Int)).toNat 0 0 (buildInit s alphabet) := by
      refine ⟨Nat.zero_le _, by simpa using hne, ?_, ?_, ?_, ?_, ?_⟩
      · simp [level, buildInit]
      · simp [tableAt, levelsBelow, offs, buildInit]
      · simp [tableAt, levelsBelow, written, buildInit]
      · simp [tableAt, levelsBelow, written, bvNew, buildInit]
      · simp [countInternal, h2, buildInit]
    have hcond : buildCond (buildInit s alphabet) = true := by
      simp [buildCond, buildInit]
    obtain ⟨d, p, st', hl, hi, hc, hgl, hall, hdeq, hlast⟩ :=
      buildLoop_trace { s := s, alphabet := alphabet } _ hcap
        (2 * alphabet.length + 1) 0 0 _ hinv (by simp)
    obtain ⟨hb, hlen⟩ := built_of_inv { s := s, alphabet := alphabet } _ d p st' hcap h2 hi hc
    refine ⟨st', d, p, hl, hb, hi.offset, hlen, hgl, hc, ?_, fun _ => hlast hcond,
      fun _ => hall, ?_⟩
    · simpa [tableAt, levelsBelow] using hdeq
    · intro h1
      have : alphabet.length = 1 := h1
      omega
  · obtain ⟨a, ha⟩ := List.length_eq_one.1 (le_antisymm h1 hne)
    subst ha
    have hcap0 := hcap 0 (by simp)
    have hcond : buildCond (buildInit s [a]) = true := by simp [buildCond, buildInit]
    have hstep : buildStep (buildInit s [a]) =
        .ok { buildInit s [a] with nodeOffsets := [0], queued := [] } := by
      simp [buildStep, buildInit]
    have hcond1 : buildCond { buildInit s [a] with nodeOffsets := [0], queued := [] } = false := by
      simp [buildCond]
    have hstates : buildStates (2 * [a].length + 1) (buildInit s [a]) =
        [buildInit s [a], { buildInit s [a] with nodeOffsets := [0], queued := [] }] := by
      show buildStates (2 + 1) _ = _
      rw [buildStates_step _ _ _ hcond hstep, buildStates_not_cond _ _ hcond1]
    refine ⟨{ buildInit s [a] with nodeOffsets := [0], queued := [] }, 0, 1, ?_, ?_⟩
    · show buildLoop (2 + 1) _ = _
      simp only [buildRun, buildLoop, hcond, if_true, hstep, hcond1]
      rfl
    · rw [hstates]
      refine ⟨⟨le_refl _, le_refl _, le_refl _, rfl,
        ⟨((log2 [a].length + 1) * (s.length : Int)).toNat, ?_⟩, ?_, ?_, ?_⟩, ?_, ?_, rfl, hcond1,
        ?_, ?_, ?_, ?_⟩
      · simp [tableAt, levelsBelow, level, written, region, bvNew, buildInit]
      · simpa [bvNew, buildInit] using hcap0
      · simp [level]
      · intro x hx hx1
        simp [level] at hx
        subst hx
        simp at hx1
      · simp [tableAt, levelsBelow, level, written, region, buildInit]
      · simp [bvNew, buildInit]
      · simp [dequeuedOf, buildInit, tableAt, levelsBelow, level]
      · intro h2
        simp at h2
      · intro h2
        simp at h2
      · intro _
        refine ⟨rfl, rfl, ?_⟩
        intro t ht
        simp only [List.mem_cons, List.mem_singleton, List.not_mem_nil, or_false] at ht
        rcases ht with rfl | rfl
        · exact ⟨rfl, Or.inl rfl⟩
        · exact ⟨rfl, Or.inr rfl⟩

/-! ## Reading a node's run out of the flat bit array -/

theorem add64_eq (a b : Nat) (h : a + b < 2 ^ 64) : add64 a b = a + b :=
  Nat.mod_eq_of_lt h

theorem sub64_eq (a b : Nat) (hb : b ≤ a) (ha : a < 2 ^ 64) : sub64 a b = a - b := by
  unfold sub64
  have hb' : b % 2 ^ 64 = b := Nat.mod_eq_of_lt (by omega)
  rw [hb']
  have e : a + (2 ^ 64 - b) = (a - b) + 2 ^ 64 := by omega
  rw [e, Nat.add_mod_right]
  exact Nat.mod_eq_of_lt (by omega)

theorem count_true_add_false (l : List Bool) : l.count true + l.count false = l.length := by
  induction l with
  | nil => rfl
  | cons a l ih => cases a <;> simp [List.count_cons] <;> omega

theorem count_true_map (S : List Byte) (m : Byte) :
    (S.map (fun ch => !decide (ch < m))).count true =
      (S.filter (fun ch => !decide (ch < m))).length := by
  induction S with
  | nil => rfl
  | cons a S ih => by_cases h : a < m <;> simp [List.count_cons, List.filter_cons, h, ih]

theorem count_false_map (S : List Byte) (m : Byte) :
    (S.map (fun ch => !decide (ch < m))).count false =
      (S.filter (fun ch => decide (ch < m))).length := by
  induction S with
  | nil => rfl
  | cons a S ih => by_cases h : a < m <;> simp [List.count_cons, List.filter_cons, h, ih]

theorem take_append_take (W reg tail : List Bool) (r : Nat) (hr : r ≤ reg.length) :
    (W ++ reg ++ tail).take (W.length + r) = W ++ reg.take r := by
  rw [List.append_assoc, List.take_append, List.take_append_of_le_length hr]

theorem get_append_mid (W reg tail : List Bool) (r : Nat) (hr : r < reg.length) :
    (W ++ reg ++ tail)[W.length + r]? = reg[r]? := by
  rw [List.append_assoc, List.getElem?_append_right (by omega)]
  rw [List.getElem?_append_left (by omega)]
  congr 1; omega

theorem filter_take_get (S : List Byte) (P : Byte → Bool) (r : Nat) (c : Byte)
    (hc : S[r]? = some c) (hP : P c = true) :
    (S.filter P)[((S.take r).filter P).length]? = some c := by
  have hr : r < S.length := by
    by_contra h
    rw [List.getElem?_eq_none (by omega)] at hc
    cases hc
  have e : S = S.take r ++ c :: S.drop (r + 1) := by
    conv_lhs => rw [← List.take_append_drop r S]
    rw [List.drop_eq_getElem_cons hr]
    rw [List.getElem?_eq_getElem hr] at hc
    rw [Option.some.inj hc]
  have e2 : S.filter P = (S.take r).filter P ++ c :: (S.drop (r + 1)).filter P := by
    conv_lhs => rw [e]
    simp [List.filter_cons, hP]
  rw [e2, List.getElem?_append_right (le_refl _)]
  simp

theorem filter_take_take (S : List Byte) (P : Byte → Bool) (r : Nat) :
    (S.filter P).take ((S.take r).filter P).length = (S.take r).filter P := by
  have e2 : S.filter P = (S.take r).filter P ++ (S.drop r).filter P := by
    conv_lhs => rw [← List.take_append_drop r S]
    rw [List.filter_append]
  rw [e2, List.take_left']
  rfl

theorem filter_take_length_le (S : List Byte) (P : Byte → Bool) (r : Nat) :
    ((S.take r).filter P).length ≤ (S.filter P).length := by
  conv_rhs => rw [← List.take_append_drop r S]
  rw [List.filter_append, List.length_append]; omega

theorem count_filter_of_pos (l : List Byte) (P : Byte → Bool) (c : Byte) (hP : P c = true) :
    (l.filter P).count c = l.count c := by
  induction l with
  | nil => rfl
  | cons a l ih =>
    by_cases ha : P a = true
    · simp [List.filter_cons, ha, List.count_cons, ih]
    · have hne : a ≠ c := by
        intro h; rw [h] at ha; exact ha hP
      simp [List.filter_cons, ha, List.count_cons, ih, hne]

theorem count_eq_length_of_all (l : List Byte) (a : Byte) (h : ∀ ch ∈ l, ch = a) :
    l.count a = l.length := by
  rw [List.count_eq_length]
  intro b hb
  exact (h b hb).symm

theorem levelsBelow_split (root : n) (e d : Nat) (h : e ≤ d) :
    ∃ rest, levelsBelow root d = levelsBelow root e ++ rest := by
  induction d with
  | zero =>
    have : e = 0 := by omega
    subst this
    exact ⟨[], by simp⟩
  | succ d ih =>
    rcases Nat.lt_or_ge e (d + 1) with hlt | hge
    · obtain ⟨rest, hr⟩ := ih (by omega)
      exact ⟨rest ++ level root d, by simp [levelsBelow, hr]⟩
    · have : e = d + 1 := by omega
      subst this
      exact ⟨[], by simp⟩

theorem list_split_at {α : Type} (l : List α) (q : Nat) (x : α) (h : l[q]? = some x) :
    l = l.take q ++ x :: l.drop (q + 1) := by
  have hq : q < l.length := by
    by_contra hc
    rw [List.getElem?_eq_none (by omega)] at h
    cases h
  conv_lhs => rw [← List.take_append_drop q l]
  rw [List.drop_eq_getElem_cons hq]
  rw [List.getElem?_eq_getElem hq] at h
  rw [Option.some.inj h]

theorem split_append {α : Type} (l R : List α) (q : Nat) (x : α) (h : l[q]? = some x) :
    l ++ R = l.take q ++ x :: (l.drop (q + 1) ++ R) := by
  have := list_split_at l q x h
  calc l ++ R = (l.take q ++ x :: l.drop (q + 1)) ++ R := by rw [← this]
  _ = _ := by simp

/-- A heap index inside the table names a node of depth at most `d`, and the
table splits at it. -/
theorem table_split (root : n) (d p e q : Nat) (hp : p ≤ 2 ^ d) (hq : q < 2 ^ e)
    (hin : 2 ^ e + q ≤ 2 ^ d - 1 + p) :
    e ≤ d ∧ (e = d → q < p) ∧ ∃ x rest, (level root e)[q]? = some x ∧
      tableAt root d p = tableAt root e q ++ x :: rest := by
  have hed : e ≤ d := by
    by_contra hc
    have : 2 ^ (d + 1) ≤ 2 ^ e := Nat.pow_le_pow_right (by norm_num) (by omega)
    rw [pow_succ] at this
    omega
  have hqp : e = d → q < p := by
    intro h; subst h; omega
  refine ⟨hed, hqp, ?_⟩
  have hql : q < (level root e).length := by rw [level_length]; exact hq
  obtain ⟨x, hx⟩ : ∃ x, (level root e)[q]? = some x := ⟨_, List.getElem?_eq_getElem hql⟩
  refine ⟨x, ?_⟩
  rcases Nat.lt_or_ge e d with hlt | hge
  · obtain ⟨rest, hr⟩ := levelsBelow_split root (e + 1) d hlt
    refine ⟨(level root e).drop (q + 1) ++ (rest ++ (level root d).take p), hx, ?_⟩
    simp only [tableAt, hr, levelsBelow, List.append_assoc]
    rw [split_append (level root e) _ q x hx]
  · have hde : e = d := le_antisymm hed hge
    subst hde
    have hqp' := hqp rfl
    refine ⟨((level root e).take p).drop (q + 1), hx, ?_⟩
    have hx' : ((level root e).take p)[q]? = some x := by
      rw [List.getElem?_take_of_lt hqp']; exact hx
    have := list_split_at ((level root e).take p) q _ hx'
    rw [List.take_take, Nat.min_eq_left (le_of_lt hqp')] at this
    simp only [tableAt]
    conv_lhs => rw [this]
    simp only [List.append_assoc]

theorem offs_get (T U : List n) (x : n) :
    (offs (T ++ x :: U))[T.length]? = some (written T).length := by
  unfold offs
  rw [List.getElem?_map, List.getElem?_range (by simp)]
  simp

section View

variable {root : n} {B : List Bool} {O : List Nat} {d p : Nat}

theorem Ctx.table_length (c : Ctx root B O d p) : O.length = 2 ^ d - 1 + p := by
  rw [c.built.hoffs, offs_length, tableAt_length root d p c.built.hp]

/-- The node behind a heap index inside the table, with the place of its run
in the bit array. -/
theorem Ctx.view (c : Ctx root B O d p) (e q : Nat) (hq : q < 2 ^ e)
    (hin : 2 ^ e + q ≤ O.length) :
    ∃ x tail, (level root e)[q]? = some x ∧ NodeOK x ∧ 1 ≤ x.alphabet.length ∧ e ≤ d ∧
      (e = d → q < p) ∧
      idx O (2 ^ e + q - 1) = .ok (offAt root e q) ∧
      idx (populateNodeRanks { bits := B } O) (2 ^ e + q - 1) = .ok (onesAt root e q) ∧
      B = written (tableAt root e q) ++ region x ++ tail := by
  rw [c.table_length] at hin
  obtain ⟨hed, hqp, x, rest, hx, hT⟩ := table_split root d p e q c.built.hp hq hin
  have hσ : 2 ^ e ≤ root.alphabet.length :=
    le_trans (Nat.pow_le_pow_right (by norm_num) hed) c.built.hd
  have hxm : x ∈ level root e := List.getElem?_mem hx
  obtain ⟨k, hk⟩ := c.built.hbits
  have hlenT : (tableAt root e q).length = 2 ^ e + q - 1 := by
    rw [tableAt_length root e q (le_of_lt hq)]
    have := Nat.two_pow_pos e
    omega
  have hO : O[2 ^ e + q - 1]? = some (offAt root e q) := by
    rw [c.built.hoffs, hT, ← hlenT]
    exact offs_get _ _ _
  have hB : B = written (tableAt root e q) ++ region x ++ (written rest ++ List.replicate k false) := by
    rw [hk, hT, written_append]
    simp [written]
  refine ⟨x, _, hx, level_nodeOK root c.ok e hσ x hxm, level_alphabet_pos root e hσ x hxm, hed, hqp,
    idx_eq_ok _ _ _ hO, ?_, hB⟩
  apply idx_eq_ok
  unfold populateNodeRanks
  rw [List.getElem?_map, hO]
  simp only [Option.map_some', RRR.Rank1, onesAt, offAt]
  congr 2
  conv_lhs => rw [hB]
  rw [List.append_assoc, List.take_left']
  rfl

end View

theorem sum_tableAt_le (root : n) (d p : Nat) :
    ((tableAt root d p).map (fun x => x.s.length)).sum ≤ (d + 1) * root.s.length := by
  simp only [tableAt, List.map_append, List.sum_append, levelsBelow_sum, List.map_take]
  have := sum_take_le ((level root d).map (fun x => x.s.length)) p
  rw [level_sum] at this
  have e : (d + 1) * root.s.length = d * root.s.length + root.s.length := by ring
  omega

section Facts

variable {root : n} {B : List Bool} {O : List Nat} {d p : Nat}

/-- A leaf that received a slot in the offset table lies on the deepest
recorded level: its children are beyond the table, and the positions
`offset + rank` that a descent may read there are within the bit array. -/
theorem Ctx.leaf_facts (c : Ctx root B O d p) (e q : Nat) (x : n)
    (hx : (level root e)[q]? = some x) (hq : q < 2 ^ e) (hin : 2 ^ e + q ≤ O.length)
    (hleaf : x.alphabet.length = 1) :
    O.length < 2 * (2 ^ e + q) ∧ offAt root e q + x.s.length ≤ B.length := by
  have hlen := c.table_length
  have hp := c.built.hp
  rw [hlen] at hin
  obtain ⟨hed, hqp, -⟩ := table_split root d p e q hp hq hin
  have hxm : x ∈ level root e := List.getElem?_mem hx
  have he : e = d := by
    by_contra hne
    have hlt : e + 1 ≤ d := by omega
    have : 2 ^ (e + 1) ≤ root.alphabet.length :=
      le_trans (Nat.pow_le_pow_right (by norm_num) hlt) c.built.hd
    have := level_internal root e this x hxm
    omega
  subst he
  constructor
  · rw [hlen]; have := Nat.two_pow_pos e; omega
  · have h1 := written_length_le (tableAt root e q)
    have h2 := sum_tableAt_le root e (q + 1)
    rw [tableAt_succ root e q x hx] at h2
    simp only [List.map_append, List.sum_append, List.map_cons, List.map_nil, List.sum_cons,
      List.sum_nil] at h2
    have h3 := c.built.hcap
    unfold offAt
    omega

/-- A child of a recorded internal node that is beyond the offset table is a
leaf. -/
theorem Ctx.child_facts (c : Ctx root B O d p) (e q : Nat) (x : n)
    (hx : (level root e)[q]? = some x) (hq : q < 2 ^ e) (hin : 2 ^ e + q ≤ O.length)
    (h2 : 2 ≤ x.alphabet.length) :
    (O.length < 2 * (2 ^ e + q) → (leftChild x).alphabet.length = 1) ∧
    (O.length < 2 * (2 ^ e + q) + 1 → (rightChild x).alphabet.length = 1) := by
  have hlen := c.table_length
  have hp := c.built.hp
  rw [hlen] at hin
  obtain ⟨hed, hqp, -⟩ := table_split root d p e q hp hq hin
  have hl1 : 1 ≤ (leftChild x).alphabet.length := by rw [leftChild_alphabet_length]; omega
  have hr1 : 1 ≤ (rightChild x).alphabet.length := by rw [rightChild_alphabet_length]; omega
  rcases Nat.lt_or_ge e d with hlt | hge
  · have hpow : 2 ^ (e + 1) ≤ 2 ^ d := Nat.pow_le_pow_right (by norm_num) hlt
    have hed1 : O.length < 2 * (2 ^ e + q) + 1 → e + 1 = d := by
      intro h
      by_contra hne
      have : 2 ^ (e + 2) ≤ 2 ^ d := Nat.pow_le_pow_right (by norm_num) (by omega)
      rw [pow_succ, pow_succ] at this
      omega
    have key : ∀ (j : Nat) (y : n), (level root (e + 1))[j]? = some y →
        O.length < 2 ^ (e + 1) + j → y.alphabet.length ≤ 1 := by
      intro j y hy hj
      have hjl : j < 2 ^ (e + 1) := by
        rw [← level_length root (e + 1)]
        by_contra hc
        rw [List.getElem?_eq_none (by omega)] at hy
        cases hy
      have hd1 : e + 1 = d := by
        by_contra hne
        have : 2 ^ (e + 2) ≤ 2 ^ d := Nat.pow_le_pow_right (by norm_num) (by omega)
        rw [pow_succ] at this
        omega
      subst hd1
      apply c.built.rest
      have hpj : p ≤ j := by omega
      have : ((level root (e + 1)).drop p)[j - p]? = some y := by
        rw [List.getElem?_drop]
        have : p + (j - p) = j := by omega
        rw [this]; exact hy
      exact List.getElem?_mem this
    constructor
    · intro h
      have := key (2 * q) _ (level_succ_left root e q x hx) (by rw [pow_succ]; omega)
      omega
    · intro h
      have := key (2 * q + 1) _ (level_succ_right root e q x hx) (by rw [pow_succ]; omega)
      omega
  · have he : e = d := le_antisymm hed hge
    subst he
    have hxt : x ∈ (level root e).take p := by
      have : ((level root e).take p)[q]? = some x := by
        rw [List.getElem?_take_of_lt (hqp rfl)]; exact hx
      exact List.getElem?_mem this
    have := c.built.kids x hxt (by omega)
    exact ⟨fun _ => by omega, fun _ => by omega⟩

/-- Reading a recorded internal node's run: the position `offset + rank` does
not wrap, and the two rank subtractions give the rank inside the child. -/
theorem Ctx.step_internal (c : Ctx root B O d p) (e q : Nat) (x : n) (tail : List Bool)
    (hB : B = written (tableAt root e q) ++ region x ++ tail)
    (h2 : 2 ≤ x.alphabet.length) (r : Nat) (hr : r ≤ x.s.length) :
    add64 (offAt root e q) r = offAt root e q + r ∧
    sub64 (RRR.Rank1 { bits := B } (offAt root e q + r)) (onesAt root e q) =
      ((x.s.take r).filter (fun ch => !decide (ch < midCh x.alphabet))).length ∧
    sub64 (RRR.Rank0 { bits := B } (offAt root e q + r)) (sub64 (offAt root e q) (onesAt root e q)) =
      ((x.s.take r).filter (fun ch => decide (ch < midCh x.alphabet))).length := by
  have hreg := region_internal x (by omega)
  have hfit := c.fit
  have hBl : (written (tableAt root e q)).length + x.s.length ≤ B.length := by
    conv_rhs => rw [hB]
    simp only [List.length_append, hreg, List.length_map]; omega
  have hrl : r ≤ (region x).length := by rw [hreg, List.length_map]; exact hr
  have htake := take_append_take (written (tableAt root e q)) (region x) tail r hrl
  rw [← hB] at htake
  have hct := count_true_add_false (written (tableAt root e q))
  have hf1 := List.length_filter_le (fun ch => !decide (ch < midCh x.alphabet)) (x.s.take r)
  have hf2 := List.length_filter_le (fun ch => decide (ch < midCh x.alphabet)) (x.s.take r)
  have hlt : (x.s.take r).length ≤ r := by simp
  unfold offAt onesAt
  refine ⟨add64_eq _ _ (by omega), ?_, ?_⟩
  · simp only [RRR.Rank1, htake, List.count_append, hreg, ← List.map_take, count_true_map]
    rw [sub64_eq _ _ (by omega) (by omega)]
    omega
  · simp only [RRR.Rank0, htake, List.count_append, hreg, ← List.map_take, count_false_map]
    rw [sub64_eq (written (tableAt root e q)).length _ (by omega) (by omega)]
    rw [sub64_eq _ _ (by omega) (by omega)]
    omega

/-- The bit stored for the symbol at rank `r` of a recorded internal node. -/
theorem access_internal (e q : Nat) (x : n) (tail : List Bool)
    (hB : B = written (tableAt root e q) ++ region x ++ tail)
    (h2 : 2 ≤ x.alphabet.length) (r : Nat) (ch : Byte) (hr : x.s[r]? = some ch) :
    RRR.Access { bits := B } (offAt root e q + r) = .ok (!decide (ch < midCh x.alphabet)) := by
  have hreg := region_internal x (by omega)
  have hrl : r < x.s.length := by
    by_contra hc
    rw [List.getElem?_eq_none (by omega)] at hr
    cases hr
  unfold RRR.Access offAt
  apply idx_eq_ok
  simp only
  conv_lhs => rw [hB]
  rw [get_append_mid _ _ _ _ (by rw [hreg, List.length_map]; exact hrl), hreg, List.getElem?_map, hr]
  rfl

/-- Reading a bit inside the array always returns. -/
theorem access_in_range (B : List Bool) (pos : Nat) (h : pos < B.length) :
    ∃ b, RRR.Access { bits := B } pos = .ok b :=
  ⟨B[pos], idx_eq_ok _ _ _ (List.getElem?_eq_getElem h)⟩

end Facts


theorem Ctx.root_in_table {root : n} {B : List Bool} {O : List Nat} {d p : Nat}
    (c : Ctx root B O d p) : 2 ^ 0 + 0 ≤ O.length ∧ d + 1 ≤ O.length + 1 + 0 := by
  have := c.table_length
  have h1 := c.built.hroot
  have h2 := Nat.lt_two_pow d
  constructor <;> simp <;> omega

/-! ## `Access` -/

theorem accessLoop_right (w : WT) (fuel node : Nat) (alphabet : List Byte) (rank off rb : Nat)
    (h1 : idx w.nodeOffsets (node - 1) = .ok off)
    (h2 : w.bits.Access (add64 off rank) = .ok true)
    (h3 : idx w.nodeRank1s (node - 1) = .ok rb) :
    accessLoop w (fuel + 1) node alphabet rank =
      if node * 2 + 1 - 1 ≥ w.nodeOffsets.length then idx alphabet (alphabet.length - 1)
      else accessLoop w fuel (node * 2 + 1) (alphabet.drop ((alphabet.length + 1) / 2))
        (sub64 (w.bits.Rank1 (add64 off rank)) rb) := by
  simp only [accessLoop, h1, h2, h3]

theorem accessLoop_left (w : WT) (fuel node : Nat) (alphabet : List Byte) (rank off r1 : Nat)
    (h1 : idx w.nodeOffsets (node - 1) = .ok off)
    (h2 : w.bits.Access (add64 off rank) = .ok false)
    (h3 : idx w.nodeRank1s (node - 1) = .ok r1) :
    accessLoop w (fuel + 1) node alphabet rank =
      if node * 2 - 1 ≥ w.nodeOffsets.length then idx alphabet 0
      else accessLoop w fuel (node * 2) (alphabet.take ((alphabet.length + 1) / 2))
        (sub64 (w.bits.Rank0 (add64 off rank)) (sub64 off r1)) := by
  simp only [accessLoop, h1, h2, h3]

theorem getElem?_some_lt {α : Type} {l : List α} {i : Nat} {a : α} (h : l[i]? = some a) :
    i < l.length := by
  by_contra hc
  rw [List.getElem?_eq_none (by omega)] at h
  cases h

theorem leftChild_leaf_symbol (x : n) (hok : NodeOK x) (h2 : 2 ≤ x.alphabet.length)
    (hl : (leftChild x).alphabet.length = 1) (ch : Byte) (hch : ch ∈ (leftChild x).s) :
    x.alphabet[0]? = some ch := by
  obtain ⟨a, ha, hall⟩ := (hok.left h2).leaf hl
  have := hall ch hch
  subst this
  have e : (x.alphabet.take ((x.alphabet.length + 1) / 2))[0]? = some ch := by
    have : (leftChild x).alphabet = x.alphabet.take ((x.alphabet.length + 1) / 2) := rfl
    rw [← this, ha]; rfl
  rw [List.getElem?_take_of_lt (by omega)] at e
  exact e

theorem rightChild_leaf_symbol (x : n) (hok : NodeOK x) (h2 : 2 ≤ x.alphabet.length)
    (hl : (rightChild x).alphabet.length = 1) (ch : Byte) (hch : ch ∈ (rightChild x).s) :
    x.alphabet[x.alphabet.length - 1]? = some ch := by
  obtain ⟨a, ha, hall⟩ := (hok.right h2).leaf hl
  have := hall ch hch
  subst this
  have hlen := rightChild_alphabet_length x
  rw [hl] at hlen
  have e : (x.alphabet.drop ((x.alphabet.length + 1) / 2))[0]? = some ch := by
    have : (rightChild x).alphabet = x.alphabet.drop ((x.alphabet.length + 1) / 2) := rfl
    rw [← this, ha]; rfl
  rw [List.getElem?_drop] at e
  have : (x.alphabet.length + 1) / 2 + 0 = x.alphabet.length - 1 := by omega
  rw [this] at e
  exact e

theorem mem_leftChild_s (x : n) (r : Nat) (ch : Byte) (hr : x.s[r]? = some ch)
    (hlt : ch < midCh x.alphabet) :
    (leftChild x).s[((x.s.take r).filter (fun b => decide (b < midCh x.alphabet))).length]? =
      some ch :=
  filter_take_get x.s _ r ch hr (by simpa using hlt)

theorem mem_rightChild_s (x : n) (r : Nat) (ch : Byte) (hr : x.s[r]? = some ch)
    (hlt : ¬ ch < midCh x.alphabet) :
    (rightChild x).s[((x.s.take r).filter (fun b => !decide (b < midCh x.alphabet))).length]? =
      some ch :=
  filter_take_get x.s _ r ch hr (by simpa using hlt)

section AccessProof

variable {root : n} {B : List Bool} {O : List Nat} {d p : Nat}

/-- The descent of `Access` from a recorded node that holds the wanted symbol
at rank `r` returns that symbol. -/
theorem accessLoop_correct (c : Ctx root B O d p) :
    ∀ (fuel e q r : Nat) (x : n) (ch : Byte),
      (level root e)[q]? = some x → q < 2 ^ e → 2 ^ e + q ≤ O.length →
      x.s[r]? = some ch → d + 1 ≤ fuel + e →
      accessLoop (mkWT root.alphabet B O) fuel (2 ^ e + q) x.alphabet r = .ok ch := by
  intro fuel
  induction fuel with
  | zero =>
    intro e q r x ch hx hq hin hr hf
    obtain ⟨_, _, _, _, _, hed, _⟩ := c.view e q hq hin
    omega
  | succ fuel ih =>
    intro e q r x ch hx hq hin hr hf
    obtain ⟨x', tail, hx', hok, h1, hed, hqp, hO, hR, hB⟩ := c.view e q hq hin
    rw [hx] at hx'
    cases Option.some.inj hx'
    have hrl := getElem?_some_lt hr
    have hO' : idx (mkWT root.alphabet B O).nodeOffsets (2 ^ e + q - 1) = .ok (offAt root e q) := hO
    have hR' : idx (mkWT root.alphabet B O).nodeRank1s (2 ^ e + q - 1) = .ok (onesAt root e q) := hR
    have hlenO : (mkWT root.alphabet B O).nodeOffsets.length = O.length := rfl
    have hnode : ∀ j, (2 ^ e + q) * 2 + j = 2 ^ (e + 1) + (2 * q + j) := by
      intro j; rw [pow_succ]; ring
    rcases Nat.lt_or_ge 1 x.alphabet.length with h2 | hle
    · obtain ⟨hadd, hr1, hr0⟩ := c.step_internal e q x tail hB h2 r (le_of_lt hrl)
      have hacc := access_internal e q x tail hB h2 r ch hr
      obtain ⟨hcl, hcr⟩ := c.child_facts e q x hx hq hin h2
      by_cases hlt : ch < midCh x.alphabet
      · have hbit : (mkWT root.alphabet B O).bits.Access (add64 (offAt root e q) r) = .ok false := by
          rw [hadd]; simpa [hlt] using hacc
        rw [accessLoop_left _ _ _ _ _ _ _ hO' hbit hR', hlenO]
        have hch := mem_leftChild_s x r ch hr hlt
        split
        · rename_i hout
          apply idx_eq_ok
          exact leftChild_leaf_symbol x hok h2 (hcl (by omega)) ch (List.getElem?_mem hch)
        · rename_i hnin
          have := ih (e + 1) (2 * q) _ (leftChild x) ch (level_succ_left root e q x hx)
            (by rw [pow_succ]; omega) (by rw [pow_succ]; omega) hch (by omega)
          rw [hadd]
          show accessLoop _ fuel ((2 ^ e + q) * 2) (leftChild x).alphabet
            (sub64 (RRR.Rank0 { bits := B } (offAt root e q + r))
              (sub64 (offAt root e q) (onesAt root e q))) = _
          rw [hr0]
          have e2 : (2 ^ e + q) * 2 = 2 ^ (e + 1) + 2 * q := by rw [pow_succ]; ring
          rw [e2]; exact this
      · have hbit : (mkWT root.alphabet B O).bits.Access (add64 (offAt root e q) r) = .ok true := by
          rw [hadd]; simpa [hlt] using hacc
        rw [accessLoop_right _ _ _ _ _ _ _ hO' hbit hR', hlenO]
        have hch := mem_rightChild_s x r ch hr hlt
        split
        · rename_i hout
          apply idx_eq_ok
          exact rightChild_leaf_symbol x hok h2 (hcr (by omega)) ch (List.getElem?_mem hch)
        · rename_i hnin
          have := ih (e + 1) (2 * q + 1) _ (rightChild x) ch (level_succ_right root e q x hx)
            (by rw [pow_succ]; omega) (by rw [pow_succ]; omega) hch (by omega)
          rw [hadd]
          show accessLoop _ fuel ((2 ^ e + q) * 2 + 1) (rightChild x).alphabet
            (sub64 (RRR.Rank1 { bits := B } (offAt root e q + r)) (onesAt root e q)) = _
          rw [hr1]
          have e2 : (2 ^ e + q) * 2 + 1 = 2 ^ (e + 1) + (2 * q + 1) := by rw [pow_succ]; ring
          rw [e2]; exact this
    · have hleaf : x.alphabet.length = 1 := by omega
      obtain ⟨hbeyond, hroom⟩ := c.leaf_facts e q x hx hq hin hleaf
      obtain ⟨a, ha, hall⟩ := hok.leaf hleaf
      have hcha : ch = a := hall ch (List.getElem?_mem hr)
      have hfit := c.fit
      have hadd : add64 (offAt root e q) r = offAt root e q + r := add64_eq _ _ (by omega)
      obtain ⟨b, hb⟩ := access_in_range B (offAt root e q + r) (by omega)
      have hbit : (mkWT root.alphabet B O).bits.Access (add64 (offAt root e q) r) = .ok b := by
        rw [hadd]; exact hb
      cases b with
      | false =>
        rw [accessLoop_left _ _ _ _ _ _ _ hO' hbit hR', hlenO, if_pos (by omega)]
        rw [ha, hcha]; rfl
      | true =>
        rw [accessLoop_right _ _ _ _ _ _ _ hO' hbit hR', hlenO, if_pos (by omega)]
        rw [ha, hcha]; rfl

end AccessProof


/-- On a built tree `Access` returns the symbol of the sequence. -/
theorem access_of_ctx {s alphabet : List Byte} {B : List Bool} {O : List Nat} {d p : Nat}
    (c : Ctx { s := s, alphabet := alphabet } B O d p) (i : Nat) (ch : Byte)
    (hi : s[i]? = some ch) : (mkWT alphabet B O).Access i = .ok ch := by
  obtain ⟨h1, h2⟩ := c.root_in_table
  have := accessLoop_correct c (O.length + 1) 0 0 i { s := s, alphabet := alphabet } ch rfl
    (by simp) h1 hi h2
  simpa [WT.Access, mkWT] using this

/-! ## `Rank` -/

theorem rankLoop_leaf (w : WT) (c : Byte) (fuel node : Nat) (alphabet : List Byte) (rank off : Nat)
    (h1 : idx w.nodeOffsets (node - 1) = .ok off) (h2 : alphabet.length = 1) :
    rankLoop w c (fuel + 1) node alphabet rank = .ok rank := by
  simp only [rankLoop, h1, h2, if_true]

theorem rankLoop_left (w : WT) (c : Byte) (fuel node : Nat) (alphabet : List Byte)
    (rank off r1 : Nat) (m : Byte)
    (h1 : idx w.nodeOffsets (node - 1) = .ok off) (h2 : alphabet.length ≠ 1)
    (h3 : idx alphabet ((alphabet.length + 1) / 2) = .ok m) (h4 : c < m)
    (h5 : idx w.nodeRank1s (node - 1) = .ok r1) :
    rankLoop w c (fuel + 1) node alphabet rank =
      if (alphabet.take ((alphabet.length + 1) / 2)).length = 1 then
        .ok (sub64 (w.bits.Rank0 (add64 off rank)) (sub64 off r1))
      else rankLoop w c fuel (node * 2) (alphabet.take ((alphabet.length + 1) / 2))
        (sub64 (w.bits.Rank0 (add64 off rank)) (sub64 off r1)) := by
  simp only [rankLoop, h1, h2, h3, h4, h5, if_true, if_false]

theorem rankLoop_right (w : WT) (c : Byte) (fuel node : Nat) (alphabet : List Byte)
    (rank off rb : Nat) (m : Byte)
    (h1 : idx w.nodeOffsets (node - 1) = .ok off) (h2 : alphabet.length ≠ 1)
    (h3 : idx alphabet ((alphabet.length + 1) / 2) = .ok m) (h4 : ¬ c < m)
    (h5 : idx w.nodeRank1s (node - 1) = .ok rb) :
    rankLoop w c (fuel + 1) node alphabet rank =
      if (alphabet.drop ((alphabet.length + 1) / 2)).length = 1 then
        .ok (sub64 (w.bits.Rank1 (add64 off rank)) rb)
      else rankLoop w c fuel (node * 2 + 1) (alphabet.drop ((alphabet.length + 1) / 2))
        (sub64 (w.bits.Rank1 (add64 off rank)) rb) := by
  simp only [rankLoop, h1, h2, h3, h4, h5, if_true, if_false]

theorem mem_left_alphabet (a : List Byte) (hs : a.Pairwise (· < ·)) (h2 : 2 ≤ a.length)
    (c : Byte) (hc : c ∈ a) (hlt : c < midCh a) : c ∈ a.take ((a.length + 1) / 2) := by
  have hok : NodeOK { s := [c], alphabet := a } := ⟨hs, by simpa using hc⟩
  have := (hok.left h2).2 c (by simp [leftChild, hlt])
  exact this

theorem mem_right_alphabet (a : List Byte) (hs : a.Pairwise (· < ·)) (h2 : 2 ≤ a.length)
    (c : Byte) (hc : c ∈ a) (hlt : ¬ c < midCh a) : c ∈ a.drop ((a.length + 1) / 2) := by
  have hok : NodeOK { s := [c], alphabet := a } := ⟨hs, by simpa using hc⟩
  have := (hok.right h2).2 c (by simp [rightChild, hlt])
  exact this

/-- In a leaf child the rank reached by a descent is the number of occurrences
of the leaf's symbol. -/
theorem leaf_rank_eq_count (y : n) (hok : NodeOK y) (hl : y.alphabet.length = 1) (c : Byte)
    (hc : c ∈ y.alphabet) (l : List Byte) (hl2 : ∀ ch ∈ l, ch ∈ y.s) : l.count c = l.length := by
  obtain ⟨a, ha, hall⟩ := hok.leaf hl
  rw [ha] at hc
  have hca : c = a := by simpa using hc
  subst hca
  exact count_eq_length_of_all l c (fun ch h => hall ch (hl2 ch h))

theorem left_take_count (x : n) (r : Nat) (c : Byte) (hlt : c < midCh x.alphabet) :
    ((leftChild x).s.take
        ((x.s.take r).filter (fun b => decide (b < midCh x.alphabet))).length).count c =
      (x.s.take r).count c := by
  show ((x.s.filter _).take _).count c = _
  rw [filter_take_take, count_filter_of_pos _ _ _ (by simpa using hlt)]

theorem right_take_count (x : n) (r : Nat) (c : Byte) (hlt : ¬ c < midCh x.alphabet) :
    ((rightChild x).s.take
        ((x.s.take r).filter (fun b => !decide (b < midCh x.alphabet))).length).count c =
      (x.s.take r).count c := by
  show ((x.s.filter _).take _).count c = _
  rw [filter_take_take, count_filter_of_pos _ _ _ (by simpa using hlt)]

theorem left_leaf_rank (x : n) (hok : NodeOK x) (h2 : 2 ≤ x.alphabet.length) (r : Nat) (c : Byte)
    (hc : c ∈ (leftChild x).alphabet) (hlt : c < midCh x.alphabet)
    (hl : (leftChild x).alphabet.length = 1) :
    ((x.s.take r).filter (fun b => decide (b < midCh x.alphabet))).length =
      (x.s.take r).count c := by
  rw [← count_filter_of_pos (x.s.take r) (fun b => decide (b < midCh x.alphabet)) c
    (by simpa using hlt)]
  symm
  apply leaf_rank_eq_count (leftChild x) (hok.left h2) hl c hc
  intro ch hch
  rw [List.mem_filter] at hch
  exact List.mem_filter.2 ⟨List.mem_of_mem_take hch.1, hch.2⟩

theorem right_leaf_rank (x : n) (hok : NodeOK x) (h2 : 2 ≤ x.alphabet.length) (r : Nat) (c : Byte)
    (hc : c ∈ (rightChild x).alphabet) (hlt : ¬ c < midCh x.alphabet)
    (hl : (rightChild x).alphabet.length = 1) :
    ((x.s.take r).filter (fun b => !decide (b < midCh x.alphabet))).length =
      (x.s.take r).count c := by
  rw [← count_filter_of_pos (x.s.take r) (fun b => !decide (b < midCh x.alphabet)) c
    (by simpa using hlt)]
  symm
  apply leaf_rank_eq_count (rightChild x) (hok.right h2) hl c hc
  intro ch hch
  rw [List.mem_filter] at hch
  exact List.mem_filter.2 ⟨List.mem_of_mem_take hch.1, hch.2⟩

section RankProof

variable {root : n} {B : List Bool} {O : List Nat} {d p : Nat}

/-- The descent of `Rank` from a recorded internal node whose alphabet holds
`c`, entered with the length `r` of a prefix of the node's sub-sequence,
returns the number of occurrences of `c` in that prefix. -/
theorem rankLoop_correct (c : Ctx root B O d p) (sym : Byte) :
    ∀ (fuel e q r : Nat) (x : n),
      (level root e)[q]? = some x → q < 2 ^ e → 2 ^ e + q ≤ O.length →
      2 ≤ x.alphabet.length → sym ∈ x.alphabet → r ≤ x.s.length → d + 1 ≤ fuel + e →
      rankLoop (mkWT root.alphabet B O) sym fuel (2 ^ e + q) x.alphabet r =
        .ok ((x.s.take r).count sym) := by
  intro fuel
  induction fuel with
  | zero =>
    intro e q r x hx hq hin h2 hmem hr hf
    obtain ⟨_, _, _, _, _, hed, _⟩ := c.view e q hq hin
    omega
  | succ fuel ih =>
    intro e q r x hx hq hin h2 hmem hr hf
    obtain ⟨x', tail, hx', hok, h1, hed, hqp, hO, hR, hB⟩ := c.view e q hq hin
    rw [hx] at hx'
    cases Option.some.inj hx'
    have hO' : idx (mkWT root.alphabet B O).nodeOffsets (2 ^ e + q - 1) = .ok (offAt root e q) := hO
    have hR' : idx (mkWT root.alphabet B O).nodeRank1s (2 ^ e + q - 1) = .ok (onesAt root e q) := hR
    obtain ⟨hadd, hr1, hr0⟩ := c.step_internal e q x tail hB h2 r hr
    obtain ⟨hcl, hcr⟩ := c.child_facts e q x hx hq hin h2
    have hmid := idx_eq_ok _ _ _ (midCh_eq x.alphabet h2)
    by_cases hlt : sym < midCh x.alphabet
    · rw [rankLoop_left _ _ _ _ _ _ _ _ _ hO' (by omega) hmid hlt hR', hadd]
      have hmem' : sym ∈ (leftChild x).alphabet := mem_left_alphabet x.alphabet hok.1 h2 sym hmem hlt
      show (if (leftChild x).alphabet.length = 1 then
          Except.ok (sub64 (RRR.Rank0 { bits := B } (offAt root e q + r))
            (sub64 (offAt root e q) (onesAt root e q)))
        else rankLoop _ sym fuel ((2 ^ e + q) * 2) (leftChild x).alphabet
          (sub64 (RRR.Rank0 { bits := B } (offAt root e q + r))
            (sub64 (offAt root e q) (onesAt root e q)))) = _
      rw [hr0]
      split
      · rename_i hl
        rw [left_leaf_rank x hok h2 r sym hmem' hlt hl]
      · rename_i hl
        have hl1 : 1 ≤ (leftChild x).alphabet.length := by rw [leftChild_alphabet_length]; omega
        have hin' : 2 * (2 ^ e + q) ≤ O.length := by
          by_contra hc
          exact hl (hcl (by omega))
        have := ih (e + 1) (2 * q) _ (leftChild x) (level_succ_left root e q x hx)
          (by rw [pow_succ]; omega) (by rw [pow_succ]; omega) (by omega) hmem'
          (filter_take_length_le x.s _ r) (by omega)
        rw [left_take_count x r sym hlt] at this
        have e2 : (2 ^ e + q) * 2 = 2 ^ (e + 1) + 2 * q := by rw [pow_succ]; ring
        rw [e2]; exact this
    · rw [rankLoop_right _ _ _ _ _ _ _ _ _ hO' (by omega) hmid hlt hR', hadd]
      have hmem' : sym ∈ (rightChild x).alphabet :=
        mem_right_alphabet x.alphabet hok.1 h2 sym hmem hlt
      show (if (rightChild x).alphabet.length = 1 then
          Except.ok (sub64 (RRR.Rank1 { bits := B } (offAt root e q + r)) (onesAt root e q))
        else rankLoop _ sym fuel ((2 ^ e + q) * 2 + 1) (rightChild x).alphabet
          (sub64 (RRR.Rank1 { bits := B } (offAt root e q + r)) (onesAt root e q))) = _
      rw [hr1]
      split
      · rename_i hl
        rw [right_leaf_rank x hok h2 r sym hmem' hlt hl]
      · rename_i hl
        have hl1 : 1 ≤ (rightChild x).alphabet.length := by
          rw [rightChild_alphabet_length]; omega
        have hin' : 2 * (2 ^ e + q) + 1 ≤ O.length := by
          by_contra hc
          exact hl (hcr (by omega))
        have := ih (e + 1) (2 * q + 1) _ (rightChild x) (level_succ_right root e q x hx)
          (by rw [pow_succ]; omega) (by rw [pow_succ]; omega) (by omega) hmem'
          (filter_take_length_le x.s _ r) (by omega)
        rw [right_take_count x r sym hlt] at this
        have e2 : (2 ^ e + q) * 2 + 1 = 2 ^ (e + 1) + (2 * q + 1) := by rw [pow_succ]; ring
        rw [e2]; exact this

end RankProof

theorem foundIn_iff (alphabet : List Byte) (c : Byte) : foundIn alphabet c = true ↔ c ∈ alphabet := by
  unfold foundIn
  have : ∀ (l : List Byte) (b : Bool),
      l.foldl (fun found ch => if ch = c then true else found) b = true ↔ b = true ∨ c ∈ l := by
    intro l
    induction l with
    | nil => intro b; simp
    | cons a l ih =>
      intro b
      rw [List.foldl_cons, ih]
      by_cases h : a = c
      · subst h; simp
      · have h' : ¬ c = a := fun e => h e.symm
        simp [h, h']
  rw [this]; simp

/-- On a built tree `Rank` counts the occurrences among the first `i` symbols. -/
theorem rank_of_ctx {s alphabet : List Byte} {B : List Bool} {O : List Nat} {d p : Nat}
    (c : Ctx { s := s, alphabet := alphabet } B O d p)
    (sym : Byte) (i : Nat) (hi : i ≤ s.length) :
    (mkWT alphabet B O).Rank sym i = .ok ((s.take i).count sym) := by
  obtain ⟨h1, h2⟩ := c.root_in_table
  by_cases hf : sym ∈ alphabet
  · have hfound : foundIn (mkWT alphabet B O).alphabet sym = true := (foundIn_iff _ _).2 hf
    simp only [WT.Rank, hfound, Bool.not_true, Bool.false_eq_true, if_false]
    have hpos : 1 ≤ alphabet.length := List.length_pos.2 (List.ne_nil_of_mem hf)
    rcases Nat.lt_or_ge 1 alphabet.length with hσ | hσ
    · have := rankLoop_correct c sym (O.length + 1) 0 0 i { s := s, alphabet := alphabet } rfl
        (by simp) h1 hσ hf hi h2
      simpa [mkWT] using this
    · have hleaf : alphabet.length = 1 := by omega
      obtain ⟨x', tail, hx', hok, -, -, -, hO, -, -⟩ := c.view 0 0 (by simp) h1
      have hO' : idx (mkWT alphabet B O).nodeOffsets (1 - 1) = .ok (offAt _ 0 0) := hO
      show rankLoop (mkWT alphabet B O) sym (O.length + 1) 1 alphabet i = _
      rw [rankLoop_leaf _ _ _ _ _ _ _ hO' hleaf]
      have := leaf_rank_eq_count { s := s, alphabet := alphabet } c.ok hleaf sym hf (s.take i)
        (fun ch h => List.mem_of_mem_take h)
      rw [this, List.length_take, Nat.min_eq_left hi]
  · have hfound : foundIn (mkWT alphabet B O).alphabet sym = false := by
      rw [← Bool.not_eq_true, foundIn_iff]; exact hf
    simp only [WT.Rank, hfound, Bool.not_false, if_true]
    have hns : sym ∉ s := fun h => hf (c.ok.2 sym h)
    rw [List.count_eq_zero_of_not_mem (fun h => hns (List.mem_of_mem_take h))]

/-! ## `InverseSelect` -/

theorem inverseSelectLoop_right (w : WT) (fuel node : Nat) (alphabet : List Byte)
    (rank off rb : Nat)
    (h1 : idx w.nodeOffsets (node - 1) = .ok off)
    (h2 : w.bits.Access (add64 off rank) = .ok true)
    (h3 : idx w.nodeRank1s (node - 1) = .ok rb) :
    inverseSelectLoop w (fuel + 1) node alphabet rank =
      if (alphabet.drop ((alphabet.length + 1) / 2)).length = 1 then
        match idx (alphabet.drop ((alphabet.length + 1) / 2)) 0 with
        | .error e => .error e
        | .ok c => .ok (c, sub64 (w.bits.Rank1 (add64 off rank)) rb)
      else inverseSelectLoop w fuel (node * 2 + 1) (alphabet.drop ((alphabet.length + 1) / 2))
        (sub64 (w.bits.Rank1 (add64 off rank)) rb) := by
  simp only [inverseSelectLoop, h1, h2, h3]

theorem inverseSelectLoop_left (w : WT) (fuel node : Nat) (alphabet : List Byte)
    (rank off r1 : Nat)
    (h1 : idx w.nodeOffsets (node - 1) = .ok off)
    (h2 : w.bits.Access (add64 off rank) = .ok false)
    (h3 : idx w.nodeRank1s (node - 1) = .ok r1) :
    inverseSelectLoop w (fuel + 1) node alphabet rank =
      if (alphabet.take ((alphabet.length + 1) / 2)).length = 1 then
        match idx (alphabet.take ((alphabet.length + 1) / 2)) 0 with
        | .error e => .error e
        | .ok c => .ok (c, sub64 (w.bits.Rank0 (add64 off rank)) (sub64 off r1))
      else inverseSelectLoop w fuel (node * 2) (alphabet.take ((alphabet.length + 1) / 2))
        (sub64 (w.bits.Rank0 (add64 off rank)) (sub64 off r1)) := by
  simp only [inverseSelectLoop, h1, h2, h3]

theorem leaf_head (y : n) (hok : NodeOK y) (hl : y.alphabet.length = 1) (ch : Byte)
    (hch : ch ∈ y.s) : idx y.alphabet 0 = .ok ch := by
  obtain ⟨a, ha, hall⟩ := hok.leaf hl
  rw [ha, hall ch hch]; rfl

section InverseSelectProof

variable {root : n} {B : List Bool} {O : List Nat} {d p : Nat}

/-- The descent of `InverseSelect` from a recorded internal node that holds the
symbol `ch` at rank `r` returns `ch` and the number of earlier occurrences. -/
theorem inverseSelectLoop_correct (c : Ctx root B O d p) :
    ∀ (fuel e q r : Nat) (x : n) (ch : Byte),
      (level root e)[q]? = some x → q < 2 ^ e → 2 ^ e + q ≤ O.length →
      2 ≤ x.alphabet.length → x.s[r]? = some ch → d + 1 ≤ fuel + e →
      inverseSelectLoop (mkWT root.alphabet B O) fuel (2 ^ e + q) x.alphabet r =
        .ok (ch, (x.s.take r).count ch) := by
  intro fuel
  induction fuel with
  | zero =>
    intro e q r x ch hx hq hin h2 hr hf
    obtain ⟨_, _, _, _, _, hed, _⟩ := c.view e q hq hin
    omega
  | succ fuel ih =>
    intro e q r x ch hx hq hin h2 hr hf
    obtain ⟨x', tail, hx', hok, h1, hed, hqp, hO, hR, hB⟩ := c.view e q hq hin
    rw [hx] at hx'
    cases Option.some.inj hx'
    have hrl := getElem?_some_lt hr
    have hO' : idx (mkWT root.alphabet B O).nodeOffsets (2 ^ e + q - 1) = .ok (offAt root e q) := hO
    have hR' : idx (mkWT root.alphabet B O).nodeRank1s (2 ^ e + q - 1) = .ok (onesAt root e q) := hR
    obtain ⟨hadd, hr1, hr0⟩ := c.step_internal e q x tail hB h2 r (le_of_lt hrl)
    have hacc := access_internal e q x tail hB h2 r ch hr
    obtain ⟨hcl, hcr⟩ := c.child_facts e q x hx hq hin h2
    by_cases hlt : ch < midCh x.alphabet
    · have hbit : (mkWT root.alphabet B O).bits.Access (add64 (offAt root e q) r) = .ok false := by
        rw [hadd]; simpa [hlt] using hacc
      rw [inverseSelectLoop_left _ _ _ _ _ _ _ hO' hbit hR', hadd]
      have hch := mem_leftChild_s x r ch hr hlt
      have hmem' : ch ∈ (leftChild x).alphabet := (hok.left h2).2 ch (List.getElem?_mem hch)
      show (if (leftChild x).alphabet.length = 1 then
          match idx (leftChild x).alphabet 0 with
          | .error e => .error e
          | .ok c => .ok (c, sub64 (RRR.Rank0 { bits := B } (offAt root e q + r))
              (sub64 (offAt root e q) (onesAt root e q)))
        else inverseSelectLoop _ fuel ((2 ^ e + q) * 2) (leftChild x).alphabet
          (sub64 (RRR.Rank0 { bits := B } (offAt root e q + r))
            (sub64 (offAt root e q) (onesAt root e q)))) = _
      rw [hr0]
      split
      · rename_i hl
        rw [leaf_head (leftChild x) (hok.left h2) hl ch (List.getElem?_mem hch)]
        simp only
        rw [left_leaf_rank x hok h2 r ch hmem' hlt hl]
      · rename_i hl
        have hl1 : 1 ≤ (leftChild x).alphabet.length := by rw [leftChild_alphabet_length]; omega
        have hin' : 2 * (2 ^ e + q) ≤ O.length := by
          by_contra hc
          exact hl (hcl (by omega))
        have := ih (e + 1) (2 * q) _ (leftChild x) ch (level_succ_left root e q x hx)
          (by rw [pow_succ]; omega) (by rw [pow_succ]; omega) (by omega) hch (by omega)
        rw [left_take_count x r ch hlt] at this
        have e2 : (2 ^ e + q) * 2 = 2 ^ (e + 1) + 2 * q := by rw [pow_succ]; ring
        rw [e2]; exact this
    · have hbit : (mkWT root.alphabet B O).bits.Access (add64 (offAt root e q) r) = .ok true := by
        rw [hadd]; simpa [hlt] using hacc
      rw [inverseSelectLoop_right _ _ _ _ _ _ _ hO' hbit hR', hadd]
      have hch := mem_rightChild_s x r ch hr hlt
      have hmem' : ch ∈ (rightChild x).alphabet := (hok.right h2).2 ch (List.getElem?_mem hch)
      show (if (rightChild x).alphabet.length = 1 then
          match idx (rightChild x).alphabet 0 with
          | .error e => .error e
          | .ok c => .ok (c, sub64 (RRR.Rank1 { bits := B } (offAt root e q + r))
              (onesAt root e q))
        else inverseSelectLoop _ fuel ((2 ^ e + q) * 2 + 1) (rightChild x).alphabet
          (sub64 (RRR.Rank1 { bits := B } (offAt root e q + r)) (onesAt root e q))) = _
      rw [hr1]
      split
      · rename_i hl
        rw [leaf_head (rightChild x) (hok.right h2) hl ch (List.getElem?_mem hch)]
        simp only
        rw [right_leaf_rank x hok h2 r ch hmem' hlt hl]
      · rename_i hl
        have hl1 : 1 ≤ (rightChild x).alphabet.length := by
          rw [rightChild_alphabet_length]; omega
        have hin' : 2 * (2 ^ e + q) + 1 ≤ O.length := by
          by_contra hc
          exact hl (hcr (by omega))
        have := ih (e + 1) (2 * q + 1) _ (rightChild x) ch (level_succ_right root e q x hx)
          (by rw [pow_succ]; omega) (by rw [pow_succ]; omega) (by omega) hch (by omega)
        rw [right_take_count x r ch hlt] at this
        have e2 : (2 ^ e + q) * 2 + 1 = 2 ^ (e + 1) + (2 * q + 1) := by rw [pow_succ]; ring
        rw [e2]; exact this

end InverseSelectProof

/-- With a single symbol the flat bit array holds no one-bit, the only offset
is `0`, and that is all `buildTree` records. -/
theorem singleton_shape {s : List Byte} {a : Byte} {B : List Bool} {O : List Nat} {d p : Nat}
    (c : Ctx { s := s, alphabet := [a] } B O d p) :
    O = [0] ∧ B = List.replicate B.length false ∧ s.length ≤ B.length := by
  have hd : d = 0 := by
    have h := c.built.hd
    rcases Nat.eq_zero_or_pos d with h0 | h0
    · exact h0
    · have : 2 ^ 1 ≤ 2 ^ d := Nat.pow_le_pow_right (by norm_num) h0
      simp at h this
      omega
  subst hd
  have hp : p = 1 := by
    have h1 := c.built.hp
    have h2 := c.built.hroot
    simp at h1 h2
    omega
  subst hp
  obtain ⟨k, hk⟩ := c.built.hbits
  have hcap := c.built.hcap
  have hw : written (tableAt { s := s, alphabet := [a] } 0 1) = [] := by
    simp [tableAt, levelsBelow, level, written, region]
  rw [hw, List.nil_append] at hk
  refine ⟨?_, ?_, by simpa using hcap⟩
  · rw [c.built.hoffs]; rfl
  · rw [hk]; simp

theorem inverseSelect_singleton (a : Byte) (k i : Nat) (hi : i < k)
    (hk : k < 2 ^ 64) :
    (mkWT [a] (List.replicate k false) [0]).InverseSelect i = .ok (a, i) := by
  have hadd : add64 0 i = i := add64_eq 0 i (by omega) ▸ by simp
  have hO : idx (mkWT [a] (List.replicate k false) [0]).nodeOffsets (1 - 1) = .ok 0 := rfl
  have hR : idx (mkWT [a] (List.replicate k false) [0]).nodeRank1s (1 - 1) = .ok 0 := by
    simp [mkWT, populateNodeRanks, RRR.Rank1, idx]
  have hbit : (mkWT [a] (List.replicate k false) [0]).bits.Access (add64 0 i) = .ok false := by
    rw [hadd]
    apply idx_eq_ok
    simp [mkWT, List.getElem?_replicate, hi]
  have hrank : (mkWT [a] (List.replicate k false) [0]).bits.Rank0 i = i := by
    simp [mkWT, RRR.Rank0, List.take_replicate, List.count_replicate]
    omega
  have hs0 : sub64 0 0 = 0 := by simp [sub64]
  have hsi : sub64 i 0 = i := sub64_eq i 0 (Nat.zero_le _) (by omega)
  unfold WT.InverseSelect
  show inverseSelectLoop _ (0 + 1 + 1) 1 [a] i = _
  rw [inverseSelectLoop_left _ _ _ _ _ _ _ hO hbit hR, hadd, hrank, hs0, hsi]
  have e1 : List.take (([a].length + 1) / 2) [a] = [a] := by simp
  rw [e1]
  simp [idx]

/-- On a built tree `InverseSelect` returns the symbol and its rank. -/
theorem inverseSelect_of_ctx {s alphabet : List Byte} {B : List Bool} {O : List Nat} {d p : Nat}
    (c : Ctx { s := s, alphabet := alphabet } B O d p) (i : Nat) (ch : Byte)
    (hi : s[i]? = some ch) :
    (mkWT alphabet B O).InverseSelect i = .ok (ch, (s.take i).count ch) := by
  obtain ⟨h1, h2⟩ := c.root_in_table
  have hil := getElem?_some_lt hi
  have hmem : ch ∈ alphabet := c.ok.2 ch (List.getElem?_mem hi)
  have hpos : 1 ≤ alphabet.length := List.length_pos.2 (List.ne_nil_of_mem hmem)
  rcases Nat.lt_or_ge 1 alphabet.length with hσ | hσ
  · have := inverseSelectLoop_correct c (O.length + 1) 0 0 i { s := s, alphabet := alphabet } ch
      rfl (by simp) h1 hσ hi h2
    simpa [WT.InverseSelect, mkWT] using this
  · obtain ⟨a, ha⟩ := List.length_eq_one.1 (le_antisymm hσ hpos)
    subst ha
    obtain ⟨hO, hB, hlen⟩ := singleton_shape c
    have hcnt := leaf_rank_eq_count { s := s, alphabet := [a] } c.ok rfl ch hmem (s.take i)
      (fun b h => List.mem_of_mem_take h)
    rw [hcnt, List.length_take, Nat.min_eq_left (le_of_lt hil)]
    have hca : ch = a := by simpa using hmem
    rw [hO, hB, hca]
    exact inverseSelect_singleton a B.length i (by omega) c.fit

/-! ## Heap indices -/

theorem heapNode_level (root : n) : ∀ (e fuel q : Nat), q < 2 ^ e → e ≤ fuel →
    (level root e)[q]? = some (heapNode root fuel (2 ^ e + q)) := by
  intro e
  induction e with
  | zero =>
    intro fuel q hq _
    have hq0 : q = 0 := by simpa using hq
    subst hq0
    cases fuel with
    | zero => rfl
    | succ fuel => simp [heapNode, level]
  | succ e ih =>
    intro fuel q hq hf
    obtain ⟨f, rfl⟩ : ∃ f, fuel = f + 1 := ⟨fuel - 1, by omega⟩
    have hpos := Nat.two_pow_pos e
    have hk : ¬ (2 ^ (e + 1) + q ≤ 1) := by rw [pow_succ]; omega
    have hdiv : (2 ^ (e + 1) + q) / 2 = 2 ^ e + q / 2 := by rw [pow_succ]; omega
    have hmod : (2 ^ (e + 1) + q) % 2 = q % 2 := by rw [pow_succ]; omega
    have hq2 : q / 2 < 2 ^ e := by rw [pow_succ] at hq; omega
    have hrec := ih f (q / 2) hq2 (by omega)
    simp only [heapNode, hk, if_false, hdiv, hmod]
    by_cases hpar : q % 2 = 0
    · simp only [hpar, if_true]
      have := level_succ_left root e (q / 2) _ hrec
      have e2 : 2 * (q / 2) = q := by omega
      rw [e2] at this
      exact this
    · simp only [hpar, if_false]
      have := level_succ_right root e (q / 2) _ hrec
      have e2 : 2 * (q / 2) + 1 = q := by omega
      rw [e2] at this
      exact this

/-- Every heap index `k ≥ 1` is `2^e + q` for a depth `e` and a position
`q < 2^e`. -/
theorem heap_index_split (k : Nat) (hk : 1 ≤ k) : ∃ e q, q < 2 ^ e ∧ k = 2 ^ e + q := by
  have hpos : 0 < Nat.size k := Nat.size_pos.2 (by omega)
  have h1 : 2 ^ (Nat.size k - 1) ≤ k := Nat.lt_size.1 (by omega)
  have h2 : k < 2 ^ (Nat.size k - 1 + 1) := by
    have e : Nat.size k - 1 + 1 = Nat.size k := by omega
    rw [e]; exact Nat.lt_size_self k
  refine ⟨Nat.size k - 1, k - 2 ^ (Nat.size k - 1), ?_, by omega⟩
  rw [pow_succ] at h2
  omega

theorem nodeAt_level (root : n) (e q : Nat) (hq : q < 2 ^ e) :
    (level root e)[q]? = some (nodeAt root (2 ^ e + q)) := by
  unfold nodeAt
  apply heapNode_level root e _ q hq
  have := Nat.lt_two_pow e
  omega

theorem nodeAt_one (root : n) : nodeAt root 1 = root := by
  have := nodeAt_level root 0 0 (by simp)
  simp only [level, pow_zero, Nat.add_zero, List.getElem?_cons_zero, Option.some.injEq] at this
  exact this.symm

theorem nodeAt_left (root : n) (k : Nat) (hk : 1 ≤ k) :
    nodeAt root (2 * k) = leftChild (nodeAt root k) := by
  obtain ⟨e, q, hq, rfl⟩ := heap_index_split k hk
  have h1 := nodeAt_level root e q hq
  have h2 := level_succ_left root e q _ h1
  have h3 := nodeAt_level root (e + 1) (2 * q) (by rw [pow_succ]; omega)
  have e2 : 2 ^ (e + 1) + 2 * q = 2 * (2 ^ e + q) := by rw [pow_succ]; ring
  rw [e2, h2] at h3
  exact (Option.some.inj h3).symm

theorem nodeAt_right (root : n) (k : Nat) (hk : 1 ≤ k) :
    nodeAt root (2 * k + 1) = rightChild (nodeAt root k) := by
  obtain ⟨e, q, hq, rfl⟩ := heap_index_split k hk
  have h1 := nodeAt_level root e q hq
  have h2 := level_succ_right root e q _ h1
  have h3 := nodeAt_level root (e + 1) (2 * q + 1) (by rw [pow_succ]; omega)
  have e2 : 2 ^ (e + 1) + (2 * q + 1) = 2 * (2 ^ e + q) + 1 := by rw [pow_succ]; ring
  rw [e2, h2] at h3
  exact (Option.some.inj h3).symm

/-- The table of the first nodes in heap order, entry by entry. -/
theorem tableAt_get (root : n) (d p : Nat) (hp : p ≤ 2 ^ d) (j : Nat)
    (hj : j < 2 ^ d - 1 + p) : (tableAt root d p)[j]? = some (nodeAt root (j + 1)) := by
  obtain ⟨e, q, hq, hk⟩ := heap_index_split (j + 1) (by omega)
  obtain ⟨-, -, x, rest, hx, hT⟩ := table_split root d p e q hp hq (by omega)
  have hlen : (tableAt root e q).length = j := by
    rw [tableAt_length root e q (le_of_lt hq)]
    have := Nat.two_pow_pos e
    omega
  rw [hT, List.getElem?_append_right (by omega), hlen, Nat.sub_self, hk,
    ← nodeAt_level root e q hq, hx]
  exact List.getElem?_cons_zero

theorem tableAt_eq_map (root : n) (d p : Nat) (hp : p ≤ 2 ^ d) :
    tableAt root d p = (List.range (2 ^ d - 1 + p)).map (fun j => nodeAt root (j + 1)) := by
  apply List.ext_getElem?
  intro j
  by_cases hj : j < 2 ^ d - 1 + p
  · rw [tableAt_get root d p hp j hj, List.getElem?_map, List.getElem?_range hj]
    rfl
  · rw [List.getElem?_eq_none (by rw [tableAt_length root d p hp]; omega),
      List.getElem?_eq_none (by simp; omega)]

/-! ## Sub-sequences of the nodes -/

theorem mem_take_alphabet_lt (a : List Byte) (hs : a.Pairwise (· < ·)) (h2 : 2 ≤ a.length)
    (c : Byte) (hc : c ∈ a.take ((a.length + 1) / 2)) : c < midCh a := by
  have hsplit := List.take_append_drop ((a.length + 1) / 2) a
  rw [← hsplit] at hs
  exact (List.pairwise_append.1 hs).2.2 c hc _ (midCh_mem_drop a h2)

theorem mem_drop_alphabet_not_lt (a : List Byte) (hs : a.Pairwise (· < ·)) (h2 : 2 ≤ a.length)
    (c : Byte) (hc : c ∈ a.drop ((a.length + 1) / 2)) : ¬ c < midCh a := by
  have hlt : (a.length + 1) / 2 < a.length := by omega
  have e := midCh_eq a h2
  rw [List.getElem?_eq_getElem hlt] at e
  rw [List.drop_eq_getElem_cons hlt, Option.some.inj e] at hc
  have hs2 : (a.drop ((a.length + 1) / 2)).Pairwise (· < ·) :=
    List.Pairwise.sublist (List.drop_sublist _ _) hs
  rw [List.drop_eq_getElem_cons hlt, Option.some.inj e] at hs2
  rcases List.mem_cons.1 hc with rfl | hc'
  · exact lt_irrefl _
  · exact lt_asymm (List.rel_of_pairwise_cons hs2 hc')

theorem NodeFull.leftFull {x : n} (hok : NodeOK x) (hf : NodeFull x) (h2 : 2 ≤ x.alphabet.length) :
    NodeFull (leftChild x) := by
  intro a ha
  have ha' : a ∈ x.alphabet.take ((x.alphabet.length + 1) / 2) := ha
  have hlt := mem_take_alphabet_lt x.alphabet hok.1 h2 a ha'
  exact List.mem_filter.2 ⟨hf a (List.mem_of_mem_take ha'), by simpa using hlt⟩

theorem NodeFull.rightFull {x : n} (hok : NodeOK x) (hf : NodeFull x) (h2 : 2 ≤ x.alphabet.length) :
    NodeFull (rightChild x) := by
  intro a ha
  have ha' : a ∈ x.alphabet.drop ((x.alphabet.length + 1) / 2) := ha
  have hlt := mem_drop_alphabet_not_lt x.alphabet hok.1 h2 a ha'
  exact List.mem_filter.2 ⟨hf a (List.mem_of_mem_drop ha'), by simpa using hlt⟩

/-- While `2^d ≤ σ` every symbol of a node of depth `d` occurs in its
sub-sequence. -/
theorem level_nodeFull (root : n) (hroot : NodeOK root) (hfull : NodeFull root) (d : Nat)
    (h : 2 ^ d ≤ root.alphabet.length) (x : n) (hx : x ∈ level root d) : NodeFull x := by
  induction d generalizing x with
  | zero =>
    simp only [level, List.mem_singleton] at hx
    subst hx; exact hfull
  | succ d ih =>
    obtain ⟨y, hy, hxy⟩ := (mem_level_succ root d x).1 hx
    have h' : 2 ^ d ≤ root.alphabet.length := by rw [pow_succ] at h; omega
    have hy2 := level_internal root d h y hy
    have hyok := level_nodeOK root hroot d h' y hy
    rcases hxy with rfl | rfl
    · exact (ih h' y hy).leftFull hyok hy2
    · exact (ih h' y hy).rightFull hyok hy2

theorem NodeFull.s_ne_nil {x : n} (hf : NodeFull x) (h1 : 1 ≤ x.alphabet.length) : x.s ≠ [] := by
  obtain ⟨a, ha⟩ := List.exists_mem_of_length_pos h1
  exact List.ne_nil_of_mem (hf a ha)

/-- While `2^d ≤ σ` the sub-sequence of a node of depth `d` is the sequence
restricted to the node's alphabet. -/
theorem level_s_eq_filter (root : n) (hroot : NodeOK root) (d : Nat)
    (h : 2 ^ d ≤ root.alphabet.length) (x : n) (hx : x ∈ level root d) :
    x.s = root.s.filter (fun ch => decide (ch ∈ x.alphabet)) := by
  induction d generalizing x with
  | zero =>
    simp only [level, List.mem_singleton] at hx
    subst hx
    symm
    rw [List.filter_eq_self]
    intro ch hch
    simpa using hroot.2 ch hch
  | succ d ih =>
    obtain ⟨y, hy, hxy⟩ := (mem_level_succ root d x).1 hx
    have h' : 2 ^ d ≤ root.alphabet.length := by rw [pow_succ] at h; omega
    have hy2 := level_internal root d h y hy
    have hyok := level_nodeOK root hroot d h' y hy
    have hys := ih h' y hy
    rcases hxy with rfl | rfl
    · show y.s.filter _ = _
      rw [hys, List.filter_filter]
      apply List.filter_congr
      intro ch _
      show (decide (ch < midCh y.alphabet) && decide (ch ∈ y.alphabet)) =
        decide (ch ∈ y.alphabet.take ((y.alphabet.length + 1) / 2))
      rw [Bool.eq_iff_iff]
      simp only [Bool.and_eq_true, decide_eq_true_eq]
      constructor
      · rintro ⟨h1, h2⟩
        exact mem_left_alphabet y.alphabet hyok.1 hy2 ch h2 h1
      · intro h1
        exact ⟨mem_take_alphabet_lt y.alphabet hyok.1 hy2 ch h1, List.mem_of_mem_take h1⟩
    · show y.s.filter _ = _
      rw [hys, List.filter_filter]
      apply List.filter_congr
      intro ch _
      show ((!decide (ch < midCh y.alphabet)) && decide (ch ∈ y.alphabet)) =
        decide (ch ∈ y.alphabet.drop ((y.alphabet.length + 1) / 2))
      rw [Bool.eq_iff_iff]
      simp only [Bool.and_eq_true, Bool.not_eq_true', decide_eq_false_iff_not, decide_eq_true_eq]
      constructor
      · rintro ⟨h1, h2⟩
        exact mem_right_alphabet y.alphabet hyok.1 hy2 ch h2 h1
      · intro h1
        exact ⟨mem_drop_alphabet_not_lt y.alphabet hyok.1 hy2 ch h1, List.mem_of_mem_drop h1⟩

/-! ## `New` -/

theorem alphabetOf_length_le (s : List Byte) : (alphabetOf s).length ≤ 256 := by
  have hnd : (alphabetOf s).Nodup := (alphabetOf_sorted s).imp (fun h => ne_of_lt h)
  have := hnd.length_le_card
  rw [Fintype.card_fin] at this
  exact this

theorem log2_le_eight (x : Nat) (hx : x ≤ 256) : log2 x + 1 ≤ 9 := by
  unfold log2
  rw [bitLen_eq_size x (by omega)]
  have : Nat.size x ≤ 9 := Nat.size_le.2 (by norm_num; omega)
  omega

theorem log2_nonneg (x : Nat) : 0 ≤ log2 x + 1 := by
  unfold log2; omega

/-- For a non-empty sequence `buildTree` returns and `New` assembles its
output, whatever the collaborator then does with the bits. -/
theorem New_built (s : List Byte) (hs : s ≠ []) :
    ∃ B O d p, buildTree s (alphabetOf s) = .ok (B, O) ∧
      Built { s := s, alphabet := alphabetOf s } B O d p ∧
      NodeOK { s := s, alphabet := alphabetOf s } ∧
      B.length = ((log2 (alphabetOf s).length + 1) * (s.length : Int)).toNat := by
  have hσ := alphabetOf_length_le s
  have hne : 1 ≤ (alphabetOf s).length :=
    List.length_pos.2 (alphabetOf_ne_nil s hs)
  obtain ⟨B, O, d, p, hbt, hbuilt, hBl⟩ := buildTree_built s (alphabetOf s) hne (by omega)
  exact ⟨B, O, d, p, hbt, hbuilt,
    ⟨alphabetOf_sorted s, fun ch h => (mem_alphabetOf s ch).2 h⟩, hBl⟩

theorem New_eq_of_buildTree (s : List Byte) (B : List Bool) (O : List Nat)
    (h : buildTree s (alphabetOf s) = .ok (B, O)) :
    New rrrOfBits s = .ok (mkWT (alphabetOf s) B O) := by
  simp only [New, h, rrrOfBits, mkWT]

theorem capacity_le (s : List Byte) :
    ((log2 (alphabetOf s).length + 1) * (s.length : Int)).toNat ≤ 9 * s.length := by
  have h9 := log2_le_eight _ (alphabetOf_length_le s)
  have : (log2 (alphabetOf s).length + 1) * (s.length : Int) ≤ 9 * (s.length : Int) :=
    mul_le_mul_of_nonneg_right h9 (Int.ofNat_nonneg _)
  generalize (log2 (alphabetOf s).length + 1) * (s.length : Int) = z at this ⊢
  omega

/-- For a non-empty sequence `New` returns a tree, and the tree satisfies the
representation invariant the queries rely on. -/
theorem New_ctx (s : List Byte) (hs : s ≠ []) (hlen : s.length < 2 ^ 59) :
    ∃ B O d p, New rrrOfBits s = .ok (mkWT (alphabetOf s) B O) ∧
      Ctx { s := s, alphabet := alphabetOf s } B O d p := by
  obtain ⟨B, O, d, p, hbt, hbuilt, hok, hBl⟩ := New_built s hs
  refine ⟨B, O, d, p, New_eq_of_buildTree s B O hbt, hbuilt, hok, ?_⟩
  have := capacity_le s
  have h59 : (2 : Nat) ^ 64 = 32 * 2 ^ 59 := by norm_num
  omega

/-! ## Serialization -/

theorem le64_putUint64 (v : Nat) (hv : v < 2 ^ 64) :
    le64 (Fin.ofNat v) (Fin.ofNat (v >>> 8)) (Fin.ofNat (v >>> 16)) (Fin.ofNat (v >>> 24))
      (Fin.ofNat (v >>> 32)) (Fin.ofNat (v >>> 40)) (Fin.ofNat (v >>> 48))
      (Fin.ofNat (v >>> 56)) = v := by
  have hval : ∀ x : Nat, (Fin.ofNat x : Byte).val = x % 256 := fun _ => rfl
  simp only [le64, hval, Nat.shiftRight_eq_div_pow]
  norm_num at hv ⊢
  omega

theorem getUint64_putUint64 (v : Nat) (hv : v < 2 ^ 64) (rest : List Byte) :
    getUint64 (putUint64 v ++ rest) = .ok v := by
  simp only [putUint64, List.cons_append, List.nil_append, getUint64, le64_putUint64 v hv]

theorem drop_putUint64 (v : Nat) (rest : List Byte) : (putUint64 v ++ rest).drop 8 = rest := by
  simp [putUint64]

theorem putUint64_length (v : Nat) : (putUint64 v).length = 8 := rfl

theorem uint64SliceAsByteSlice_length (l : List Nat) :
    (uint64SliceAsByteSlice l).length = 8 * l.length := by
  induction l with
  | nil => rfl
  | cons a l ih =>
    simp only [uint64SliceAsByteSlice, List.flatMap_cons, List.length_append, putUint64_length,
      List.length_cons] at ih ⊢
    omega

theorem byteSliceAsUint64Slice_round (l : List Nat) (h : ∀ v ∈ l, v < 2 ^ 64) :
    byteSliceAsUint64Slice (uint64SliceAsByteSlice l) = l := by
  induction l with
  | nil => rfl
  | cons a l ih =>
    have ha := h a (List.mem_cons_self _ _)
    have hl := ih (fun v hv => h v (List.mem_cons_of_mem _ hv))
    simp only [uint64SliceAsByteSlice, List.flatMap_cons] at hl ⊢
    simp only [putUint64, List.cons_append, List.nil_append, byteSliceAsUint64Slice,
      le64_putUint64 a ha]
    show a :: byteSliceAsUint64Slice (l.flatMap putUint64) = a :: l
    rw [hl]

theorem toInt_small (v : Nat) (hv : v < 2 ^ 63) : toInt v = (v : Int) := by
  unfold toInt
  have : v % 2 ^ 64 = v := Nat.mod_eq_of_lt (by omega)
  rw [this, if_pos hv]

theorem mul8_small (k : Nat) (hk : k < 2 ^ 60) : mul8 (k : Int) = ((8 * k : Nat) : Int) := by
  unfold mul8
  push_cast
  norm_num at hk ⊢
  omega

theorem sliceTo_append (a rest : List Byte) (k : Nat) (hk : k = a.length) :
    sliceTo (a ++ rest) (k : Int) = .ok a := by
  subst hk
  unfold sliceTo
  rw [if_pos ⟨Int.ofNat_nonneg _, by simp⟩]
  simp

theorem sliceFrom_append (a rest : List Byte) (k : Nat) (hk : k = a.length) :
    sliceFrom (a ++ rest) (k : Int) = .ok rest := by
  subst hk
  unfold sliceFrom
  rw [if_pos ⟨Int.ofNat_nonneg _, by simp⟩]
  simp

/-- Writing to an in-memory buffer sends the header and then the collaborator's
blob. -/
theorem writeTo_buffer (rrrWriteTo : RRR → List Byte → Except Err (List Byte)) (w : WT)
    (writer blob : List Byte) (hW : ∀ st, rrrWriteTo w.bits st = .ok (st ++ blob)) :
    w.WriteTo bufferWrite rrrWriteTo writer = .ok (writer ++ (headerBytes w ++ blob)) := by
  simp only [WT.WriteTo, bufferWrite, hW, headerBytes, List.append_assoc]

/-- Decoding what was encoded, followed by anything, gives the tree back and
reports the length of the encoding. -/
theorem decode_header (rrrNewFromSerialized : List Byte → Except Err (RRR × Int)) (w : WT)
    (hw : Encodable w) (tail : List Byte) :
    NewFromSerialized rrrNewFromSerialized (headerBytes w ++ tail) =
      match rrrNewFromSerialized tail with
      | .error e => .ok { wt := none, wtBytes := 0, err := some e }
      | .ok (bits, rrrBytes) =>
        .ok { wt := some { bits := bits, alphabet := w.alphabet,
                           nodeOffsets := w.nodeOffsets, nodeRank1s := w.nodeRank1s },
              wtBytes := ((headerBytes w).length : Int) + rrrBytes, err := none } := by
  obtain ⟨h1, h2, h3, h4, h5⟩ := hw
  have e60 : (2 : Nat) ^ 60 < 2 ^ 63 := by norm_num
  have e63 : (2 : Nat) ^ 63 < 2 ^ 64 := by norm_num
  unfold NewFromSerialized
  simp only [headerBytes, List.append_assoc]
  rw [getUint64_putUint64 _ (by omega)]
  simp only [drop_putUint64, toInt_small _ (lt_trans h1 e60)]
  rw [sliceTo_append _ _ _ rfl, sliceFrom_append _ _ _ rfl]
  simp only
  rw [getUint64_putUint64 _ (by omega)]
  simp only [drop_putUint64, toInt_small _ (lt_trans h2 e60), mul8_small _ h2]
  rw [sliceTo_append _ _ _ (uint64SliceAsByteSlice_length _).symm,
    sliceFrom_append _ _ _ (uint64SliceAsByteSlice_length _).symm]
  simp only
  rw [getUint64_putUint64 _ (by omega)]
  simp only [drop_putUint64, toInt_small _ (lt_trans h3 e60), mul8_small _ h3]
  rw [sliceTo_append _ _ _ (uint64SliceAsByteSlice_length _).symm,
    sliceFrom_append _ _ _ (uint64SliceAsByteSlice_length _).symm]
  simp only [byteSliceAsUint64Slice_round _ h4, byteSliceAsUint64Slice_round _ h5]
  cases rrrNewFromSerialized tail with
  | error e => rfl
  | ok r =>
    obtain ⟨bits, rrrBytes⟩ := r
    simp only [List.length_append, putUint64_length, uint64SliceAsByteSlice_length]
    congr 2
    push_cast
    ring

theorem toyParse_bytes (bits : List Bool) (t : List Byte) :
    toyParse (toyBytes { bits := bits } ++ t) = some (bits, (bits.length : Int) + 1) := by
  induction bits with
  | nil => simp [toyBytes, toyParse]
  | cons b bits ih =>
    simp only [toyBytes, List.map_cons, List.cons_append, List.append_assoc] at ih ⊢
    cases b with
    | false =>
      have h0 : ¬ ((0 : Byte) = 2) := by decide
      have h1 : ¬ ((0 : Byte) = 1) := by decide
      simp only [toyParse, Bool.false_eq_true, if_false, h0, ih, h1, decide_False,
        List.length_cons]
      push_cast
      rfl
    | true =>
      have h0 : ¬ ((1 : Byte) = 2) := by decide
      simp only [toyParse, if_true, if_false, h0, ih, decide_True, List.length_cons]
      push_cast
      rfl

/-- The toy reader inverts the toy writer and reports the size of the blob. -/
theorem toy_round (b : RRR) (t : List Byte) :
    toyNewFromSerialized (toyBytes b ++ t) = .ok (b, ((toyBytes b).length : Int)) := by
  obtain ⟨bits⟩ := b
  simp only [toyNewFromSerialized, toyParse_bytes]
  simp [toyBytes]

theorem written_take_le (T : List n) (j : Nat) :
    (written (T.take j)).length ≤ (written T).length := by
  conv_rhs => rw [← List.take_append_drop j T, written_append]
  rw [List.length_append]; omega

/-- A tree built by `New` fits the 64-bit fields of the wire format. -/
theorem encodable_of_ctx {s alphabet : List Byte} {B : List Bool} {O : List Nat} {d p : Nat}
    (c : Ctx { s := s, alphabet := alphabet } B O d p) (hσ : alphabet.length ≤ 256) :
    Encodable (mkWT alphabet B O) := by
  have hlen := c.table_length
  have hO : O.length < 2 ^ 60 := by
    have h1 := c.built.hp
    have h2 : 2 ^ d ≤ alphabet.length := c.built.hd
    rw [hlen]
    have : (2 : Nat) ^ 60 = 1152921504606846976 := by norm_num
    omega
  have hfit := c.fit
  obtain ⟨k, hk⟩ := c.built.hbits
  have hwB : (written (tableAt { s := s, alphabet := alphabet } d p)).length ≤ B.length := by
    conv_rhs => rw [hk]
    rw [List.length_append]; omega
  refine ⟨?_, hO, ?_, ?_, ?_⟩
  · have : (2 : Nat) ^ 60 = 1152921504606846976 := by norm_num
    show alphabet.length < 2 ^ 60
    omega
  · show (populateNodeRanks { bits := B } O).length < 2 ^ 60
    simp only [populateNodeRanks, List.length_map]
    exact hO
  · intro v hv
    have hv' : v ∈ offs (tableAt { s := s, alphabet := alphabet } d p) := by
      rw [← c.built.hoffs]; exact hv
    simp only [offs, List.mem_map, List.mem_range] at hv'
    obtain ⟨j, -, rfl⟩ := hv'
    have := written_take_le (tableAt { s := s, alphabet := alphabet } d p) j
    omega
  · intro v hv
    have hv' : v ∈ populateNodeRanks { bits := B } O := hv
    simp only [populateNodeRanks, List.mem_map] at hv'
    obtain ⟨off, -, rfl⟩ := hv'
    have h1 : RRR.Rank1 { bits := B } off ≤ (B.take off).length := List.count_le_length _ _
    have h2 : (B.take off).length ≤ B.length := by simp
    omega

/-! ## The contract of the package -/

theorem count_take_eq_occurrences (s : List Byte) (c : Byte) (i : Nat) :
    (s.take i).count c = occurrencesBefore s c i := by
  unfold occurrencesBefore
  induction i with
  | zero => simp
  | succ i ih =>
    rw [List.take_succ, List.count_append, ih, List.range_succ, List.filter_append,
      List.length_append]
    congr 1
    cases h : s[i]? with
    | none => simp [List.filter_cons, h]
    | some b =>
      by_cases hb : b = c
      · subst hb; simp [List.filter_cons, h]
      · simp [hb, List.count_cons, List.filter_cons, h]

/-- C1 (access round trip): for a byte sequence `s` and every position
`i < len(s)`, `New(s)` returns a tree `w` and `w.Access(i)` returns `s[i]`.  The
succinct bitvector is the bit array written by `buildTree`, with `Access`,
`Rank1` and `Rank0` read off that array.  The bound `len(s) < 2^59` says that
the bit capacity, at most `9 * len(s)`, is a Go `int`. -/
theorem access_round_trip (s : List Byte) (i : Nat) (hi : i < s.length)
    (hlen : s.length < 2 ^ 59) :
    ∃ w, New rrrOfBits s = .ok w ∧ w.Access i = .ok s[i] := by
  have hs : s ≠ [] := List.ne_nil_of_length_pos (by omega)
  obtain ⟨B, O, d, p, hnew, c⟩ := New_ctx s hs hlen
  exact ⟨_, hnew, access_of_ctx c i s[i] (List.getElem?_eq_getElem hi)⟩

theorem access_round_trip_witness :
    (1 < ([1, 0, 1] : List Byte).length ∧ ([1, 0, 1] : List Byte).length < 2 ^ 59) ∧
      ∃ w, New rrrOfBits [1, 0, 1] = .ok w ∧ w.Access 1 = .ok 0 :=
  ⟨⟨by decide, by norm_num⟩, access_round_trip [1, 0, 1] 1 (by decide) (by norm_num)⟩

/-- C2 (rank correctness): for a non-empty byte sequence `s` (of fewer than
`2^59` bytes, so that the bit capacity is a Go `int`), every byte `c` and every
`i ≤ len(s)`, `New(s).Rank(c, i)` returns the number of positions `j < i` with
`s[j] = c`. -/
theorem rank_correct (s : List Byte) (hs : s ≠ []) (hlen : s.length < 2 ^ 59) (c : Byte)
    (i : Nat) (hi : i ≤ s.length) :
    ∃ w, New rrrOfBits s = .ok w ∧ w.Rank c i = .ok (occurrencesBefore s c i) := by
  obtain ⟨B, O, d, p, hnew, ctx⟩ := New_ctx s hs hlen
  refine ⟨_, hnew, ?_⟩
  rw [← count_take_eq_occurrences]
  exact rank_of_ctx ctx c i hi

theorem rank_correct_witness :
    (([1, 0, 1] : List Byte) ≠ [] ∧ ([1, 0, 1] : List Byte).length < 2 ^ 59 ∧
      3 ≤ ([1, 0, 1] : List Byte).length) ∧
      ∃ w, New rrrOfBits [1, 0, 1] = .ok w ∧ w.Rank 1 3 = .ok (occurrencesBefore [1, 0, 1] 1 3) :=
  ⟨⟨by decide, by norm_num, by decide⟩,
    rank_correct [1, 0, 1] (by decide) (by norm_num) 1 3 (by decide)⟩

/-- C3 (inverse-select consistency): for a byte sequence `s` (of fewer than
`2^59` bytes, so that the bit capacity is a Go `int`) and every position
`i < len(s)`, the single pass `InverseSelect(i)` on `New(s)` returns the pair
made of the result of `Access(i)` and of the result of `Rank(Access(i), i)`. -/
theorem inverse_select_consistent (s : List Byte) (i : Nat) (hi : i < s.length)
    (hlen : s.length < 2 ^ 59) :
    ∃ w ch r, New rrrOfBits s = .ok w ∧ w.Access i = .ok ch ∧ w.Rank ch i = .ok r ∧
      w.InverseSelect i = .ok (ch, r) := by
  have hs : s ≠ [] := List.ne_nil_of_length_pos (by omega)
  obtain ⟨B, O, d, p, hnew, c⟩ := New_ctx s hs hlen
  have hget : s[i]? = some s[i] := List.getElem?_eq_getElem hi
  exact ⟨_, s[i], (s.take i).count s[i], hnew, access_of_ctx c i _ hget,
    rank_of_ctx c _ i (le_of_lt hi), inverseSelect_of_ctx c i _ hget⟩

theorem inverse_select_consistent_witness :
    (2 < ([1, 0, 1] : List Byte).length ∧ ([1, 0, 1] : List Byte).length < 2 ^ 59) ∧
      ∃ w ch r, New rrrOfBits [1, 0, 1] = .ok w ∧ w.Access 2 = .ok ch ∧ w.Rank ch 2 = .ok r ∧
        w.InverseSelect 2 = .ok (ch, r) :=
  ⟨⟨by decide, by norm_num⟩, inverse_select_consistent [1, 0, 1] 2 (by decide) (by norm_num)⟩

theorem alphabetOf_nil : alphabetOf [] = [] := by
  apply List.eq_nil_iff_forall_not_mem.2
  intro b hb
  have := (mem_alphabetOf [] b).1 hb
  simp at this

theorem alphabetOf_singleton (s : List Byte) (hs : s ≠ []) (c : Byte) (hall : ∀ b ∈ s, b = c) :
    alphabetOf s = [c] := by
  have hsorted := alphabetOf_sorted s
  have hmem : ∀ b, b ∈ alphabetOf s → b = c := fun b hb => hall b ((mem_alphabetOf s b).1 hb)
  have hne := alphabetOf_ne_nil s hs
  cases h : alphabetOf s with
  | nil => exact absurd h hne
  | cons a t =>
    rw [h] at hsorted hmem
    have ha : a = c := hmem a (List.mem_cons_self _ _)
    subst ha
    cases t with
    | nil => rfl
    | cons b t' =>
      have hb : b = a := hmem b (by simp)
      have hlt : a < b := List.rel_of_pairwise_cons hsorted (by simp)
      rw [hb] at hlt
      exact absurd hlt (lt_irrefl _)

/-- What `New` does on a non-empty sequence: `buildTree` returns, and the
outcome of `New` is decided by the collaborator alone. -/
theorem New_nonempty (mk : List Bool → Except Err RRR) (s : List Byte) (hs : s ≠ []) :
    ∃ bits nodeOffsets, buildTree s (alphabetOf s) = .ok (bits, nodeOffsets) ∧
      New mk s =
        match mk bits with
        | .error e => .error e
        | .ok bitsRRR =>
          .ok { alphabet := alphabetOf s, bits := bitsRRR, nodeOffsets := nodeOffsets,
                nodeRank1s := populateNodeRanks bitsRRR nodeOffsets } := by
  obtain ⟨B, O, d, p, hbt, -, -, -⟩ := New_built s hs
  exact ⟨B, O, hbt, by simp only [New, hbt]⟩

/-- C6 (construction is all-or-nothing), at the failing input: on the empty
sequence `New` does not reach the collaborator; `buildTree` dequeues the root,
whose alphabet is empty, and indexes `node.alphabet[midIdx]` with `midIdx = 0`,
a runtime panic. -/
theorem New_empty_panics (mk : List Bool → Except Err RRR) : New mk [] = .error Err.panic := by
  have h : buildTree [] [] = .error Err.panic := rfl
  simp only [New, alphabetOf_nil, h]

/-- C7 (absent symbol): for a non-empty byte sequence `s`, a byte `c` that does
not occur in `s` and any `i`, `New(s).Rank(c, i)` returns `0`; the answer is
the same whatever bit array the tree holds. -/
theorem rank_absent (s : List Byte) (hs : s ≠ []) (c : Byte) (hc : c ∉ s) (i : Nat) :
    ∃ w, New rrrOfBits s = .ok w ∧ w.Rank c i = .ok 0 ∧
      ∀ bits : RRR, ({ w with bits := bits } : WT).Rank c i = .ok 0 := by
  obtain ⟨B, O, d, p, hbt, -, -, -⟩ := New_built s hs
  have hnf : foundIn (alphabetOf s) c = false := by
    rw [← Bool.not_eq_true, foundIn_iff, mem_alphabetOf]; exact hc
  refine ⟨_, New_eq_of_buildTree s B O hbt, ?_, fun bits => ?_⟩
  · simp [WT.Rank, mkWT, hnf]
  · simp [WT.Rank, mkWT, hnf]

theorem rank_absent_witness :
    (([1, 0, 1] : List Byte) ≠ [] ∧ (7 : Byte) ∉ ([1, 0, 1] : List Byte)) ∧
      ∃ w, New rrrOfBits [1, 0, 1] = .ok w ∧ w.Rank 7 5 = .ok 0 ∧
        ∀ bits : RRR, ({ w with bits := bits } : WT).Rank 7 5 = .ok 0 :=
  ⟨⟨by decide, by decide⟩, rank_absent [1, 0, 1] (by decide) 7 (by decide) 5⟩

/-- C8 (singleton alphabet): for a non-empty sequence `s` (of fewer than `2^59`
bytes) whose bytes all equal `c`, `New(s)` returns a tree whose offset table is
`[0]` and whose bit array holds no one-bit, `Access(i)` returns `c` for every
`i < len(s)`, and `Rank(c, i)` returns `i` for every `i`. -/
theorem singleton_alphabet (s : List Byte) (hs : s ≠ []) (hlen : s.length < 2 ^ 59) (c : Byte)
    (hall : ∀ b ∈ s, b = c) :
    ∃ w, New rrrOfBits s = .ok w ∧ w.nodeOffsets = [0] ∧ (∀ b ∈ w.bits.bits, b = false) ∧
      (∀ i, i < s.length → w.Access i = .ok c) ∧ ∀ i, w.Rank c i = .ok i := by
  obtain ⟨B, O, d, p, hnew, ctx⟩ := New_ctx s hs hlen
  have ha := alphabetOf_singleton s hs c hall
  rw [ha] at hnew ctx
  obtain ⟨hO, hB, -⟩ := singleton_shape ctx
  refine ⟨_, hnew, hO, ?_, ?_, ?_⟩
  · intro b hb
    have hb' : b ∈ B := hb
    rw [hB] at hb'
    exact (List.mem_replicate.1 hb').2
  · intro i hi
    have hget : s[i]? = some s[i] := List.getElem?_eq_getElem hi
    have hc : s[i] = c := hall _ (List.getElem?_mem hget)
    rw [hc] at hget
    exact access_of_ctx ctx i c hget
  · intro i
    have hfound : foundIn (mkWT [c] B O).alphabet c = true := (foundIn_iff _ _).2 (by simp [mkWT])
    have hO' : idx (mkWT [c] B O).nodeOffsets (1 - 1) = .ok 0 := by rw [hO]; rfl
    simp only [WT.Rank, hfound, Bool.not_true, Bool.false_eq_true, if_false]
    exact rankLoop_leaf _ _ _ _ _ _ _ hO' rfl

theorem singleton_alphabet_witness :
    (([5, 5] : List Byte) ≠ [] ∧ ([5, 5] : List Byte).length < 2 ^ 59 ∧
      ∀ b ∈ ([5, 5] : List Byte), b = 5) ∧
      ∃ w, New rrrOfBits [5, 5] = .ok w ∧ w.nodeOffsets = [0] ∧ (∀ b ∈ w.bits.bits, b = false) ∧
        (∀ i, i < ([5, 5] : List Byte).length → w.Access i = .ok 5) ∧ ∀ i, w.Rank 5 i = .ok i :=
  ⟨⟨by decide, by norm_num, by simp⟩,
    singleton_alphabet [5, 5] (by decide) (by norm_num) 5 (by simp)⟩

/-- C9 (rank monotonicity): for a non-empty byte sequence `s` (of fewer than
`2^59` bytes), every byte `c` and all `i ≤ j ≤ len(s)`, both `Rank(c, i)` and
`Rank(c, j)` return on `New(s)` and the first result is at most the second. -/
theorem rank_monotone (s : List Byte) (hs : s ≠ []) (hlen : s.length < 2 ^ 59) (c : Byte)
    (i j : Nat) (hij : i ≤ j) (hj : j ≤ s.length) :
    ∃ w ri rj, New rrrOfBits s = .ok w ∧ w.Rank c i = .ok ri ∧ w.Rank c j = .ok rj ∧
      ri ≤ rj := by
  obtain ⟨B, O, d, p, hnew, ctx⟩ := New_ctx s hs hlen
  refine ⟨_, _, _, hnew, rank_of_ctx ctx c i (le_trans hij hj), rank_of_ctx ctx c j hj, ?_⟩
  have : s.take i = (s.take j).take i := by
    rw [List.take_take, Nat.min_eq_left hij]
  rw [this]
  exact (List.take_sublist i (s.take j)).count_le c

theorem rank_monotone_witness :
    (([1, 0, 1] : List Byte) ≠ [] ∧ ([1, 0, 1] : List Byte).length < 2 ^ 59 ∧ 1 ≤ 3 ∧
      3 ≤ ([1, 0, 1] : List Byte).length) ∧
      ∃ w ri rj, New rrrOfBits [1, 0, 1] = .ok w ∧ w.Rank 1 1 = .ok ri ∧ w.Rank 1 3 = .ok rj ∧
        ri ≤ rj :=
  ⟨⟨by decide, by norm_num, by decide, by decide⟩,
    rank_monotone [1, 0, 1] (by decide) (by norm_num) 1 1 3 (by decide) (by decide)⟩

/-- C10 (alphabet extraction): for every byte sequence `s`, the alphabet that
`New` computes is strictly ascending, holds exactly the bytes that occur in
`s`, is non-empty when `s` is, and is the alphabet of the tree `New` returns. -/
theorem alphabet_extraction (s : List Byte) :
    (alphabetOf s).Pairwise (· < ·) ∧ (∀ b : Byte, b ∈ alphabetOf s ↔ b ∈ s) ∧
      (s ≠ [] → alphabetOf s ≠ []) ∧
      ∀ (mk : List Bool → Except Err RRR) (w : WT), New mk s = .ok w →
        w.alphabet = alphabetOf s := by
  refine ⟨alphabetOf_sorted s, mem_alphabetOf s, alphabetOf_ne_nil s, ?_⟩
  intro mk w h
  unfold New at h
  simp only at h
  split at h
  · cases h
  · split at h
    · cases h
    · cases h; rfl


/-- C4 (serialization round trip): for a non-empty sequence `s` (of fewer than
`2^59` bytes), with a collaborator whose `WriteTo` appends a blob to the writer and
whose `NewFromSerialized` gives back the bitvector that blob was written from,
`NewFromSerialized` applied to the bytes that `WriteTo` sent to a buffer returns
a tree and no error; the tree has the alphabet, offset table, base-rank table
and bits of `New(s)`, and `Access` and `Rank` agree with those of `New(s)`
everywhere. -/
theorem serialization_round_trip (s : List Byte) (hs : s ≠ []) (hlen : s.length < 2 ^ 59)
    (rrrWriteTo : RRR → List Byte → Except Err (List Byte))
    (rrrNewFromSerialized : List Byte → Except Err (RRR × Int)) (blob : RRR → List Byte)
    (hW : ∀ b st, rrrWriteTo b st = .ok (st ++ blob b))
    (hR : ∀ b, ∃ k, rrrNewFromSerialized (blob b) = .ok (b, k)) :
    ∃ w bytes w' k, New rrrOfBits s = .ok w ∧ w.WriteTo bufferWrite rrrWriteTo [] = .ok bytes ∧
      NewFromSerialized rrrNewFromSerialized bytes =
        .ok { wt := some w', wtBytes := k, err := none } ∧
      w'.alphabet = w.alphabet ∧ w'.nodeOffsets = w.nodeOffsets ∧
      w'.nodeRank1s = w.nodeRank1s ∧ w'.bits = w.bits ∧
      (∀ i, w'.Access i = w.Access i) ∧ ∀ c i, w'.Rank c i = w.Rank c i := by
  obtain ⟨B, O, d, p, hnew, ctx⟩ := New_ctx s hs hlen
  have henc := encodable_of_ctx ctx (alphabetOf_length_le s)
  obtain ⟨k, hk⟩ := hR (mkWT (alphabetOf s) B O).bits
  have hwr := writeTo_buffer rrrWriteTo (mkWT (alphabetOf s) B O) [] _ (hW _)
  have hdec := decode_header rrrNewFromSerialized _ henc (blob (mkWT (alphabetOf s) B O).bits)
  rw [hk] at hdec
  refine ⟨_, _, mkWT (alphabetOf s) B O,
    ((headerBytes (mkWT (alphabetOf s) B O)).length : Int) + k, hnew, hwr, ?_, rfl, rfl, rfl, rfl,
    fun _ => rfl, fun _ _ => rfl⟩
  rw [List.nil_append, hdec]

theorem serialization_round_trip_witness :
    (([1, 0, 1] : List Byte) ≠ [] ∧ ([1, 0, 1] : List Byte).length < 2 ^ 59 ∧
      (∀ b st, toyWriteTo b st = .ok (st ++ toyBytes b)) ∧
      (∀ b, ∃ k, toyNewFromSerialized (toyBytes b) = .ok (b, k))) ∧
      ∃ w bytes w' k, New rrrOfBits [1, 0, 1] = .ok w ∧
        w.WriteTo bufferWrite toyWriteTo [] = .ok bytes ∧
        NewFromSerialized toyNewFromSerialized bytes =
          .ok { wt := some w', wtBytes := k, err := none } ∧
        w'.alphabet = w.alphabet ∧ w'.nodeOffsets = w.nodeOffsets ∧
        w'.nodeRank1s = w.nodeRank1s ∧ w'.bits = w.bits ∧
        (∀ i, w'.Access i = w.Access i) ∧ ∀ c i, w'.Rank c i = w.Rank c i :=
  have hR : ∀ b, ∃ k, toyNewFromSerialized (toyBytes b) = .ok (b, k) := fun b =>
    ⟨_, by simpa using toy_round b []⟩
  ⟨⟨by decide, by norm_num, fun _ _ => rfl, hR⟩,
    serialization_round_trip [1, 0, 1] (by decide) (by norm_num) toyWriteTo toyNewFromSerialized
      toyBytes (fun _ _ => rfl) hR⟩

/-- C5 (bytes consumed): for a non-empty sequence `s` (of fewer than `2^59`
bytes), with a collaborator whose `WriteTo` appends a blob to the writer and whose
`NewFromSerialized` reports the length of that blob whatever follows it,
`NewFromSerialized` applied to the encoding of `New(s)` followed by any bytes
`t` reports exactly the length of the encoding, which is
`8 + σ + 8 + 8k + 8 + 8k` plus the length of the blob. -/
theorem bytes_consumed (s : List Byte) (hs : s ≠ []) (hlen : s.length < 2 ^ 59)
    (rrrWriteTo : RRR → List Byte → Except Err (List Byte))
    (rrrNewFromSerialized : List Byte → Except Err (RRR × Int)) (blob : RRR → List Byte)
    (hW : ∀ b st, rrrWriteTo b st = .ok (st ++ blob b))
    (hR : ∀ b t, ∃ b', rrrNewFromSerialized (blob b ++ t) = .ok (b', ((blob b).length : Int)))
    (t : List Byte) :
    ∃ w bytes w', New rrrOfBits s = .ok w ∧ w.WriteTo bufferWrite rrrWriteTo [] = .ok bytes ∧
      NewFromSerialized rrrNewFromSerialized (bytes ++ t) =
        .ok { wt := some w', wtBytes := (bytes.length : Int), err := none } ∧
      w.nodeRank1s.length = w.nodeOffsets.length ∧
      bytes.length = 8 + w.alphabet.length + 8 + 8 * w.nodeOffsets.length + 8 +
        8 * w.nodeOffsets.length + (blob w.bits).length := by
  obtain ⟨B, O, d, p, hnew, ctx⟩ := New_ctx s hs hlen
  have henc := encodable_of_ctx ctx (alphabetOf_length_le s)
  obtain ⟨b', hb'⟩ := hR (mkWT (alphabetOf s) B O).bits t
  have hwr := writeTo_buffer rrrWriteTo (mkWT (alphabetOf s) B O) [] _ (hW _)
  have hdec := decode_header rrrNewFromSerialized _ henc
    (blob (mkWT (alphabetOf s) B O).bits ++ t)
  rw [hb'] at hdec
  have hRl : (mkWT (alphabetOf s) B O).nodeRank1s.length =
      (mkWT (alphabetOf s) B O).nodeOffsets.length := by
    simp [mkWT, populateNodeRanks]
  refine ⟨_, _, WT.mk b' (mkWT (alphabetOf s) B O).alphabet (mkWT (alphabetOf s) B O).nodeOffsets
      (mkWT (alphabetOf s) B O).nodeRank1s, hnew, hwr, ?_, hRl, ?_⟩
  · rw [List.nil_append, List.append_assoc, hdec]
    simp only [List.length_append]
    push_cast
    rfl
  · simp only [List.nil_append, List.length_append, headerBytes, putUint64_length,
      uint64SliceAsByteSlice_length, hRl]

theorem bytes_consumed_witness :
    (([1, 0, 1] : List Byte) ≠ [] ∧ ([1, 0, 1] : List Byte).length < 2 ^ 59 ∧
      (∀ b st, toyWriteTo b st = .ok (st ++ toyBytes b)) ∧
      (∀ b t, ∃ b', toyNewFromSerialized (toyBytes b ++ t) =
        .ok (b', ((toyBytes b).length : Int)))) ∧
      ∃ w bytes w', New rrrOfBits [1, 0, 1] = .ok w ∧
        w.WriteTo bufferWrite toyWriteTo [] = .ok bytes ∧
        NewFromSerialized toyNewFromSerialized (bytes ++ [9, 9]) =
          .ok { wt := some w', wtBytes := (bytes.length : Int), err := none } ∧
        w.nodeRank1s.length = w.nodeOffsets.length ∧
        bytes.length = 8 + w.alphabet.length + 8 + 8 * w.nodeOffsets.length + 8 +
          8 * w.nodeOffsets.length + (toyBytes w.bits).length :=
  have hR : ∀ b t, ∃ b', toyNewFromSerialized (toyBytes b ++ t) =
      .ok (b', ((toyBytes b).length : Int)) := fun b t => ⟨b, toy_round b t⟩
  ⟨⟨by decide, by norm_num, fun _ _ => rfl, hR⟩,
    bytes_consumed [1, 0, 1] (by decide) (by norm_num) toyWriteTo toyNewFromSerialized
      toyBytes (fun _ _ => rfl) hR [9, 9]⟩


/-! ## The wire format -/

/-- C11 (wire layout): for every tree `w`, with a collaborator that appends its
blob to the writer, the bytes `WriteTo` sends to a buffer are, in this order and
with nothing else, the alphabet length as 8 little-endian bytes, the alphabet
bytes, the length of the offset table as 8 little-endian bytes, every offset as
8 little-endian bytes, the length of the base-rank table as 8 little-endian
bytes, every base rank as 8 little-endian bytes, and the blob; eight bytes
written for a 64-bit value read back as that value, and the alphabet of a tree
returned by `New` is in ascending order. -/
theorem wire_layout (w : WT) (rrrWriteTo : RRR → List Byte → Except Err (List Byte))
    (writer blob : List Byte) (hW : ∀ st, rrrWriteTo w.bits st = .ok (st ++ blob)) :
    w.WriteTo bufferWrite rrrWriteTo writer =
        .ok (writer ++ (putUint64 w.alphabet.length ++ w.alphabet ++
          putUint64 w.nodeOffsets.length ++ w.nodeOffsets.flatMap putUint64 ++
          putUint64 w.nodeRank1s.length ++ w.nodeRank1s.flatMap putUint64 ++ blob)) ∧
      (∀ v, v < 2 ^ 64 → getUint64 (putUint64 v) = .ok v ∧ (putUint64 v).length = 8) ∧
      ∀ (mk : List Bool → Except Err RRR) (s : List Byte), New mk s = .ok w →
        w.alphabet.Pairwise (· < ·) := by
  refine ⟨?_, ?_, ?_⟩
  · simp only [WT.WriteTo, bufferWrite, hW, uint64SliceAsByteSlice, List.append_assoc]
  · intro v hv
    have := getUint64_putUint64 v hv []
    rw [List.append_nil] at this
    exact ⟨this, rfl⟩
  · intro mk s h
    have hsorted := alphabetOf_sorted s
    unfold New at h
    simp only at h
    split at h
    · cases h
    · split at h
      · cases h
      · cases h; exact hsorted

theorem wire_layout_witness :
    (∀ st, toyWriteTo (mkWT [3, 7] [true, false] [0, 2]).bits st =
        .ok (st ++ toyBytes (mkWT [3, 7] [true, false] [0, 2]).bits)) ∧
      ((mkWT [3, 7] [true, false] [0, 2]).WriteTo bufferWrite toyWriteTo [] =
        .ok ([] ++ (putUint64 (mkWT [3, 7] [true, false] [0, 2]).alphabet.length ++
          (mkWT [3, 7] [true, false] [0, 2]).alphabet ++
          putUint64 (mkWT [3, 7] [true, false] [0, 2]).nodeOffsets.length ++
          (mkWT [3, 7] [true, false] [0, 2]).nodeOffsets.flatMap putUint64 ++
          putUint64 (mkWT [3, 7] [true, false] [0, 2]).nodeRank1s.length ++
          (mkWT [3, 7] [true, false] [0, 2]).nodeRank1s.flatMap putUint64 ++
          toyBytes (mkWT [3, 7] [true, false] [0, 2]).bits)) ∧
      (∀ v, v < 2 ^ 64 → getUint64 (putUint64 v) = .ok v ∧ (putUint64 v).length = 8) ∧
      ∀ (mk : List Bool → Except Err RRR) (s : List Byte),
        New mk s = .ok (mkWT [3, 7] [true, false] [0, 2]) →
        (mkWT [3, 7] [true, false] [0, 2]).alphabet.Pairwise (· < ·)) :=
  ⟨fun _ => rfl, wire_layout (mkWT [3, 7] [true, false] [0, 2]) toyWriteTo [] _ (fun _ => rfl)⟩

theorem newFromSerialized_of_payload (rrrNewFromSerialized : List Byte → Except Err (RRR × Int))
    (buf rest : List Byte) (h : payloadOf buf = .ok rest) :
    ∃ (w : WT) (k : Int), NewFromSerialized rrrNewFromSerialized buf =
      match rrrNewFromSerialized rest with
      | .error e => .ok { wt := none, wtBytes := 0, err := some e }
      | .ok (bits, rrrBytes) =>
        .ok { wt := some (WT.mk bits w.alphabet w.nodeOffsets w.nodeRank1s),
              wtBytes := k + rrrBytes, err := none } := by
  unfold payloadOf at h
  unfold NewFromSerialized
  cases h1 : getUint64 buf with
  | error e => rw [h1] at h; cases h
  | ok v1 =>
    rw [h1] at h
    simp only at h ⊢
    cases h2 : sliceTo (List.drop 8 buf) (toInt v1) with
    | error e => rw [h2] at h; cases h
    | ok alphabet =>
      rw [h2] at h
      simp only at h ⊢
      cases h3 : sliceFrom (List.drop 8 buf) (toInt v1) with
      | error e => rw [h3] at h; cases h
      | ok buf3 =>
        rw [h3] at h
        simp only at h ⊢
        cases h4 : getUint64 buf3 with
        | error e => rw [h4] at h; cases h
        | ok v2 =>
          rw [h4] at h
          simp only at h ⊢
          cases h5 : sliceTo (List.drop 8 buf3) (mul8 (toInt v2)) with
          | error e => rw [h5] at h; cases h
          | ok offsetBytes =>
            rw [h5] at h
            simp only at h ⊢
            cases h6 : sliceFrom (List.drop 8 buf3) (mul8 (toInt v2)) with
            | error e => rw [h6] at h; cases h
            | ok buf6 =>
              rw [h6] at h
              simp only at h ⊢
              cases h7 : getUint64 buf6 with
              | error e => rw [h7] at h; cases h
              | ok v3 =>
                rw [h7] at h
                simp only at h ⊢
                cases h8 : sliceTo (List.drop 8 buf6) (mul8 (toInt v3)) with
                | error e => rw [h8] at h; cases h
                | ok rankBytes =>
                  rw [h8] at h
                  simp only at h ⊢
                  cases h9 : sliceFrom (List.drop 8 buf6) (mul8 (toInt v3)) with
                  | error e => rw [h9] at h; cases h
                  | ok buf9 =>
                    rw [h9] at h
                    simp only at h ⊢
                    cases h
                    refine ⟨WT.mk (RRR.mk []) alphabet (byteSliceAsUint64Slice offsetBytes)
                        (byteSliceAsUint64Slice rankBytes),
                      0 + 8 + toInt v1 + 8 + mul8 (toInt v2) + 8 + mul8 (toInt v3), ?_⟩
                    cases rrrNewFromSerialized rest with
                    | error e => rfl
                    | ok r => rfl

/-- C12 (deserialization failure is atomic): for every buffer whose three
length-prefixed sections can be read, leaving the payload `rest`, and every
collaborator whose deserializer rejects `rest` with the error `e`,
`NewFromSerialized` returns no tree, the byte count `0` and the error `e`. -/
theorem deserialization_failure_atomic
    (rrrNewFromSerialized : List Byte → Except Err (RRR × Int)) (buf rest : List Byte) (e : Err)
    (hparse : payloadOf buf = .ok rest) (hrej : rrrNewFromSerialized rest = .error e) :
    NewFromSerialized rrrNewFromSerialized buf =
      .ok { wt := none, wtBytes := 0, err := some e } := by
  obtain ⟨w, k, h⟩ := newFromSerialized_of_payload rrrNewFromSerialized buf rest hparse
  rw [h, hrej]

theorem deserialization_failure_atomic_witness :
    (payloadOf (List.replicate 24 0 ++ [7]) = .ok [7] ∧
      toyNewFromSerialized [7] = .error (Err.rrr 1)) ∧
      NewFromSerialized toyNewFromSerialized (List.replicate 24 0 ++ [7]) =
        .ok { wt := none, wtBytes := 0, err := some (Err.rrr 1) } :=
  ⟨⟨rfl, rfl⟩, deserialization_failure_atomic toyNewFromSerialized
    (List.replicate 24 0 ++ [7]) [7] (Err.rrr 1) rfl rfl⟩

/-! ## The integer logarithm -/

/-- C20 (integer logarithm): for every 64-bit `x ≥ 1`, `log2(x)` is the `m`
with `2^m ≤ x < 2^(m+1)`, `bitLen(x)` is the number of bits of `x`, and
`log2(0) = -1`. -/
theorem log2_spec (x : Nat) (h1 : 1 ≤ x) (h64 : x < 2 ^ 64) :
    (∃ m : Nat, log2 x = (m : Int) ∧ 2 ^ m ≤ x ∧ x < 2 ^ (m + 1)) ∧
      bitLen x = Nat.size x ∧ log2 0 = -1 := by
  have hb := bitLen_eq_size x h64
  have hpos : 0 < Nat.size x := Nat.size_pos.2 (by omega)
  refine ⟨⟨Nat.size x - 1, ?_, ?_, ?_⟩, hb, rfl⟩
  · unfold log2
    rw [hb]
    omega
  · exact Nat.lt_size.1 (by omega)
  · have e : Nat.size x - 1 + 1 = Nat.size x := by omega
    rw [e]
    exact Nat.lt_size_self x

theorem log2_spec_witness :
    (1 ≤ 5 ∧ 5 < 2 ^ 64) ∧
      (∃ m : Nat, log2 5 = (m : Int) ∧ 2 ^ m ≤ 5 ∧ 5 < 2 ^ (m + 1)) ∧
        bitLen 5 = Nat.size 5 ∧ log2 0 = -1 :=
  ⟨⟨by decide, by norm_num⟩, log2_spec 5 (by decide) (by norm_num)⟩


/-! ## The construction loop: sizes and tables -/

theorem le_ceilLog2 (x d : Nat) (h : 2 ^ d ≤ x) : d ≤ ceilLog2 x := by
  unfold ceilLog2
  by_contra hc
  have h1 : x ≤ 2 ^ Nat.clog 2 x := Nat.le_pow_clog (by norm_num) x
  have h2 : 2 ^ Nat.clog 2 x < 2 ^ d := Nat.pow_lt_pow_right (by norm_num) (by omega)
  omega

theorem succ_le_ceilLog2 (x d : Nat) (h : 2 ^ d < x) : d + 1 ≤ ceilLog2 x := by
  unfold ceilLog2
  by_contra hc
  have h1 : x ≤ 2 ^ Nat.clog 2 x := Nat.le_pow_clog (by norm_num) x
  have h2 : 2 ^ Nat.clog 2 x ≤ 2 ^ d := Nat.pow_le_pow_right (by norm_num) (by omega)
  omega

theorem ceilLog2_le_log2 (x : Nat) (hx : x < 2 ^ 64) :
    (ceilLog2 x : Int) ≤ log2 x + 1 := by
  have h : ceilLog2 x ≤ Nat.size x := by
    unfold ceilLog2
    exact (Nat.le_pow_iff_clog_le (by norm_num)).1 (le_of_lt (Nat.lt_size_self x))
  unfold log2
  rw [bitLen_eq_size x hx]
  omega

/-- The bits written by a completed run stay below `⌈log₂σ⌉ * n`. -/
theorem written_le_ceilLog2 (root : n) (B : List Bool) (O : List Nat) (d p : Nat)
    (hb : Built root B O d p) :
    (written (tableAt root d p)).length ≤ ceilLog2 root.alphabet.length * root.s.length := by
  by_cases hex : ∃ x ∈ (level root d).take p, 1 < x.alphabet.length
  · obtain ⟨x, hx, hx1⟩ := hex
    have hlt := lt_of_internal root d x (List.mem_of_mem_take hx) hx1
    have h1 := succ_le_ceilLog2 _ _ hlt
    have h2 := written_tableAt_le root d p
    exact le_trans h2 (Nat.mul_le_mul_right _ h1)
  · have hnone : written ((level root d).take p) = [] := by
      unfold written
      rw [List.flatMap_eq_nil_iff]
      intro x hx
      have h1 : 1 ≤ x.alphabet.length :=
        level_alphabet_pos root d hb.hd x (List.mem_of_mem_take hx)
      have h2 : ¬ 1 < x.alphabet.length := fun h => hex ⟨x, hx, h⟩
      exact region_leaf x (by omega)
    have h1 := le_ceilLog2 _ _ hb.hd
    have h2 := written_length_le (levelsBelow root d)
    rw [levelsBelow_sum] at h2
    simp only [tableAt, written_append, hnone, List.append_nil]
    exact le_trans h2 (Nat.mul_le_mul_right _ h1)

/-- C16 (written bits fit the buffer): for a non-empty sequence `s` of length
`n` with `σ` distinct symbols, `buildTree` runs to completion (a `bits.Set`
outside the capacity would be a panic), the final write cursor is at most
`⌈log₂σ⌉ * n`, which is at most the capacity `(⌊log₂σ⌋ + 1) * n` of the bit
array, and every bit that is set lies below the cursor. -/
theorem written_bits_fit (s : List Byte) (hs : s ≠ []) :
    ∃ st, buildRun s (alphabetOf s) = .ok st ∧
      st.offset ≤ ceilLog2 (alphabetOf s).length * s.length ∧
      ((ceilLog2 (alphabetOf s).length * s.length : Nat) : Int) ≤
        (log2 (alphabetOf s).length + 1) * (s.length : Int) ∧
      st.bits.length = ((log2 (alphabetOf s).length + 1) * (s.length : Int)).toNat ∧
      ∀ pos : Nat, st.bits[pos]? = some true → pos < st.offset := by
  have hσ := alphabetOf_length_le s
  have hne : 1 ≤ (alphabetOf s).length := List.length_pos.2 (alphabetOf_ne_nil s hs)
  obtain ⟨st, d, p, hrun, hfull⟩ := build_full s (alphabetOf s) hne (by omega)
  refine ⟨st, hrun, ?_, ?_, hfull.caplen, ?_⟩
  · rw [hfull.cursor]
    exact written_le_ceilLog2 _ _ _ d p hfull.built
  · have := ceilLog2_le_log2 (alphabetOf s).length (by omega)
    push_cast
    exact mul_le_mul_of_nonneg_right this (Int.ofNat_nonneg _)
  · intro pos hpos
    obtain ⟨k, hk⟩ := hfull.built.hbits
    rw [hfull.cursor]
    by_contra hge
    rw [hk, List.getElem?_append_right (by omega), List.getElem?_replicate] at hpos
    split at hpos <;> cases hpos

theorem written_bits_fit_witness :
    (bananaz ≠ []) ∧
      ∃ st, buildRun bananaz (alphabetOf bananaz) = .ok st ∧
        st.offset ≤ ceilLog2 (alphabetOf bananaz).length * bananaz.length ∧
        ((ceilLog2 (alphabetOf bananaz).length * bananaz.length : Nat) : Int) ≤
          (log2 (alphabetOf bananaz).length + 1) * (bananaz.length : Int) ∧
        st.bits.length =
          ((log2 (alphabetOf bananaz).length + 1) * (bananaz.length : Int)).toNat ∧
        ∀ pos : Nat, st.bits[pos]? = some true → pos < st.offset :=
  ⟨by decide, written_bits_fit bananaz (by decide)⟩

/-- C17 (table consistency): for the tree `w` that `New` returns on a non-empty
sequence, `nodeRank1s` and `nodeOffsets` have as many entries as `buildTree`
dequeued nodes, and entry `k` of `nodeRank1s` is the number of one-bits of the
bit array before position `nodeOffsets[k]`. -/
theorem table_consistency (s : List Byte) (hs : s ≠ []) :
    ∃ w, New rrrOfBits s = .ok w ∧
      w.nodeRank1s.length = w.nodeOffsets.length ∧
      w.nodeOffsets.length =
        (dequeuedOf (buildStates (2 * (alphabetOf s).length + 1)
          (buildInit s (alphabetOf s)))).length ∧
      ∀ (k off : Nat), w.nodeOffsets[k]? = some off →
        w.nodeRank1s[k]? = some ((w.bits.bits.take off).count true) := by
  have hσ := alphabetOf_length_le s
  have hne : 1 ≤ (alphabetOf s).length := List.length_pos.2 (alphabetOf_ne_nil s hs)
  obtain ⟨st, d, p, hrun, hfull⟩ := build_full s (alphabetOf s) hne (by omega)
  have hbt : buildTree s (alphabetOf s) = .ok (st.bits, st.nodeOffsets) := by
    rw [buildTree_eq_run, hrun]
  refine ⟨_, New_eq_of_buildTree s _ _ hbt, ?_, ?_, ?_⟩
  · simp [mkWT, populateNodeRanks]
  · rw [hfull.deq]
    show st.nodeOffsets.length = _
    rw [hfull.built.hoffs, offs_length]
  · intro k off hk
    have hk' : st.nodeOffsets[k]? = some off := hk
    show (populateNodeRanks { bits := st.bits } st.nodeOffsets)[k]? = _
    simp only [populateNodeRanks, List.getElem?_map, hk', Option.map_some', RRR.Rank1]
    rfl

theorem table_consistency_witness :
    (bananaz ≠ []) ∧
      ∃ w, New rrrOfBits bananaz = .ok w ∧
        w.nodeRank1s.length = w.nodeOffsets.length ∧
        w.nodeOffsets.length =
          (dequeuedOf (buildStates (2 * (alphabetOf bananaz).length + 1)
            (buildInit bananaz (alphabetOf bananaz)))).length ∧
        ∀ (k off : Nat), w.nodeOffsets[k]? = some off →
          w.nodeRank1s[k]? = some ((w.bits.bits.take off).count true) :=
  ⟨by decide, table_consistency bananaz (by decide)⟩


/-! ## The construction loop: queue, order and bit runs -/

theorem mem_levelsBelow (root : n) (d : Nat) (x : n) (hx : x ∈ levelsBelow root d) :
    ∃ e, e < d ∧ x ∈ level root e := by
  induction d with
  | zero => simp [levelsBelow] at hx
  | succ d ih =>
    rw [levelsBelow, List.mem_append] at hx
    rcases hx with hx | hx
    · obtain ⟨e, he, hxe⟩ := ih hx
      exact ⟨e, by omega, hxe⟩
    · exact ⟨d, by omega, hx⟩

theorem mem_tableAt (root : n) (d p : Nat) (x : n) (hx : x ∈ tableAt root d p) :
    ∃ e, e ≤ d ∧ x ∈ level root e := by
  rw [tableAt, List.mem_append] at hx
  rcases hx with hx | hx
  · obtain ⟨e, he, hxe⟩ := mem_levelsBelow root d x hx
    exact ⟨e, by omega, hxe⟩
  · exact ⟨d, le_refl _, List.mem_of_mem_take hx⟩

/-- The nodes in the queue of a state that satisfies the invariant have
non-empty sub-sequences. -/
theorem inv_queue_nonempty (root : n) (hroot : NodeOK root) (hfull : NodeFull root)
    (cap e q : Nat) (t : BuildState) (h : Inv root cap e q t) :
    ∀ x ∈ t.queued, x.s ≠ [] := by
  intro x hx
  rw [h.queued, List.mem_append] at hx
  rcases hx with hx | hx
  · have hxl : x ∈ level root e := List.mem_of_mem_drop hx
    exact (level_nodeFull root hroot hfull e h.hd x hxl).s_ne_nil
      (level_alphabet_pos root e h.hd x hxl)
  · obtain ⟨y, hy, hxy⟩ := List.mem_flatMap.1 hx
    rw [List.mem_filter] at hy
    have hyl : y ∈ level root e := List.mem_of_mem_take hy.1
    have hy2 : 2 ≤ y.alphabet.length := by
      have := hy.2
      simp only [decide_eq_true_eq] at this
      omega
    have hyok := level_nodeOK root hroot e h.hd y hyl
    have hyf := level_nodeFull root hroot hfull e h.hd y hyl
    simp only [children, List.mem_cons, List.mem_singleton, List.not_mem_nil, or_false] at hxy
    rcases hxy with rfl | rfl
    · exact (hyf.leftFull hyok hy2).s_ne_nil (by rw [leftChild_alphabet_length]; omega)
    · exact (hyf.rightFull hyok hy2).s_ne_nil (by rw [rightChild_alphabet_length]; omega)

/-- C19 (only non-empty children are enqueued), as amended: for a non-empty
sequence `s`, `buildTree` runs to completion, at the top of every iteration of
its loop every queued node has a non-empty sub-sequence, and, when `s` has at
least two distinct symbols, the counter `internalNodes` is the number of queued
nodes whose alphabet has more than one symbol; when `s` has one distinct
symbol the counter is `1` throughout. -/
theorem queue_invariant (s : List Byte) (hs : s ≠ []) :
    ∃ st, buildRun s (alphabetOf s) = .ok st ∧
      (buildStates (2 * (alphabetOf s).length + 1) (buildInit s (alphabetOf s))).getLast? =
        some st ∧
      buildCond st = false ∧
      ∀ t ∈ buildStates (2 * (alphabetOf s).length + 1) (buildInit s (alphabetOf s)),
        (∀ x ∈ t.queued, x.s ≠ []) ∧
        (2 ≤ (alphabetOf s).length → t.internalNodes = (countInternal t.queued : Int)) ∧
        ((alphabetOf s).length = 1 → t.internalNodes = 1) := by
  have hσ := alphabetOf_length_le s
  have hne : 1 ≤ (alphabetOf s).length := List.length_pos.2 (alphabetOf_ne_nil s hs)
  obtain ⟨st, d, p, hrun, hfull⟩ := build_full s (alphabetOf s) hne (by omega)
  have hok : NodeOK { s := s, alphabet := alphabetOf s } :=
    ⟨alphabetOf_sorted s, fun ch h => (mem_alphabetOf s ch).2 h⟩
  have hnf : NodeFull { s := s, alphabet := alphabetOf s } :=
    fun a ha => (mem_alphabetOf s a).1 ha
  refine ⟨st, hrun, hfull.last, hfull.done, ?_⟩
  intro t ht
  rcases Nat.lt_or_ge 1 (alphabetOf s).length with h2 | h1
  · obtain ⟨e, q, hinv⟩ := hfull.tops h2 t ht
    refine ⟨inv_queue_nonempty _ hok hnf _ e q t hinv, fun _ => hinv.internal, ?_⟩
    intro h1
    omega
  · have hone : (alphabetOf s).length = 1 := by omega
    obtain ⟨-, -, hall⟩ := hfull.single hone
    obtain ⟨hi, hq⟩ := hall t ht
    refine ⟨?_, fun h2 => by omega, fun _ => hi⟩
    intro x hx
    rcases hq with hq | hq
    · rw [hq, List.mem_singleton] at hx
      subst hx
      exact hs
    · rw [hq] at hx
      cases hx

theorem queue_invariant_witness :
    (bananaz ≠ []) ∧
      ∃ st, buildRun bananaz (alphabetOf bananaz) = .ok st ∧
        (buildStates (2 * (alphabetOf bananaz).length + 1)
          (buildInit bananaz (alphabetOf bananaz))).getLast? = some st ∧
        buildCond st = false ∧
        ∀ t ∈ buildStates (2 * (alphabetOf bananaz).length + 1)
            (buildInit bananaz (alphabetOf bananaz)),
          (∀ x ∈ t.queued, x.s ≠ []) ∧
          (2 ≤ (alphabetOf bananaz).length → t.internalNodes = (countInternal t.queued : Int)) ∧
          ((alphabetOf bananaz).length = 1 → t.internalNodes = 1) :=
  ⟨by decide, queue_invariant bananaz (by decide)⟩

/-- C19, the claim as stated fails: for the one-byte sequence `[5]` the loop is
entered with `internalNodes = 1` while the only queued node, the root, has an
alphabet of one symbol. -/
theorem counter_mismatch_singleton :
    ∃ t ∈ buildStates (2 * (alphabetOf [5]).length + 1) (buildInit [5] (alphabetOf [5])),
      t.internalNodes ≠ (countInternal t.queued : Int) := by
  have ha : alphabetOf [5] = [5] := alphabetOf_singleton [5] (by simp) 5 (by simp)
  rw [ha]
  refine ⟨buildInit [5] [5], ?_, ?_⟩
  · have hcond : buildCond (buildInit [5] [5]) = true := by simp [buildCond, buildInit]
    have hstep : buildStep (buildInit [5] [5]) =
        .ok { buildInit [5] [5] with nodeOffsets := [0], queued := [] } := by
      simp [buildStep, buildInit]
    show buildInit [5] [5] ∈ buildStates (2 + 1) (buildInit [5] [5])
    rw [buildStates_step _ _ _ hcond hstep]
    exact List.mem_cons_self _ _
  · simp [buildInit, countInternal]


theorem children_le_one (x : n) (h : x.alphabet.length ≤ 1) :
    (leftChild x).alphabet.length ≤ 1 ∧ (rightChild x).alphabet.length ≤ 1 := by
  rw [leftChild_alphabet_length, rightChild_alphabet_length]
  omega

/-- Below the last recorded level no alphabet has more than one symbol. -/
theorem built_deep_le_one (root : n) (B : List Bool) (O : List Nat) (d p : Nat)
    (hb : Built root B O d p) :
    ∀ e, d < e → ∀ y ∈ level root e, y.alphabet.length ≤ 1 := by
  have hstep : ∀ e, (∀ x ∈ level root e, x.alphabet.length ≤ 1) →
      ∀ y ∈ level root (e + 1), y.alphabet.length ≤ 1 := by
    intro e he y hy
    obtain ⟨x, hx, hxy⟩ := (mem_level_succ root e y).1 hy
    have := children_le_one x (he x hx)
    rcases hxy with rfl | rfl
    · exact this.1
    · exact this.2
  have hbase : ∀ y ∈ level root (d + 1), y.alphabet.length ≤ 1 := by
    intro y hy
    obtain ⟨x, hx, hxy⟩ := (mem_level_succ root d y).1 hy
    have hcases : (leftChild x).alphabet.length ≤ 1 ∧ (rightChild x).alphabet.length ≤ 1 := by
      rw [← List.take_append_drop p (level root d), List.mem_append] at hx
      rcases hx with hx | hx
      · by_cases hi : 1 < x.alphabet.length
        · exact hb.kids x hx hi
        · exact children_le_one x (by omega)
      · exact children_le_one x (hb.rest x hx)
    rcases hxy with rfl | rfl
    · exact hcases.1
    · exact hcases.2
  intro e he
  obtain ⟨j, rfl⟩ : ∃ j, e = d + 1 + j := ⟨e - (d + 1), by omega⟩
  induction j with
  | zero => exact hbase
  | succ j ih => exact hstep _ (ih (by omega))

/-- Beyond the table no node has more than one symbol. -/
theorem built_beyond_le_one (root : n) (B : List Bool) (O : List Nat) (d p : Nat)
    (hb : Built root B O d p) (k : Nat) (hk : 2 ^ d - 1 + p < k) :
    (nodeAt root k).alphabet.length ≤ 1 := by
  obtain ⟨e, q, hq, rfl⟩ := heap_index_split k (by omega)
  have hnode := nodeAt_level root e q hq
  have hmem : nodeAt root (2 ^ e + q) ∈ level root e := List.getElem?_mem hnode
  have hp := hb.hp
  have hde : d ≤ e := by
    by_contra hc
    have : 2 ^ (e + 1) ≤ 2 ^ d := Nat.pow_le_pow_right (by norm_num) (by omega)
    rw [pow_succ] at this
    omega
  rcases Nat.lt_or_ge d e with hlt | hge
  · exact built_deep_le_one root B O d p hb e hlt _ hmem
  · have hed : e = d := le_antisymm hge hde
    subst hed
    apply hb.rest
    have hpq : p ≤ q := by
      have := Nat.two_pow_pos e
      omega
    have : ((level root e).drop p)[q - p]? = some (nodeAt root (2 ^ e + q)) := by
      rw [List.getElem?_drop]
      have : p + (q - p) = q := by omega
      rw [this]; exact hnode
    exact List.getElem?_mem this

/-- C14 (breadth-first order equals heap order), as amended: for a non-empty
sequence `s`, the nodes that `buildTree` dequeues are, in order, the nodes with
heap indices `1 .. m` of the implicit tree, where `m = len(nodeOffsets)` is the
largest heap index of a node with more than one symbol (`m = 1` for a single
symbol); `nodeOffsets` holds for each of them the number of bits written by the
nodes before it; and for a dequeued node `k` with more than one symbol, a child
index `2k` or `2k+1` that exceeds `m` denotes a node with exactly one symbol. -/
theorem bfs_is_heap_order (s : List Byte) (hs : s ≠ []) :
    ∃ bits O, buildTree s (alphabetOf s) = .ok (bits, O) ∧
      dequeuedOf (buildStates (2 * (alphabetOf s).length + 1) (buildInit s (alphabetOf s))) =
        (List.range O.length).map
          (fun j => nodeAt { s := s, alphabet := alphabetOf s } (j + 1)) ∧
      (∀ k, O.length < k →
        (nodeAt { s := s, alphabet := alphabetOf s } k).alphabet.length ≤ 1) ∧
      (2 ≤ (alphabetOf s).length →
        1 < (nodeAt { s := s, alphabet := alphabetOf s } O.length).alphabet.length) ∧
      ((alphabetOf s).length = 1 → O.length = 1) ∧
      O = offs (dequeuedOf
        (buildStates (2 * (alphabetOf s).length + 1) (buildInit s (alphabetOf s)))) ∧
      ∀ k, 1 ≤ k → k ≤ O.length →
        1 < (nodeAt { s := s, alphabet := alphabetOf s } k).alphabet.length →
        (O.length < 2 * k →
          (nodeAt { s := s, alphabet := alphabetOf s } (2 * k)).alphabet.length = 1) ∧
        (O.length < 2 * k + 1 →
          (nodeAt { s := s, alphabet := alphabetOf s } (2 * k + 1)).alphabet.length = 1) := by
  have hσ := alphabetOf_length_le s
  have hne : 1 ≤ (alphabetOf s).length := List.length_pos.2 (alphabetOf_ne_nil s hs)
  obtain ⟨st, d, p, hrun, hfull⟩ := build_full s (alphabetOf s) hne (by omega)
  have hbt : buildTree s (alphabetOf s) = .ok (st.bits, st.nodeOffsets) := by
    rw [buildTree_eq_run, hrun]
  have hb := hfull.built
  have hlen : st.nodeOffsets.length = 2 ^ d - 1 + p := by
    rw [hb.hoffs, offs_length, tableAt_length _ d p hb.hp]
  have hbeyond : ∀ k, st.nodeOffsets.length < k →
      (nodeAt { s := s, alphabet := alphabetOf s } k).alphabet.length ≤ 1 := by
    intro k hk
    rw [hlen] at hk
    exact built_beyond_le_one _ _ _ d p hb k hk
  refine ⟨st.bits, st.nodeOffsets, hbt, ?_, hbeyond, ?_, ?_, ?_, ?_⟩
  · rw [hfull.deq, hlen]
    exact tableAt_eq_map _ d p hb.hp
  · intro h2
    obtain ⟨x, hx, hx1⟩ := hfull.lastInternal h2
    have hroot := hb.hroot
    have hget := tableAt_get { s := s, alphabet := alphabetOf s } d p hb.hp
      (2 ^ d - 1 + p - 1) (by omega)
    rw [List.getLast?_eq_getElem?, tableAt_length _ d p hb.hp, hget] at hx
    have e1 : 2 ^ d - 1 + p - 1 + 1 = st.nodeOffsets.length := by omega
    rw [e1] at hx
    rw [Option.some.inj hx]
    exact hx1
  · intro h1
    obtain ⟨hd, hp, -⟩ := hfull.single h1
    rw [hlen, hd, hp]
    rfl
  · rw [hfull.deq]
    exact hb.hoffs
  · intro k hk1 hk2 hint
    constructor
    · intro hlt
      have h1 := hbeyond (2 * k) hlt
      rw [nodeAt_left _ k hk1, leftChild_alphabet_length] at h1 ⊢
      omega
    · intro hlt
      have h1 := hbeyond (2 * k + 1) hlt
      rw [nodeAt_right _ k hk1, rightChild_alphabet_length] at h1 ⊢
      omega

theorem bfs_is_heap_order_witness :
    (bananaz ≠ []) ∧
      ∃ bits O, buildTree bananaz (alphabetOf bananaz) = .ok (bits, O) ∧
        dequeuedOf (buildStates (2 * (alphabetOf bananaz).length + 1)
            (buildInit bananaz (alphabetOf bananaz))) =
          (List.range O.length).map
            (fun j => nodeAt { s := bananaz, alphabet := alphabetOf bananaz } (j + 1)) ∧
        (∀ k, O.length < k →
          (nodeAt { s := bananaz, alphabet := alphabetOf bananaz } k).alphabet.length ≤ 1) ∧
        (2 ≤ (alphabetOf bananaz).length →
          1 < (nodeAt { s := bananaz, alphabet := alphabetOf bananaz }
            O.length).alphabet.length) ∧
        ((alphabetOf bananaz).length = 1 → O.length = 1) ∧
        O = offs (dequeuedOf (buildStates (2 * (alphabetOf bananaz).length + 1)
          (buildInit bananaz (alphabetOf bananaz)))) ∧
        ∀ k, 1 ≤ k → k ≤ O.length →
          1 < (nodeAt { s := bananaz, alphabet := alphabetOf bananaz } k).alphabet.length →
          (O.length < 2 * k →
            (nodeAt { s := bananaz, alphabet := alphabetOf bananaz }
              (2 * k)).alphabet.length = 1) ∧
          (O.length < 2 * k + 1 →
            (nodeAt { s := bananaz, alphabet := alphabetOf bananaz }
              (2 * k + 1)).alphabet.length = 1) :=
  ⟨by decide, bfs_is_heap_order bananaz (by decide)⟩

set_option maxRecDepth 100000 in
/-- C14, the claim as stated fails: for the sequence `sixSymbols` six nodes are
dequeued (`m = 6`) and the fifth is a leaf; its child index `11` exceeds
`len(nodeOffsets)`, and node `11`, which owns what is left of the leaf's
alphabet after its first symbol, has no symbol at all.  `Access(6)` reaches
that index: it reads a one-bit at the leaf and moves to node `11`. -/
theorem recorded_leaf_right_child_empty :
    ∃ bits O, buildTree sixSymbols (alphabetOf sixSymbols) = .ok (bits, O) ∧ O.length = 6 ∧
      (nodeAt { s := sixSymbols, alphabet := alphabetOf sixSymbols } 5).alphabet = [2] ∧
      O.length < 2 * 5 + 1 ∧
      (nodeAt { s := sixSymbols, alphabet := alphabetOf sixSymbols } (2 * 5 + 1)).alphabet.length
        ≠ 1 := by
  refine ⟨_, _, rfl, rfl, rfl, by decide, ?_⟩
  have h : (nodeAt { s := sixSymbols, alphabet := alphabetOf sixSymbols }
      (2 * 5 + 1)).alphabet = [] := rfl
  rw [h]
  decide

theorem offs_get_take (T : List n) (j : Nat) (hj : j < T.length) :
    (offs T)[j]? = some (written (T.take j)).length := by
  unfold offs
  rw [List.getElem?_map, List.getElem?_range hj]
  rfl

theorem written_take_succ (T : List n) (j : Nat) (x : n) (hx : T[j]? = some x) :
    written (T.take (j + 1)) = written (T.take j) ++ region x := by
  rw [List.take_succ, hx, written_append]
  simp [written]

/-- C15 (node bit runs): for a non-empty sequence `s` and every node `x` that
`buildTree` dequeues (the `j`-th, counting from `0`), with `t` the sub-sequence
of the symbols of `s` that belong to the alphabet `A` of `x`: the offset table
has an entry `off` for `x`; when `A` has more than one symbol, bit `off + i` of
the flat array is `1` exactly when `t[i] ≥ A[(len(A)+1)/2]`, for every
`i < len(t)`, and the next entry of the offset table, when there is one, is
`off + len(t)`; when `A` has one symbol the next entry is `off`. -/
theorem node_bit_runs (s : List Byte) (hs : s ≠ []) :
    ∃ bits O, buildTree s (alphabetOf s) = .ok (bits, O) ∧
      ∀ (j : Nat) (x : n),
        (dequeuedOf (buildStates (2 * (alphabetOf s).length + 1)
          (buildInit s (alphabetOf s))))[j]? = some x →
        ∃ off, O[j]? = some off ∧
          (1 < x.alphabet.length →
            ∃ mc, x.alphabet[(x.alphabet.length + 1) / 2]? = some mc ∧
              (∀ (i : Nat) (ch : Byte),
                (s.filter (fun c => decide (c ∈ x.alphabet)))[i]? = some ch →
                bits[off + i]? = some (decide (mc ≤ ch))) ∧
              ∀ off', O[j + 1]? = some off' →
                off' = off + (s.filter (fun c => decide (c ∈ x.alphabet))).length) ∧
          (x.alphabet.length = 1 → ∀ off', O[j + 1]? = some off' → off' = off) := by
  have hσ := alphabetOf_length_le s
  have hne : 1 ≤ (alphabetOf s).length := List.length_pos.2 (alphabetOf_ne_nil s hs)
  obtain ⟨st, d, p, hrun, hfull⟩ := build_full s (alphabetOf s) hne (by omega)
  have hbt : buildTree s (alphabetOf s) = .ok (st.bits, st.nodeOffsets) := by
    rw [buildTree_eq_run, hrun]
  have hok : NodeOK { s := s, alphabet := alphabetOf s } :=
    ⟨alphabetOf_sorted s, fun ch h => (mem_alphabetOf s ch).2 h⟩
  have hb := hfull.built
  refine ⟨st.bits, st.nodeOffsets, hbt, ?_⟩
  intro j x hx
  rw [hfull.deq] at hx
  have hjl := getElem?_some_lt hx
  have hoff := offs_get_take _ j hjl
  rw [← hb.hoffs] at hoff
  have hnext : ∀ off', st.nodeOffsets[j + 1]? = some off' →
      off' = (written ((tableAt { s := s, alphabet := alphabetOf s } d p).take j)).length +
        (region x).length := by
    intro off' h'
    have hj1 := getElem?_some_lt h'
    rw [hb.hoffs, offs_length] at hj1
    have := offs_get_take _ (j + 1) hj1
    rw [← hb.hoffs, h', written_take_succ _ j x hx, List.length_append] at this
    exact Option.some.inj this
  obtain ⟨e, hed, hxe⟩ := mem_tableAt _ d p x (List.getElem?_mem hx)
  have hσe : 2 ^ e ≤ (alphabetOf s).length :=
    le_trans (Nat.pow_le_pow_right (by norm_num) hed) hb.hd
  have hxs := level_s_eq_filter { s := s, alphabet := alphabetOf s } hok e hσe x hxe
  refine ⟨_, hoff, ?_, ?_⟩
  · intro hint
    have hreg := region_internal x (by omega)
    refine ⟨midCh x.alphabet, midCh_eq x.alphabet (by omega), ?_, ?_⟩
    · intro i ch hi
      have hi' : x.s[i]? = some ch := by rw [hxs]; exact hi
      have hil := getElem?_some_lt hi'
      obtain ⟨k, hk⟩ := hb.hbits
      have hsplit : tableAt { s := s, alphabet := alphabetOf s } d p =
          (tableAt { s := s, alphabet := alphabetOf s } d p).take j ++
            x :: (tableAt { s := s, alphabet := alphabetOf s } d p).drop (j + 1) :=
        list_split_at _ j x hx
      have hB : st.bits =
          written ((tableAt { s := s, alphabet := alphabetOf s } d p).take j) ++ region x ++
            (written ((tableAt { s := s, alphabet := alphabetOf s } d p).drop (j + 1)) ++
              List.replicate k false) := by
        conv_lhs => rw [hk, hsplit]
        rw [written_append]
        simp [written]
      conv_lhs => rw [hB]
      rw [get_append_mid _ _ _ _ (by rw [hreg, List.length_map]; exact hil), hreg,
        List.getElem?_map, hi']
      have hdec : (!decide (ch < midCh x.alphabet)) = decide (midCh x.alphabet ≤ ch) := by
        by_cases h : ch < midCh x.alphabet
        · simp [h]
        · simp [h, not_lt.1 h]
      simp only [Option.map_some', hdec]
    · intro off' h'
      rw [hnext off' h', hreg, List.length_map, hxs]
  · intro hleaf off' h'
    rw [hnext off' h', region_leaf x hleaf]
    rfl

theorem node_bit_runs_witness :
    (bananaz ≠ []) ∧
      ∃ bits O, buildTree bananaz (alphabetOf bananaz) = .ok (bits, O) ∧
        ∀ (j : Nat) (x : n),
          (dequeuedOf (buildStates (2 * (alphabetOf bananaz).length + 1)
            (buildInit bananaz (alphabetOf bananaz))))[j]? = some x →
          ∃ off, O[j]? = some off ∧
            (1 < x.alphabet.length →
              ∃ mc, x.alphabet[(x.alphabet.length + 1) / 2]? = some mc ∧
                (∀ (i : Nat) (ch : Byte),
                  (bananaz.filter (fun c => decide (c ∈ x.alphabet)))[i]? = some ch →
                  bits[off + i]? = some (decide (mc ≤ ch))) ∧
                ∀ off', O[j + 1]? = some off' →
                  off' = off + (bananaz.filter (fun c => decide (c ∈ x.alphabet))).length) ∧
            (x.alphabet.length = 1 → ∀ off', O[j + 1]? = some off' → off' = off) :=
  ⟨by decide, node_bit_runs bananaz (by decide)⟩


/-! ## Queries: iteration bound and positions read -/

theorem inverseSelectLoop_singleton (a : Byte) (k i fuel : Nat) (hi : i < k) (hk : k < 2 ^ 64) :
    inverseSelectLoop (mkWT [a] (List.replicate k false) [0]) (fuel + 1) 1 [a] i = .ok (a, i) := by
  have hadd : add64 0 i = i := add64_eq 0 i (by omega) ▸ by simp
  have hO : idx (mkWT [a] (List.replicate k false) [0]).nodeOffsets (1 - 1) = .ok 0 := rfl
  have hR : idx (mkWT [a] (List.replicate k false) [0]).nodeRank1s (1 - 1) = .ok 0 := by
    simp [mkWT, populateNodeRanks, RRR.Rank1, idx]
  have hbit : (mkWT [a] (List.replicate k false) [0]).bits.Access (add64 0 i) = .ok false := by
    rw [hadd]
    apply idx_eq_ok
    simp [mkWT, List.getElem?_replicate, hi]
  have hrank : (mkWT [a] (List.replicate k false) [0]).bits.Rank0 i = i := by
    simp [mkWT, RRR.Rank0, List.take_replicate, List.count_replicate]
    omega
  have hs0 : sub64 0 0 = 0 := by simp [sub64]
  have hsi : sub64 i 0 = i := sub64_eq i 0 (Nat.zero_le _) (by omega)
  rw [inverseSelectLoop_left _ _ _ _ _ _ _ hO hbit hR, hadd, hrank, hs0, hsi]
  have e1 : List.take (([a].length + 1) / 2) [a] = [a] := by simp
  rw [e1]
  simp [idx]

theorem ceilLog2_one : ceilLog2 1 = 0 := by
  simp [ceilLog2]

/-- C18 (bounded descent): for a sequence `s` (of fewer than `2^59` bytes) with
`σ` distinct symbols, a position `i < len(s)` and a byte `c`, the loops of
`Access(i)`, `InverseSelect(i)` and `Rank(c, i)` on `New(s)` return within a
budget of `⌈log₂σ⌉ + 1` iterations (every iteration of the modelled loops uses
one unit of the budget), and they return a value, not a panic of an index
expression; for a byte `c` that does not occur `Rank` returns before its
loop. -/
theorem bounded_descent (s : List Byte) (i : Nat) (hi : i < s.length)
    (hlen : s.length < 2 ^ 59) (c : Byte) :
    ∃ w, New rrrOfBits s = .ok w ∧
      accessLoop w (ceilLog2 w.alphabet.length + 1) 1 w.alphabet i = .ok s[i] ∧
      inverseSelectLoop w (ceilLog2 w.alphabet.length + 1) 1 w.alphabet i =
        .ok (s[i], occurrencesBefore s s[i] i) ∧
      (c ∈ s → rankLoop w c (ceilLog2 w.alphabet.length + 1) 1 w.alphabet i =
        .ok (occurrencesBefore s c i)) ∧
      (c ∉ s → w.Rank c i = .ok 0) := by
  have hs : s ≠ [] := List.ne_nil_of_length_pos (by omega)
  obtain ⟨B, O, d, p, hnew, ctx⟩ := New_ctx s hs hlen
  obtain ⟨h1, -⟩ := ctx.root_in_table
  have hd : d ≤ ceilLog2 (alphabetOf s).length := le_ceilLog2 _ _ ctx.built.hd
  have hget : s[i]? = some s[i] := List.getElem?_eq_getElem hi
  have hroot : (level { s := s, alphabet := alphabetOf s } 0)[0]? =
      some { s := s, alphabet := alphabetOf s } := rfl
  have hpos : 1 ≤ (alphabetOf s).length := List.length_pos.2 (alphabetOf_ne_nil s hs)
  refine ⟨_, hnew, ?_, ?_, ?_, ?_⟩
  · have := accessLoop_correct ctx (ceilLog2 (alphabetOf s).length + 1) 0 0 i
      { s := s, alphabet := alphabetOf s } s[i] hroot (by simp) h1 hget (by omega)
    simpa [mkWT] using this
  · rw [← count_take_eq_occurrences]
    rcases Nat.lt_or_ge 1 (alphabetOf s).length with hσ | hσ
    · have := inverseSelectLoop_correct ctx (ceilLog2 (alphabetOf s).length + 1) 0 0 i
        { s := s, alphabet := alphabetOf s } s[i] hroot (by simp) h1 hσ hget (by omega)
      simpa [mkWT] using this
    · obtain ⟨a, ha⟩ := List.length_eq_one.1 (le_antisymm hσ hpos)
      rw [ha] at ctx ⊢
      obtain ⟨hO, hB, hBl⟩ := singleton_shape ctx
      have hmem : s[i] ∈ [a] := ctx.ok.2 _ (List.getElem?_mem hget)
      have hcnt := leaf_rank_eq_count { s := s, alphabet := [a] } ctx.ok rfl s[i] hmem (s.take i)
        (fun b h => List.mem_of_mem_take h)
      rw [hcnt, List.length_take, Nat.min_eq_left (le_of_lt hi)]
      have hca : s[i] = a := by simpa using hmem
      rw [hO, hB, hca]
      show inverseSelectLoop _ (ceilLog2 1 + 1) 1 [a] i = _
      rw [ceilLog2_one]
      exact inverseSelectLoop_singleton a B.length i 0 (by omega) ctx.fit
  · intro hc
    rw [← count_take_eq_occurrences]
    have hmem : c ∈ alphabetOf s := (mem_alphabetOf s c).2 hc
    rcases Nat.lt_or_ge 1 (alphabetOf s).length with hσ | hσ
    · have := rankLoop_correct ctx c (ceilLog2 (alphabetOf s).length + 1) 0 0 i
        { s := s, alphabet := alphabetOf s } hroot (by simp) h1 hσ hmem (le_of_lt hi) (by omega)
      simpa [mkWT] using this
    · have hleaf : (alphabetOf s).length = 1 := by omega
      obtain ⟨x', tail, hx', hok, -, -, -, hO, -, -⟩ := ctx.view 0 0 (by simp) h1
      have hO' : idx (mkWT (alphabetOf s) B O).nodeOffsets (1 - 1) = .ok (offAt _ 0 0) := hO
      show rankLoop (mkWT (alphabetOf s) B O) c (ceilLog2 (alphabetOf s).length + 1) 1
        (alphabetOf s) i = _
      rw [rankLoop_leaf _ _ _ _ _ _ _ hO' hleaf]
      have := leaf_rank_eq_count { s := s, alphabet := alphabetOf s } ctx.ok hleaf c hmem
        (s.take i) (fun ch h => List.mem_of_mem_take h)
      rw [this, List.length_take, Nat.min_eq_left (le_of_lt hi)]
  · intro hc
    have hnf : foundIn (alphabetOf s) c = false := by
      rw [← Bool.not_eq_true, foundIn_iff, mem_alphabetOf]; exact hc
    simp [WT.Rank, mkWT, hnf]

theorem bounded_descent_witness :
    (2 < bananaz.length ∧ bananaz.length < 2 ^ 59) ∧
      ∃ w, New rrrOfBits bananaz = .ok w ∧
        accessLoop w (ceilLog2 w.alphabet.length + 1) 1 w.alphabet 2 = .ok 110 ∧
        inverseSelectLoop w (ceilLog2 w.alphabet.length + 1) 1 w.alphabet 2 =
          .ok (110, occurrencesBefore bananaz 110 2) ∧
        (97 ∈ bananaz → rankLoop w 97 (ceilLog2 w.alphabet.length + 1) 1 w.alphabet 2 =
          .ok (occurrencesBefore bananaz 97 2)) ∧
        (97 ∉ bananaz → w.Rank 97 2 = .ok 0) :=
  ⟨⟨by decide, by norm_num [bananaz]⟩,
    bounded_descent bananaz 2 (by decide) (by norm_num [bananaz]) 97⟩

set_option maxRecDepth 100000 in
/-- C13 (unwritten tail is never read), at the failing inputs.  For the
one-byte sequence `[5]` no bit is written (the write cursor stays `0`) and both
`Access(0)` and `InverseSelect(0)` read bit `0`.  For `sixSymbols` the write
cursor ends at `20` and `Access(7)`, which returns the right symbol, reads the
bits `7`, `12` and `20`: the last read is made at a leaf that has a slot in the
offset table and addresses the first unwritten bit. -/
theorem reads_unwritten :
    (∃ st w, buildRun [5] (alphabetOf [5]) = .ok st ∧ New rrrOfBits [5] = .ok w ∧
      st.offset = 0 ∧ w.Access 0 = .ok 5 ∧
      accessReads w (w.nodeOffsets.length + 1) 1 w.alphabet 0 = [0] ∧
      inverseSelectReads w (w.nodeOffsets.length + 1) 1 w.alphabet 0 = [0]) ∧
    (∃ st w, buildRun sixSymbols (alphabetOf sixSymbols) = .ok st ∧
      New rrrOfBits sixSymbols = .ok w ∧ st.offset = 20 ∧ w.Access 7 = .ok 2 ∧
      accessReads w (w.nodeOffsets.length + 1) 1 w.alphabet 7 = [7, 12, 20]) := by
  refine ⟨⟨_, _, rfl, rfl, ?_, ?_, ?_, ?_⟩, ⟨_, _, rfl, rfl, ?_, ?_, ?_⟩⟩ <;> rfl


/-! ## The package's test vectors, evaluated on the embedding -/

set_option maxRecDepth 100000 in
/-- The test `TestRank` and the first assertions of `TestConstruction`: on
`"bananaz"`, `Access(0..2)` is `b`, `a`, `n`, `Rank('a', 2) = 1`,
`Rank('n', 5) = 2` and `Rank('o', 5) = 0`. -/
theorem scenario_bananaz :
    ∃ w, New rrrOfBits bananaz = .ok w ∧ w.Access 0 = .ok 98 ∧ w.Access 1 = .ok 97 ∧
      w.Access 2 = .ok 110 ∧ w.Rank 97 2 = .ok 1 ∧ w.Rank 110 5 = .ok 2 ∧
      w.Rank 111 5 = .ok 0 := by
  refine ⟨_, rfl, ?_, ?_, ?_, ?_, ?_, ?_⟩ <;> rfl

set_option maxRecDepth 100000 in
/-- The test `TestAccess`: on `"ipssm\x00pissii"`, reading the twelve positions
gives the text back and `Rank('i', 10) = 2`. -/
theorem scenario_ipssm :
    ∃ w, New rrrOfBits ipssm = .ok w ∧
      (List.range 12).map (fun i => w.Access i) = ipssm.map (fun ch => Except.ok ch) ∧
      w.Rank 105 10 = .ok 2 := by
  refine ⟨_, rfl, ?_, ?_⟩ <;> rfl

end Wt
